import Mathlib

/-!
# xv6 console driver with the colour-table overlay (`kernel/console.c`)

A shallow embedding of the console driver: the input ring buffer and its line
discipline (`consoleintr`, `consoleread`), the CGA output path (`cgaputc`,
`consputc`) and the colour-menu overlay (`drawTable`, `copyShowingArray`,
`changeColor`, `changeLight`, `Colorize`).

Conventions of the embedding

* C `int` variables are `Int`; signed overflow is undefined behaviour in C and
  is not modelled.
* C `uint` cursors (`input.r`, `input.w`, `input.e`) are `Nat` with every
  increment, decrement and subtraction taken modulo `2 ^ 32`.
* `char` cells of `input.buf` are kept as the byte value `0..255` (the unsigned
  reading of the stored `char`); the only comparisons the driver makes on them
  (`'\n'`, `C('D')`) are with values below 128, where both readings agree.
* `crt` is the memory-mapped array of 16-bit cells, a function from the cell
  index to the cell value.
* A call that ends in `panic` (which never returns) or in the `for(;;)` of a
  panicked `consputc` yields `none`.
-/

namespace Console

/-! ## Constants -/

/-- Erase code, `#define BACKSPACE 0x100`. -/
def BACKSPACE : Nat := 0x100

/-- Capacity of the ring buffer, `#define INPUT_BUF 128`. -/
def INPUT_BUF : Nat := 128

/-- Modulus of the C type `uint`. -/
def UINT : Nat := 4294967296

/-- Global `int fgColorConst = 4096;` (never assigned afterwards). -/
def fgColorConst : Int := 4096
/-- Global `int bgColorConst = 256;` (never assigned afterwards). -/
def bgColorConst : Int := 256
/-- Global `int isLightConstFg = 2048;` (never assigned afterwards). -/
def isLightConstFg : Int := 2048
/-- Global `int isLightConstBg = 32768;` (never assigned afterwards). -/
def isLightConstBg : Int := 32768

/-! ## State -/

/-- The `input` structure: the ring buffer and its three `uint` cursors. -/
structure Input where
  buf : Nat → Nat
  r : Nat
  w : Nat
  e : Nat

/-- All the mutable state `console.c` works on. `cursor` is the cursor
location held by the CRT controller (registers 14 and 15); `emitted` is a
history variable recording the argument of every `consputc` call. -/
structure State where
  panicked : Int
  selectedRow : Int
  selectedCol : Int
  tableActive : Int
  isLightFg : Int
  isLightBg : Int
  selectedBgClr : Int
  selectedFgClr : Int
  crt : Nat → Nat
  cursor : Nat
  tempDeletedTable : Nat → Nat
  input : Input
  emitted : List Nat

/-- The static initialisers of `console.c`, over whatever the display
hardware holds at boot (`crt0`, `cursor0`). -/
def State.init (crt0 : Nat → Nat) (cursor0 : Nat) : State where
  panicked := 0
  selectedRow := 2
  selectedCol := 0
  tableActive := 0
  isLightFg := 0
  isLightBg := 0
  selectedBgClr := 7
  selectedFgClr := 0
  crt := crt0
  cursor := cursor0
  tempDeletedTable := fun _ => 0
  input := { buf := fun _ => 0, r := 0, w := 0, e := 0 }
  emitted := []

/-- Array store `a[i] = v`. -/
def store (a : Nat → Nat) (i v : Nat) : Nat → Nat :=
  fun k => if k = i then v else a k

/-- C logical negation `!x` on an `int`. -/
def lnot (x : Int) : Int := if x = 0 then 1 else 0

/-- Subtraction `a - b` in the type `uint`. -/
def usub (a b : Nat) : Nat := (a + UINT - b % UINT) % UINT

/-- The colour expression
`bgColorConst * selectedBgClr + fgColorConst * selectedFgClr
 + isLightFg * isLightConstFg + isLightBg * isLightConstBg`, an `int`. -/
def colorExpr (s : State) : Int :=
  bgColorConst * s.selectedBgClr + fgColorConst * s.selectedFgClr
    + s.isLightFg * isLightConstFg + s.isLightBg * isLightConstBg

/-- The 16 bits of `colorExpr` that a store into a `ushort` cell keeps.
Each cell store in the driver has the shape `crt[i] = g | colorExpr`; the
truncation to 16 bits distributes over `|`, so the stored cell is
`(g mod 2^16) ||| attr`. -/
def attr (s : State) : Nat := (colorExpr s % 65536).toNat

/-! ## Display output -/

/-- The scroll copy `memmove(crt, crt+80, sizeof(crt[0])*23*80)`. -/
def scrollUp (crt : Nat → Nat) : Nat → Nat :=
  fun k => if k < 23 * 80 then crt (k + 80) else crt k

/-- The clearing `memset(crt+pos, 0, sizeof(crt[0])*(24*80 - pos))`. -/
def clearFrom (crt : Nat → Nat) (pos : Nat) : Nat → Nat :=
  fun k => if pos ≤ k ∧ k < pos + (24 * 80 - pos) then 0 else crt k

/-- The cursor `pos` of `cgaputc(c)` after its first `if` chain:
`if(c == '\n') pos += 80 - pos%80; else if(c == BACKSPACE){ if(pos > 0) --pos; }
else crt[pos++] = ...`. The character codes are written as numbers: 10 is the
newline. -/
def cgaMove (s : State) (c : Nat) : Nat :=
  let pos := s.cursor
  if c = 10 then pos + (80 - pos % 80)
  else if c = BACKSPACE then (if pos > 0 then pos - 1 else pos)
  else pos + 1

/-- The cells after the first `if` chain of `cgaputc(c)`: only an ordinary
character is written, `crt[pos++] = (c&0xff) | colorExpr`. -/
def cgaWrite (s : State) (c : Nat) : Nat → Nat :=
  if c = 10 then s.crt
  else if c = BACKSPACE then s.crt
  else store s.crt s.cursor ((c % 256) ||| attr s)

/-- Whether `cgaputc(c)` takes its scroll branch `if((pos/80) >= 24)`. -/
def cgaScrolls (s : State) (c : Nat) : Bool :=
  decide (cgaMove s c ≤ 25 * 80) && decide (cgaMove s c / 80 ≥ 24)

/-- Function `cgaputc(c)`. The cursor is read from the CRT controller, moved
or written at, checked (`panic("pos under/overflow")` gives `none`; `pos < 0`
cannot hold for a cursor read from two byte registers), scrolled when it
reaches row 24, written back, and a blank (32) is put under it. The value
written back to the controller is at most 1920, so splitting it into two
bytes loses nothing. -/
def cgaputc (s : State) (c : Nat) : Option State :=
  let crt1 := cgaWrite s c
  let pos1 := cgaMove s c
  if pos1 > 25 * 80 then none
  else
    let crt2 : Nat → Nat :=
      if pos1 / 80 ≥ 24 then clearFrom (scrollUp crt1) (pos1 - 80) else crt1
    let pos2 : Nat := if pos1 / 80 ≥ 24 then pos1 - 80 else pos1
    some { s with crt := store crt2 pos2 (32 ||| attr s), cursor := pos2 }

/-- A run of `k` calls `cgaputc('\n')`, with the number of those that scrolled. -/
def cgaNewlines : Nat → State → Option (State × Nat)
  | 0, s => some (s, 0)
  | k + 1, s =>
    match cgaputc s 10 with
    | none => none
    | some s1 =>
      (cgaNewlines k s1).map fun r => (r.1, r.2 + (if cgaScrolls s 10 then 1 else 0))

/-- Function `consputc(c)`: spins forever once `panicked` is set, otherwise sends the
character to the serial port (not modelled) and to `cgaputc`. -/
def consputc (s : State) (c : Nat) : Option State :=
  if s.panicked ≠ 0 then none
  else cgaputc { s with emitted := s.emitted ++ [c] } c

/-! ## The colour-menu overlay -/

/-- The loop `for(int i = lo; i < lo + n; i++) crt[i] = g(i, crt[i]);`. -/
def forCells (g : Nat → Nat → Nat) : Nat → Nat → (Nat → Nat) → (Nat → Nat)
  | 0, _, m => m
  | n + 1, i, m => forCells g n (i + 1) (store m i (g i (m i)))

/-- A C string literal as the list of its character codes. -/
def cstr (s : String) : List Nat := s.toList.map Char.toNat

/-- The ten menu rows drawn by `drawTable`, top to bottom. -/
def tableRows : List (List Nat) :=
  [cstr "/---<BG>--- ---<FG>---\\",
   cstr "|Black     |Black     |",
   cstr "|Blue      |Blue      |",
   cstr "|Green     |Green     |",
   cstr "|Aqua      |Aqua      |",
   cstr "|Red       |Red       |",
   cstr "|Purple    |Purple    |",
   cstr "|Yellow    |Yellow    |",
   cstr "|White     |White     |",
   cstr "\\---------------------/"]

/-- The body `crt[i] = str[i - start + strlen(str)] | a` of the drawing loops. -/
def glyphAt (str : List Nat) (start a : Nat) (i : Nat) (_old : Nat) : Nat :=
  str.getD (i + str.length - start) 0 ||| a

/-- Function `makeLeftClmnActive(str, start)`: the left half of the row gets
the highlight attribute `0x7000`, the rest `0x0700`. -/
def makeLeftClmnActive (s : State) (str : List Nat) (start : Nat) : State :=
  let len := str.length
  let mid := start - len / 2 - 1
  let crt1 := forCells (glyphAt str start 0x7000) (mid - (start - len)) (start - len) s.crt
  { s with crt := forCells (glyphAt str start 0x0700) (start - mid) mid crt1 }

/-- Function `makeRightClmnActive(str, start)`: the right half of the row gets
the highlight attribute `0x7000`, the rest `0x0700`. -/
def makeRightClmnActive (s : State) (str : List Nat) (start : Nat) : State :=
  let len := str.length
  let mid := start - len / 2 - 1
  let crt1 := forCells (glyphAt str start 0x0700) (mid - (start - len)) (start - len) s.crt
  { s with crt := forCells (glyphAt str start 0x7000) (start - mid) mid crt1 }

/-- Function `drawTableRow(str, rowEnd)`. -/
def drawTableRow (s : State) (str : List Nat) (rowEnd : Nat) : State :=
  if (rowEnd : Int) = s.selectedRow * 80 then
    if s.selectedCol = 0 then makeLeftClmnActive s str rowEnd
    else makeRightClmnActive s str rowEnd
  else
    { s with crt := forCells (glyphAt str rowEnd 0x0700) (rowEnd - (rowEnd - str.length))
                      (rowEnd - str.length) s.crt }

/-- The calls of `drawTable` from row `k` on: row `k` ends at cell `80 * k`. -/
def drawRows : List (List Nat) → Nat → State → State
  | [], _, s => s
  | str :: rest, k, s => drawRows rest (k + 1) (drawTableRow s str (80 * k))

/-- Function `drawTable()`: ten `drawTableRow` calls, for the row ends
`80, 80*2, ..., 80*10`. -/
def drawTable (s : State) : State := drawRows tableRows 1 s

/-- The loop of `copyShowingArray`, from iteration `i` with the locals `j` and
`newRow`, for `n` more iterations. -/
def copyShowingArrayLoop : Nat → Nat → Nat → Nat → State → State
  | 0, _, _, _, s => s
  | n + 1, i, j, newRow, s =>
    let s1 : State :=
      if s.tableActive ≠ 0 then
        { s with crt := store s.crt j ((s.tempDeletedTable i % 65536) ||| attr s) }
      else
        { s with tempDeletedTable := store s.tempDeletedTable i (s.crt j &&& 0x00FF) }
    if newRow = 23 then copyShowingArrayLoop n (i + 1) (j + 80 - 23) 0 s1
    else copyShowingArrayLoop n (i + 1) (j + 1) (newRow + 1) s1

/-- Function `copyShowingArray()`: `end = 80`, `newRow = 0`, `j = end - 23`,
240 iterations. -/
def copyShowingArray (s : State) : State := copyShowingArrayLoop 240 0 (80 - 23) 0 s

/-- Function `Colorize()`: every cell of the 80*25 screen keeps its low byte
and gets the current colour expression or-ed in. -/
def Colorize (s : State) : State :=
  { s with crt := forCells (fun _ v => (v &&& 0x00FF) ||| attr s) (80 * 25) 0 s.crt }

/-- Function `changeColor()`. -/
def changeColor (s : State) : State :=
  let colorIndex := s.selectedRow - 2
  let s1 : State :=
    if s.selectedCol = 0 then { s with selectedFgClr := colorIndex, isLightBg := 0 }
    else { s with selectedBgClr := colorIndex, isLightFg := 0 }
  drawTable (Colorize s1)

/-- Function `changeLight()`. -/
def changeLight (s : State) : State :=
  let s1 : State :=
    if s.selectedCol = 0 then { s with isLightBg := 1 } else { s with isLightFg := 1 }
  drawTable (Colorize s1)

/-- The first `switch` of `consoleintr`, taken when `tableActive` is set:
119 is `'w'`, 115 `'s'`, 97 `'a'`, 100 `'d'`, 101 `'e'`, 114 `'r'`. -/
def menuKey (s : State) (c : Nat) : State :=
  if c = 119 then
    drawTable { s with selectedRow := if s.selectedRow = 2 then 9 else s.selectedRow - 1 }
  else if c = 115 then
    drawTable { s with selectedRow := if s.selectedRow = 9 then 2 else s.selectedRow + 1 }
  else if c = 97 then drawTable { s with selectedCol := lnot s.selectedCol }
  else if c = 100 then drawTable { s with selectedCol := lnot s.selectedCol }
  else if c = 101 then changeColor s
  else if c = 114 then changeLight s
  else s

/-! ## Input: the interrupt handler -/

/-- The kill-line loop
`while(input.e != input.w && input.buf[(input.e-1) % INPUT_BUF] != '\n')
 { input.e--; consputc(BACKSPACE); }`.
The first argument bounds the number of iterations; `consoleintrStep` passes
the distance `input.e - input.w`, which the loop cannot exceed because every
iteration brings `input.e` one step closer to `input.w`. -/
def killLine : Nat → State → Option State
  | 0, s => some s
  | n + 1, s =>
    if s.input.e ≠ s.input.w ∧ s.input.buf (usub s.input.e 1 % INPUT_BUF) ≠ 10 then
      (consputc { s with input := { s.input with e := usub s.input.e 1 } } BACKSPACE).bind
        (killLine n)
    else some s

/-- The body of the `while((c = getc()) >= 0)` loop of `consoleintr` for one
byte `c`. The control bytes are `C('P') = 16`, `C('U') = 21`, `C('H') = 8`,
`'\x7f' = 127`, `C('B') = 2`, `C('D') = 4`; 13 is `'\r'` and 10 is `'\n'`.
`doprocdump` only defers the external `procdump()` to the end of the call and
is not part of the state. `wakeup(&input.r)` acts on the scheduler only. -/
def consoleintrStep (s0 : State) (c : Nat) : Option State :=
  let s : State := if s0.tableActive ≠ 0 then menuKey s0 c else s0
  if c = 16 then some s
  else if c = 21 then killLine (usub s.input.e s.input.w) s
  else if c = 8 ∨ c = 127 then
    if s.input.e ≠ s.input.w then
      consputc { s with input := { s.input with e := usub s.input.e 1 } } BACKSPACE
    else some s
  else if c = 2 then
    let s1 := copyShowingArray s
    let s2 := if s1.tableActive ≠ 0 then copyShowingArray s1 else drawTable s1
    some { s2 with tableActive := lnot s2.tableActive }
  else
    if c ≠ 0 ∧ usub s.input.e s.input.r < INPUT_BUF ∧ lnot s.tableActive ≠ 0 then
      let c1 : Nat := if c = 13 then 10 else c
      let s1 : State :=
        { s with input := { s.input with
            buf := store s.input.buf (s.input.e % INPUT_BUF) (c1 % 256),
            e := (s.input.e + 1) % UINT } }
      (consputc s1 c1).bind fun s2 =>
        if c1 = 10 ∨ c1 = 4 ∨ s2.input.e = (s2.input.r + INPUT_BUF) % UINT then
          some { s2 with input := { s2.input with w := s2.input.e } }
        else some s2
    else some s

/-- Function `consoleintr(getc)`, for the bytes `getc` hands over before it
returns a negative value. -/
def consoleintr (s : State) : List Nat → Option State
  | [] => some s
  | c :: cs => (consoleintrStep s c).bind fun s1 => consoleintr s1 cs

/-! ## Input: the blocking reader -/

/-- What happens at one pass through the wait loop of `consoleread`: the value
of `myproc()->killed` the reader sees, and, when it goes to sleep, the bytes
the interrupt handler processes before the reader runs again. -/
structure Wakeup where
  killed : Bool
  keys : List Nat

/-- Outcome of the wait loop of `consoleread`. -/
inductive WaitResult where
  | ready (s : State) (rest : List Wakeup)
  | killed (s : State)
  | asleep (s : State)
  | halted

/-- The loop `while(input.r == input.w){ if(myproc()->killed) return -1;
sleep(&input.r, &cons.lock); }` against a schedule of wake-ups. The reader
holds `cons.lock` everywhere else, so the interrupt handler runs only while it
sleeps. When the schedule ends with the buffer still empty the reader stays
asleep. -/
def waitInput (s : State) : List Wakeup → WaitResult
  | [] => if s.input.r ≠ s.input.w then .ready s [] else .asleep s
  | ev :: rest =>
    if s.input.r ≠ s.input.w then .ready s (ev :: rest)
    else if ev.killed then .killed s
    else
      match consoleintr s ev.keys with
      | none => .halted
      | some s1 => waitInput s1 rest

/-- Outcome of a `consoleread` call: it returned `ret` after writing `dst`,
or it is still asleep at the end of the schedule, or the system halted in
`panic` while it slept. -/
inductive ReadResult where
  | returned (s : State) (dst : List Nat) (ret : Int)
  | asleep (s : State) (dst : List Nat)
  | halted

/-- The loop `while(n > 0)` of `consoleread`; the first argument is `n`,
`dst` the bytes written through `*dst++` so far. -/
def consolereadLoop (target : Nat) : Nat → State → List Nat → List Wakeup → ReadResult
  | 0, s, dst, _ => .returned s dst (Int.ofNat (target - 0))
  | n + 1, s, dst, env =>
    match waitInput s env with
    | .killed s1 => .returned s1 dst (-1)
    | .asleep s1 => .asleep s1 dst
    | .halted => .halted
    | .ready s1 env1 =>
      let c := s1.input.buf (s1.input.r % INPUT_BUF)
      let s2 : State := { s1 with input := { s1.input with r := (s1.input.r + 1) % UINT } }
      if c = 4 then
        if n + 1 < target then
          .returned { s2 with input := { s2.input with r := usub s2.input.r 1 } } dst
            (Int.ofNat (target - (n + 1)))
        else .returned s2 dst (Int.ofNat (target - (n + 1)))
      else if c = 10 then .returned s2 (dst ++ [c]) (Int.ofNat (target - n))
      else consolereadLoop target n s2 (dst ++ [c]) env1

/-- Function `consoleread(ip, dst, n)`. For `n ≤ 0` the loop body never runs
and `target - n` is 0. The inode lock calls are external. -/
def consoleread (s : State) (n : Int) (env : List Wakeup) : ReadResult :=
  consolereadLoop n.toNat n.toNat s [] env

/-- The state a completed or sleeping read leaves. -/
def ReadResult.state? : ReadResult → Option State
  | .returned s _ _ => some s
  | .asleep s _ => some s
  | .halted => none

/-- The value a completed read returns. -/
def ReadResult.ret? : ReadResult → Option Int
  | .returned _ _ ret => some ret
  | _ => none

/-- The bytes written to `dst` so far. -/
def ReadResult.dst? : ReadResult → Option (List Nat)
  | .returned _ dst _ => some dst
  | .asleep _ dst => some dst
  | .halted => none

/-! ## Formatted integers -/

/-- The table `static char digits[] = "0123456789abcdef"`. -/
def digits : List Nat := cstr "0123456789abcdef"

/-- The loop `do{ buf[i++] = digits[x % base]; }while((x /= base) != 0);` of
`printint`. The local `buf` is the list of the cells written so far, so the
index `i` is its length. The first argument bounds the number of iterations;
`printintBuf` passes 32, which a 32-bit `x` cannot exceed for a base of 2 or
more. -/
def printintLoop (base : Nat) : Nat → Nat → List Nat → List Nat
  | 0, _, buf => buf
  | fuel + 1, x, buf =>
    let buf1 := buf ++ [digits.getD (x % base) 0]
    if x / base ≠ 0 then printintLoop base fuel (x / base) buf1 else buf1

/-- The local `buf` of `printint(xx, base, sign)` when the emitting loop
starts: `if(sign && (sign = xx < 0)) x = -xx; else x = xx;`, the digit loop,
and `if(sign) buf[i++] = '-';` (45 is `'-'`). `x` is a `uint`. -/
def printintBuf (xx : Int) (base : Nat) (sign : Int) : List Nat :=
  let sign1 : Bool := decide (sign ≠ 0) && decide (xx < 0)
  let x : Nat := if sign1 then ((-xx) % UINT).toNat else (xx % UINT).toNat
  let buf := printintLoop base 32 x []
  if sign1 then buf ++ [45] else buf

/-- A run of `consputc` calls, in order. -/
def consputs (s : State) : List Nat → Option State
  | [] => some s
  | c :: cs => (consputc s c).bind fun s1 => consputs s1 cs

/-- Function `printint(xx, base, sign)`: the loop
`while(--i >= 0) consputc(buf[i]);` emits `buf` from its last cell down. -/
def printint (s : State) (xx : Int) (base : Nat) (sign : Int) : Option State :=
  consputs s (printintBuf xx base sign).reverse

/-! ## Notions used in the statements -/

/-- The three cursors are values of the type `uint`. -/
def Input.WF (i : Input) : Prop := i.r < UINT ∧ i.w < UINT ∧ i.e < UINT

/-- The chain `r ≤ w ≤ e ≤ r + INPUT_BUF` read on the cursor values. -/
def Input.PlainInv (i : Input) : Prop := i.r ≤ i.w ∧ i.w ≤ i.e ∧ i.e ≤ i.r + INPUT_BUF

/-- The same chain read on the ring: the published count `w - r` is at most
the buffered count `e - r`, which is at most `INPUT_BUF`, both differences in
the type `uint`. -/
def Input.RingInv (i : Input) : Prop :=
  usub i.w i.r ≤ usub i.e i.r ∧ usub i.e i.r ≤ INPUT_BUF

/-- The cells `copyShowingArray` visits: for each of the ten rows `0..9` the
24 cells from column 57 of that row to column 0 of the next. -/
def inSaved (k : Nat) : Prop := 57 ≤ k ∧ (k - 57) % 80 < 24 ∧ (k - 57) / 80 < 10

instance (k : Nat) : Decidable (inSaved k) := by
  unfold inSaved
  infer_instance

/-- The cells `drawTable` writes: rows `0..9`, columns `57..79`. -/
def inTable (k : Nat) : Prop := k / 80 < 10 ∧ 57 ≤ k % 80

instance (k : Nat) : Decidable (inTable k) := by
  unfold inTable
  infer_instance

/-- The display can take output: not panicked, cursor at most `24*80`. -/
def DisplayOK (s : State) : Prop := s.panicked = 0 ∧ s.cursor ≤ 1920

/-- The selection state is well-formed: row in `2..9`, column 0 or 1, both
colour indices in `0..7`, both bright flags 0 or 1. -/
def SelOK (s : State) : Prop :=
  (2 ≤ s.selectedRow ∧ s.selectedRow ≤ 9) ∧ (s.selectedCol = 0 ∨ s.selectedCol = 1) ∧
    (0 ≤ s.selectedBgClr ∧ s.selectedBgClr ≤ 7) ∧ (0 ≤ s.selectedFgClr ∧ s.selectedFgClr ≤ 7) ∧
    (s.isLightFg = 0 ∨ s.isLightFg = 1) ∧ (s.isLightBg = 0 ∨ s.isLightBg = 1)

/-- States reached from the initial state by bytes handed to `consoleintr`. -/
inductive KeyReachable : State → Prop where
  | init (crt0 : Nat → Nat) (cursor0 : Nat) : KeyReachable (State.init crt0 cursor0)
  | key (s s1 : State) (c : Nat) :
      KeyReachable s → consoleintrStep s c = some s1 → KeyReachable s1

/-- Two states agree on `panicked`, the selection and the colours. -/
def SameConfig (s t : State) : Prop :=
  t.panicked = s.panicked ∧ t.selectedRow = s.selectedRow ∧ t.selectedCol = s.selectedCol ∧
    t.isLightFg = s.isLightFg ∧ t.isLightBg = s.isLightBg ∧
    t.selectedBgClr = s.selectedBgClr ∧ t.selectedFgClr = s.selectedFgClr

/-- The kill-line loop of `killLine` on the `input` structure alone. -/
def killInput : Nat → Input → Input
  | 0, i => i
  | n + 1, i =>
    if i.e ≠ i.w ∧ i.buf (usub i.e 1 % INPUT_BUF) ≠ 10 then
      killInput n { i with e := usub i.e 1 }
    else i

/-- The second `switch` of `consoleintrStep` on the `input` structure alone,
for the overlay flag `ta`. -/
def stepInput (ta : Int) (i : Input) (c : Nat) : Input :=
  if c = 16 then i
  else if c = 21 then killInput (usub i.e i.w) i
  else if c = 8 ∨ c = 127 then (if i.e ≠ i.w then { i with e := usub i.e 1 } else i)
  else if c = 2 then i
  else if c ≠ 0 ∧ usub i.e i.r < INPUT_BUF ∧ lnot ta ≠ 0 then
    if (if c = 13 then 10 else c) = 10 ∨ (if c = 13 then 10 else c) = 4
        ∨ (i.e + 1) % UINT = (i.r + INPUT_BUF) % UINT then
      { i with buf := store i.buf (i.e % INPUT_BUF) ((if c = 13 then 10 else c) % 256),
               e := (i.e + 1) % UINT, w := (i.e + 1) % UINT }
    else
      { i with buf := store i.buf (i.e % INPUT_BUF) ((if c = 13 then 10 else c) % 256),
               e := (i.e + 1) % UINT }
  else i

/-- The cell `j` that iteration `i` of `copyShowingArray` visits. -/
def savedCell (i : Nat) : Nat := 57 + 80 * (i / 24) + i % 24

/-- The iteration of `copyShowingArray` that visits cell `k` of the saved region. -/
def savedSlot (k : Nat) : Nat := 24 * ((k - 57) / 80) + (k - 57) % 80

/-- The decimal representation of a natural number as character codes, most
significant digit first and without leading zeros (`"0"` for zero);
`Nat.digits 10 n` lists the digits least significant first. -/
def decimalRepr (n : Nat) : List Nat :=
  if n = 0 then [48] else (Nat.digits 10 n).reverse.map fun d => 48 + d

/-- The lowercase hexadecimal representation of a natural number as character
codes, most significant digit first and without leading zeros: the digits
`0..9` are `'0'..'9'` (48..57) and `10..15` are `'a'..'f'` (97..102). -/
def hexRepr (n : Nat) : List Nat :=
  if n = 0 then [48] else (Nat.digits 16 n).reverse.map fun d => if d < 10 then 48 + d else 87 + d

/-- The state with the read cursor set to `a`: `input.r = a`. -/
def setR (s : State) (a : Nat) : State := { s with input := { s.input with r := a } }

/-- The state after the reader consumed `k` more bytes: `input.r` advanced
`k` times in the type `uint`. -/
def advR (s : State) (k : Nat) : State := setR s ((s.input.r + k) % UINT)

/-- The default branch of `consoleintrStep` on the `input` structure for a
byte that is stored without publishing: `input.buf[input.e++ % INPUT_BUF] = c`. -/
def plainStep (i : Input) (c : Nat) : Input :=
  { i with buf := store i.buf (i.e % INPUT_BUF) c, e := (i.e + 1) % UINT }

/-- No newline among the bytes buffered but not yet published (positions
`w .. e-1` of the ring). -/
def Input.NoNL (i : Input) : Prop :=
  ∀ j, j < usub i.e i.w → i.buf ((i.w + j) % INPUT_BUF) ≠ 10

/-- A byte that `consoleintrStep` stores without any special treatment: not
zero, not `'\n'`, `'\r'`, `^D`, `^P`, `^U`, `^H`, DEL or `^B`, and below 256. -/
def plainByte (c : Nat) : Prop :=
  c < 256 ∧ c ≠ 0 ∧ c ≠ 10 ∧ c ≠ 13 ∧ c ≠ 4 ∧ c ≠ 16 ∧ c ≠ 21 ∧ c ≠ 8 ∧ c ≠ 127 ∧ c ≠ 2

instance (c : Nat) : Decidable (plainByte c) := by
  unfold plainByte
  infer_instance

/-- All the keys of a schedule of wake-ups are bytes. -/
def bytesOnly (env : List Wakeup) : Prop := ∀ ev ∈ env, ∀ c ∈ ev.keys, c < 256

/-- States reached from the initial state by bytes handed to `consoleintr`
and by completed `consoleread` calls (whose sleeps let `consoleintr` run). -/
inductive Reachable : State → Prop where
  | init (crt0 : Nat → Nat) (cursor0 : Nat) : Reachable (State.init crt0 cursor0)
  | key (s s1 : State) (c : Nat) :
      Reachable s → c < 256 → consoleintrStep s c = some s1 → Reachable s1
  | read (s s1 : State) (n : Int) (env : List Wakeup) (dst : List Nat) (ret : Int) :
      Reachable s → bytesOnly env → consoleread s n env = .returned s1 dst ret → Reachable s1

/-- What every reachable state keeps and kill-line relies on: the console has
not halted, the cursors are `uint` values on a ring-consistent buffer, no
newline is buffered unpublished, and the display cursor is at most `24*80`
once anything is buffered unpublished. -/
def LineInv (s : State) : Prop :=
  s.panicked = 0 ∧ s.input.WF ∧ s.input.RingInv ∧ s.input.NoNL ∧
    (s.input.e = s.input.w ∨ s.cursor ≤ 1920)

/-- The screen the newline claim describes after `k` newlines from row `r`,
as a function of the screen `crt` before and the blank `b` put under the
cursor: with `r + k - 23` scrolls every cell below `24*80` holds what was
that many rows further down, column 0 of each row the cursor entered holds the
blank, a row pushed in by a scroll is the blank followed by zeros, and the
cells from `24*80` on are untouched. -/
def newlinesScreen (crt : Nat → Nat) (b r k : Nat) : Nat → Nat := fun j =>
  if 1920 ≤ j then crt j
  else if j + 80 * (r + k - 23) < 1920 then
    if j % 80 = 0 ∧ r + 1 ≤ j / 80 + (r + k - 23) ∧ j / 80 + (r + k - 23) ≤ r + k then b
    else crt (j + 80 * (r + k - 23))
  else if j % 80 = 0 then b else 0

/-- The number of bytes a schedule of wake-ups hands to the interrupt handler. -/
def keyCount (env : List Wakeup) : Nat := (env.map fun ev => ev.keys.length).sum

/-! # Theorems -/

/-! ## Arrays and bytes -/

@[simp] theorem store_same (a : Nat → Nat) (i v : Nat) : store a i v i = v := by
  simp [store]

theorem store_other (a : Nat → Nat) (i v k : Nat) (h : k ≠ i) : store a i v k = a k := by
  simp [store, h]

theorem store_apply (a : Nat → Nat) (i v k : Nat) :
    store a i v k = if k = i then v else a k := rfl

/-- Closed form of the cell loop: the cells `i .. i+n-1` get `g`, the others stay. -/
theorem forCells_apply (g : Nat → Nat → Nat) (n i : Nat) (m : Nat → Nat) (k : Nat) :
    forCells g n i m k = if i ≤ k ∧ k < i + n then g k (m k) else m k := by
  induction n generalizing i m with
  | zero =>
    have h3 : ¬ (i ≤ k ∧ k < i) := by omega
    simp [forCells, h3]
  | succ n ih =>
    rw [forCells, ih]
    by_cases h1 : k = i
    · subst h1
      simp [store_apply]
    · rw [store_other _ _ _ _ h1]
      by_cases h2 : i + 1 ≤ k ∧ k < i + 1 + n
      · have h3 : i ≤ k ∧ k < i + (n + 1) := by omega
        simp [h2, h3]
      · have h3 : ¬ (i ≤ k ∧ k < i + (n + 1)) := by omega
        simp [h2, h3]

theorem and_255 (x : Nat) : x &&& 0x00FF = x % 256 :=
  Nat.and_pow_two_sub_one_eq_mod x 8

/-- A byte or-ed with a multiple of 256 is their sum. -/
theorem or_eq_add (g a : Nat) (hg : g < 256) (ha : a % 256 = 0) : g ||| a = a + g := by
  have h := Nat.mul_add_lt_is_or (i := 8) (b := g) (by simpa using hg) (a / 256)
  have h2 : 2 ^ 8 * (a / 256) = a := by
    have := Nat.div_add_mod a 256
    omega
  rw [h2] at h
  rw [Nat.lor_comm, h]

theorem or_low (g a : Nat) (hg : g < 256) (ha : a % 256 = 0) : (g ||| a) % 256 = g := by
  rw [or_eq_add g a hg ha]; omega

theorem or_high (g a : Nat) (hg : g < 256) (ha : a % 256 = 0) : (g ||| a) / 256 = a / 256 := by
  rw [or_eq_add g a hg ha]; omega

theorem colorExpr_mod (s : State) : colorExpr s % 256 = 0 := by
  unfold colorExpr bgColorConst fgColorConst isLightConstFg isLightConstBg
  omega

theorem attr_low (s : State) : attr s % 256 = 0 := by
  have h := colorExpr_mod s
  unfold attr
  omega

theorem attr_lt (s : State) : attr s < 65536 := by
  unfold attr
  omega

/-! ## Display output -/

/-- Every result of `cgaputc` in terms of the moved cursor and written cells. -/
theorem cgaputc_eq (s : State) (c : Nat) (h : cgaMove s c ≤ 2000) :
    cgaputc s c = some { s with
      crt := store (if cgaMove s c / 80 ≥ 24
                    then clearFrom (scrollUp (cgaWrite s c)) (cgaMove s c - 80)
                    else cgaWrite s c)
               (if cgaMove s c / 80 ≥ 24 then cgaMove s c - 80 else cgaMove s c)
               (32 ||| attr s),
      cursor := if cgaMove s c / 80 ≥ 24 then cgaMove s c - 80 else cgaMove s c } := by
  unfold cgaputc
  have hpos : ¬ cgaMove s c > 25 * 80 := by omega
  simp only [hpos, if_false]

theorem cgaMove_le (s : State) (c : Nat) (h : s.cursor ≤ 1920) : cgaMove s c ≤ 2000 := by
  unfold cgaMove BACKSPACE
  simp only []
  split_ifs <;> omega

theorem cgaMove_lt (s : State) (c : Nat) (h : s.cursor < 1920) : cgaMove s c ≤ 1920 := by
  unfold cgaMove BACKSPACE
  simp only []
  split_ifs <;> omega

/-- C12: from a cursor below `24*80`, `cgaputc` does not reach `panic` for any
character code (newline and the erase code included), changes no cell of index
2000 or more, and writes back a cursor below `24*80`. -/
theorem cgaputc_wellformed_cursor (s : State) (c : Nat) (hp : s.cursor < 1920) :
    ∃ s1, cgaputc s c = some s1 ∧ s1.cursor < 1920 ∧ ∀ k, 2000 ≤ k → s1.crt k = s.crt k := by
  have hm := cgaMove_lt s c hp
  refine ⟨_, cgaputc_eq s c (by omega), ?_, ?_⟩
  · simp only []
    split_ifs <;> omega
  · intro k hk
    simp only [ite_apply, store_apply, clearFrom, scrollUp, cgaWrite]
    split_ifs <;> first | rfl | omega

theorem cgaputc_wellformed_cursor_witness :
    ∃ s1, cgaputc (State.init (fun _ => 0) 1919) 97 = some s1 ∧ s1.cursor < 1920 ∧
      ∀ k, 2000 ≤ k → s1.crt k = (State.init (fun _ => 0) 1919).crt k :=
  cgaputc_wellformed_cursor (State.init (fun _ => 0) 1919) 97 (by decide)

/-- C13, as stated, fails: from cursor 1999 an ordinary character moves the
cursor to 2000, which is not beyond the panic bound; the scroll takes 80 off
and the cursor written back is 1920, on row 24. -/
theorem cgaputc_scroll_row_counterexample :
    cgaScrolls (State.init (fun _ => 0) 1999) 97 = true ∧
      (cgaputc (State.init (fun _ => 0) 1999) 97).map (fun s1 => s1.cursor) = some 1920 ∧
      ¬ (1920 / 80 < 24) := by
  decide

/-- C13, amended: for a cursor in `0..2000` and a call of `cgaputc` that
scrolls without halting, the cursor written back is on a row `≤ 24`; it is
on a row `< 24` exactly when the moved cursor was below 2000, which is the
case whenever the call started with the cursor below `24*80`. -/
theorem cgaputc_scroll_row (s s1 : State) (c : Nat) (_hp : s.cursor ≤ 2000)
    (hs : cgaScrolls s c = true) (h : cgaputc s c = some s1) :
    s1.cursor / 80 ≤ 24 ∧ (s1.cursor / 80 < 24 ↔ cgaMove s c < 2000) ∧
      (s.cursor < 1920 → s1.cursor / 80 < 24) := by
  simp only [cgaScrolls, Bool.and_eq_true, decide_eq_true_eq] at hs
  obtain ⟨hle, hrow⟩ := hs
  rw [cgaputc_eq s c (by omega)] at h
  injection h with h
  subst h
  simp only [hrow, if_true]
  refine ⟨by omega, by omega, ?_⟩
  intro hp
  have := cgaMove_lt s c hp
  omega

theorem cgaputc_scroll_row_witness :
    ∃ s1, cgaputc (State.init (fun _ => 0) 1919) 97 = some s1 ∧ s1.cursor / 80 < 24 :=
  ⟨_, rfl, (cgaputc_scroll_row (State.init (fun _ => 0) 1919) _ 97 (by decide) (by decide)
    rfl).2.2 (by decide)⟩

/-- C15: when a call of `cgaputc` that started with the cursor below `24*80`
scrolls, afterwards every cell of rows `0..22` holds what the cell one row
below held just before the scroll (a character just written at 1919 is at
1839), the cursor is 80 less than before the scroll, and the cells of row 23
are zero apart from the cursor cell, which holds the blank. -/
theorem cgaputc_scroll_shift (s : State) (c : Nat) (hp : s.cursor < 1920)
    (hs : cgaScrolls s c = true) :
    ∃ s1, cgaputc s c = some s1 ∧
      (∀ k, k < 23 * 80 → s1.crt k = cgaWrite s c (k + 80)) ∧
      (s.cursor = 1919 → c ≠ 10 → c ≠ BACKSPACE → s1.crt 1839 = (c % 256) ||| attr s) ∧
      s1.cursor + 80 = cgaMove s c ∧
      (∀ k, 23 * 80 ≤ k → k < 24 * 80 → k ≠ s1.cursor → s1.crt k = 0) ∧
      23 * 80 ≤ s1.cursor ∧ s1.cursor < 24 * 80 ∧
      s1.crt s1.cursor = 32 ||| attr s := by
  simp only [cgaScrolls, Bool.and_eq_true, decide_eq_true_eq] at hs
  obtain ⟨_, hrow⟩ := hs
  have hm := cgaMove_lt s c hp
  have hm2 : cgaMove s c = 1920 := by omega
  have h24 : (1920 : Nat) / 80 ≥ 24 := by decide
  refine ⟨_, cgaputc_eq s c (by omega), ?_, ?_, ?_, ?_, ?_, ?_, ?_⟩
  · intro k hk
    simp only [hm2, h24, if_true, store_apply, clearFrom, scrollUp]
    split_ifs <;> first | rfl | omega
  · intro h1 h2 h3
    simp only [hm2, h24, if_true, store_apply, clearFrom, scrollUp, cgaWrite, h2, h3, if_false,
      h1]
    simp
  · simp only [hm2, h24, if_true]
  · intro k h1 h2 h3
    simp only [hm2, h24, if_true] at h3
    simp only [hm2, h24, if_true, store_apply, clearFrom, scrollUp]
    split_ifs <;> first | rfl | omega
  · simp only [hm2, h24, if_true]; omega
  · simp only [hm2, h24, if_true]; omega
  · simp only [hm2, h24, if_true, store_same]

theorem cgaputc_scroll_shift_witness :
    ∃ s1, cgaputc (State.init (fun _ => 0) 1919) 97 = some s1 ∧
      (∀ k, k < 23 * 80 → s1.crt k = cgaWrite (State.init (fun _ => 0) 1919) 97 (k + 80)) ∧
      (1919 = 1919 → 97 ≠ 10 → 97 ≠ BACKSPACE →
        s1.crt 1839 = (97 % 256) ||| attr (State.init (fun _ => 0) 1919)) ∧
      s1.cursor + 80 = cgaMove (State.init (fun _ => 0) 1919) 97 ∧
      (∀ k, 23 * 80 ≤ k → k < 24 * 80 → k ≠ s1.cursor → s1.crt k = 0) ∧
      23 * 80 ≤ s1.cursor ∧ s1.cursor < 24 * 80 ∧
      s1.crt s1.cursor = 32 ||| attr (State.init (fun _ => 0) 1919) :=
  cgaputc_scroll_shift (State.init (fun _ => 0) 1919) 97 (by decide) (by decide)

/-- C18, as stated, fails: the erase code at cursor 5 moves the cursor to 4
and then the last statement of `cgaputc` writes the blank there, so the cell
at 4 changes; at cursor 0 the cursor stays and cell 0 is overwritten. -/
theorem cgaputc_erase_counterexample :
    (cgaputc (State.init (fun _ => 0) 5) BACKSPACE).map (fun s1 => (s1.cursor, s1.crt 4))
        = some (4, 0x0720) ∧
      (State.init (fun _ => 0) 5).crt 4 = 0 ∧
      (cgaputc (State.init (fun _ => 0) 0) BACKSPACE).map (fun s1 => (s1.cursor, s1.crt 0))
        = some (0, 0x0720) ∧
      (State.init (fun _ => 0) 0).crt 0 = 0 := by
  decide

/-- C18, amended: for the erase code and a cursor `p` below `24*80`,
`cgaputc` sets the cursor to `p - 1` (to 0 when `p = 0`), writes the blank
with the current colour at that cell, and leaves every other cell unchanged. -/
theorem cgaputc_erase (s : State) (hp : s.cursor < 1920) :
    ∃ s1, cgaputc s BACKSPACE = some s1 ∧ s1.cursor = s.cursor - 1 ∧
      s1.crt (s.cursor - 1) = 32 ||| attr s ∧
      ∀ k, k ≠ s.cursor - 1 → s1.crt k = s.crt k := by
  have hm : cgaMove s BACKSPACE = s.cursor - 1 := by
    unfold cgaMove BACKSPACE
    simp only []
    split_ifs <;> omega
  have hrow : ¬ (s.cursor - 1) / 80 ≥ 24 := by omega
  have hw : cgaWrite s BACKSPACE = s.crt := by
    unfold cgaWrite BACKSPACE
    simp
  refine ⟨_, cgaputc_eq s _ (by omega), ?_, ?_, ?_⟩
  · simp only [hm, hrow, if_false]
  · simp only [hm, hrow, if_false, store_same]
  · intro k hk
    simp only [hm, hrow, if_false, hw, store_other _ _ _ _ hk]

theorem cgaputc_erase_witness :
    ∃ s1, cgaputc (State.init (fun _ => 0) 5) BACKSPACE = some s1 ∧ s1.cursor = 5 - 1 ∧
      s1.crt (5 - 1) = 32 ||| attr (State.init (fun _ => 0) 5) ∧
      ∀ k, k ≠ 5 - 1 → s1.crt k = (State.init (fun _ => 0) 5).crt k :=
  cgaputc_erase (State.init (fun _ => 0) 5) (by decide)

/-- One newline from a cursor below `24*80`: column 0 of the next row, or of
row 23 again after a scroll when the cursor was on row 23. -/
theorem cgaputc_newline (s : State) (hp : s.cursor < 1920) :
    ∃ s1, cgaputc s 10 = some s1 ∧ s1.cursor = 80 * min (s.cursor / 80 + 1) 23 ∧
      cgaScrolls s 10 = decide (s.cursor / 80 = 23) := by
  have hm : cgaMove s 10 = 80 * (s.cursor / 80 + 1) := by
    unfold cgaMove
    simp only [if_true]
    omega
  refine ⟨_, cgaputc_eq s _ (by omega), ?_, ?_⟩
  · simp only [hm]
    split_ifs <;> omega
  · simp only [cgaScrolls, hm]
    by_cases h : s.cursor / 80 = 23
    · have h1 : 80 * (s.cursor / 80 + 1) ≤ 25 * 80 := by omega
      have h2 : 80 * (s.cursor / 80 + 1) / 80 ≥ 24 := by omega
      simp [h, h1, h2]
    · have h2 : ¬ 80 * (s.cursor / 80 + 1) / 80 ≥ 24 := by omega
      simp only [h, h2, decide_False, Bool.and_false]

theorem cgaNewlines_succ (k : Nat) (s : State) (hp : s.cursor < 1920) :
    ∃ s1, cgaNewlines (k + 1) s = some (s1, s.cursor / 80 + (k + 1) - 23) ∧
      s1.cursor = 80 * min (s.cursor / 80 + (k + 1)) 23 := by
  induction k generalizing s with
  | zero =>
    obtain ⟨s1, h1, h2, h3⟩ := cgaputc_newline s hp
    refine ⟨s1, ?_, by simpa using h2⟩
    simp only [cgaNewlines, h1, h3, Option.map_some']
    by_cases h : s.cursor / 80 = 23
    · simp [h]
    · have : s.cursor / 80 + (0 + 1) - 23 = 0 := by omega
      simp [h, this]
  | succ k ih =>
    obtain ⟨s1, h1, h2, h3⟩ := cgaputc_newline s hp
    have hp1 : s1.cursor < 1920 := by omega
    obtain ⟨s2, h4, h5⟩ := ih s1 hp1
    refine ⟨s2, ?_, ?_⟩
    · rw [cgaNewlines]
      simp only [h1, h4, h3, Option.map_some']
      by_cases h : s.cursor / 80 = 23
      · have e1 : s1.cursor / 80 = 23 := by omega
        simp only [h, e1, decide_True, if_true, Option.some.injEq, Prod.mk.injEq, true_and]
        omega
      · have e1 : s1.cursor / 80 = s.cursor / 80 + 1 := by omega
        simp only [h, e1, decide_False, Bool.false_eq_true, if_false, Option.some.injEq,
          Prod.mk.injEq, true_and]
        omega
    · rw [h5]
      omega

/-- The cells after one newline from a cursor below `24*80`: the blank under
the new cursor, on the screen shifted up one row and with row 23 cleared when
the cursor was on row 23. -/
theorem cgaputc_newline_crt (s s1 : State) (hp : s.cursor < 1920)
    (h : cgaputc s 10 = some s1) :
    s1.crt = (if s.cursor / 80 = 23
        then store (clearFrom (scrollUp s.crt) 1840) 1840 (32 ||| attr s)
        else store s.crt (80 * (s.cursor / 80 + 1)) (32 ||| attr s)) ∧
      attr s1 = attr s := by
  have hm : cgaMove s 10 = 80 * (s.cursor / 80 + 1) := by
    unfold cgaMove
    simp only [if_true]
    omega
  have hw : cgaWrite s 10 = s.crt := by
    unfold cgaWrite
    simp only [if_true]
  rw [cgaputc_eq s 10 (by omega)] at h
  injection h with h
  subst h
  refine ⟨?_, rfl⟩
  dsimp only
  rw [hm, hw]
  by_cases h23 : s.cursor / 80 = 23
  · have c1 : 80 * (s.cursor / 80 + 1) / 80 ≥ 24 := by omega
    have c2 : 80 * (s.cursor / 80 + 1) - 80 = 1840 := by omega
    rw [if_pos c1, if_pos c1, if_pos h23, c2]
  · have c1 : ¬ 80 * (s.cursor / 80 + 1) / 80 ≥ 24 := by omega
    rw [if_neg c1, if_neg c1, if_neg h23]

theorem newlinesScreen_zero (crt : Nat → Nat) (b r : Nat) (hr : r ≤ 23) :
    newlinesScreen crt b r 0 = crt := by
  funext j
  unfold newlinesScreen
  have e : r + 0 - 23 = 0 := by omega
  rw [e]
  split_ifs <;> first | rfl | omega

/-- One newline on a row above the last text row, then `k` more. -/
theorem newlinesScreen_move (crt : Nat → Nat) (b r k : Nat) (hr : r < 23) :
    newlinesScreen (store crt (80 * (r + 1)) b) b (r + 1) k = newlinesScreen crt b r (k + 1) := by
  funext j
  unfold newlinesScreen
  have e : r + 1 + k - 23 = r + (k + 1) - 23 := by omega
  rw [e]
  generalize r + (k + 1) - 23 = n
  simp only [store_apply]
  split_ifs <;> first | rfl | omega

/-- One newline on the last text row, which scrolls, then `k` more. -/
theorem newlinesScreen_scroll (crt : Nat → Nat) (b k : Nat) :
    newlinesScreen (store (clearFrom (scrollUp crt) 1840) 1840 b) b 23 k
      = newlinesScreen crt b 23 (k + 1) := by
  funext j
  unfold newlinesScreen
  have e1 : 23 + k - 23 = k := by omega
  have e2 : 23 + (k + 1) - 23 = k + 1 := by omega
  rw [e1, e2]
  simp only [store_apply, clearFrom, scrollUp]
  split_ifs <;> first | rfl | omega

/-- The cells after `k` newlines from a cursor below `24*80`. -/
theorem cgaNewlines_crt (k : Nat) : ∀ (s s1 : State) (n : Nat), s.cursor < 1920 →
    cgaNewlines k s = some (s1, n) →
    s1.crt = newlinesScreen s.crt (32 ||| attr s) (s.cursor / 80) k ∧ attr s1 = attr s := by
  induction k with
  | zero =>
    intro s s1 n hp h
    rw [cgaNewlines] at h
    injection h with h
    injection h with h _
    subst h
    exact ⟨(newlinesScreen_zero _ _ _ (by omega)).symm, rfl⟩
  | succ k ih =>
    intro s s1 n hp h
    obtain ⟨t, h1, h2, _⟩ := cgaputc_newline s hp
    obtain ⟨h3, h4⟩ := cgaputc_newline_crt s t hp h1
    rw [cgaNewlines] at h
    simp only [h1] at h
    cases h5 : cgaNewlines k t with
    | none =>
      rw [h5] at h
      cases h
    | some p =>
      rw [h5] at h
      simp only [Option.map_some', Option.some.injEq, Prod.mk.injEq] at h
      have h6 : cgaNewlines k t = some (s1, p.2) := by
        rw [h5, ← h.1]
      obtain ⟨i1, i2⟩ := ih t s1 p.2 (by omega) h6
      refine ⟨?_, i2.trans h4⟩
      rw [i1, h4, h3]
      by_cases h23 : s.cursor / 80 = 23
      · have e : t.cursor / 80 = 23 := by omega
        rw [e, if_pos h23, h23]
        exact newlinesScreen_scroll _ _ _
      · have e : t.cursor / 80 = s.cursor / 80 + 1 := by omega
        rw [e, if_neg h23]
        exact newlinesScreen_move _ _ _ _ (by omega)

/-- C14: from a cursor below `24*80` on row `r`, `k ≥ 1` newlines through
`cgaputc` leave the cursor at column 0 of row `min (r+k) 23` and scroll
exactly `max 0 (r+k-23)` times (the natural-number difference `r + k - 23`):
the scroll branch is taken that many times and the screen ends shifted up by
that many rows (`newlinesScreen`); 25 newlines scroll at least once, in fact
at least twice: rows 22 and 23 of the screen end as a blank followed by
zeros. -/
theorem cgaNewlines_spec (k : Nat) (s : State) (hp : s.cursor < 1920) (hk : 1 ≤ k) :
    (∃ s1, cgaNewlines k s = some (s1, s.cursor / 80 + k - 23) ∧
      s1.cursor = 80 * min (s.cursor / 80 + k) 23 ∧
      s1.crt = newlinesScreen s.crt (32 ||| attr s) (s.cursor / 80) k) ∧
    (∃ s2 n, cgaNewlines 25 s = some (s2, n) ∧ 1 ≤ n ∧
      s2.crt = newlinesScreen s.crt (32 ||| attr s) (s.cursor / 80) 25 ∧
      ∀ j, 1760 ≤ j → j < 1920 → s2.crt j = if j % 80 = 0 then 32 ||| attr s else 0) := by
  constructor
  · obtain ⟨j, rfl⟩ : ∃ j, k = j + 1 := ⟨k - 1, by omega⟩
    obtain ⟨s1, h1, h2⟩ := cgaNewlines_succ j s hp
    exact ⟨s1, h1, h2, (cgaNewlines_crt _ s s1 _ hp h1).1⟩
  · obtain ⟨s2, h, _⟩ := cgaNewlines_succ 24 s hp
    have hc := (cgaNewlines_crt _ s s2 _ hp h).1
    refine ⟨s2, _, h, by omega, hc, ?_⟩
    intro j h1 h2
    rw [hc]
    unfold newlinesScreen
    have hr : s.cursor / 80 ≤ 23 := by omega
    generalize s.cursor / 80 = r at hr
    split_ifs <;> first | rfl | omega

theorem cgaNewlines_spec_witness :
    (∃ s1, cgaNewlines 3 (State.init (fun j => j) 1800) =
        some (s1, (State.init (fun j => j) 1800).cursor / 80 + 3 - 23) ∧
      s1.cursor = 80 * min ((State.init (fun j => j) 1800).cursor / 80 + 3) 23 ∧
      s1.crt = newlinesScreen (State.init (fun j => j) 1800).crt
        (32 ||| attr (State.init (fun j => j) 1800))
        ((State.init (fun j => j) 1800).cursor / 80) 3) ∧
    (∃ s2 n, cgaNewlines 25 (State.init (fun j => j) 1800) = some (s2, n) ∧ 1 ≤ n ∧
      s2.crt = newlinesScreen (State.init (fun j => j) 1800).crt
        (32 ||| attr (State.init (fun j => j) 1800))
        ((State.init (fun j => j) 1800).cursor / 80) 25 ∧
      ∀ j, 1760 ≤ j → j < 1920 →
        s2.crt j = if j % 80 = 0 then 32 ||| attr (State.init (fun j => j) 1800) else 0) :=
  cgaNewlines_spec 3 (State.init (fun j => j) 1800) (by decide) (by decide)

/-! ## The overlay: frame lemmas -/

theorem tableRows_length : ∀ str ∈ tableRows, str.length = 23 := by decide

theorem drawTableRow_frame (s : State) (str : List Nat) (e : Nat) :
    ∃ m, drawTableRow s str e = { s with crt := m } := by
  unfold drawTableRow makeLeftClmnActive makeRightClmnActive
  split_ifs <;> exact ⟨_, rfl⟩

theorem drawRows_frame (rows : List (List Nat)) (j : Nat) (s : State) :
    ∃ m, drawRows rows j s = { s with crt := m } := by
  induction rows generalizing j s with
  | nil => exact ⟨s.crt, rfl⟩
  | cons str rest ih =>
    obtain ⟨m1, h1⟩ := drawTableRow_frame s str (80 * j)
    obtain ⟨m2, h2⟩ := ih (j + 1) { s with crt := m1 }
    exact ⟨m2, by rw [drawRows, h1, h2]⟩

theorem drawTable_frame (s : State) : ∃ m, drawTable s = { s with crt := m } :=
  drawRows_frame tableRows 1 s

theorem drawTableRow_crt (s : State) (str : List Nat) (e k : Nat) (hlen : str.length = 23)
    (he : 23 ≤ e) (hk : ¬ (e - 23 ≤ k ∧ k < e)) : (drawTableRow s str e).crt k = s.crt k := by
  unfold drawTableRow makeLeftClmnActive makeRightClmnActive
  split_ifs <;> simp only [forCells_apply, hlen] <;> split_ifs <;> first | rfl | omega

theorem drawRows_crt (rows : List (List Nat)) (j : Nat) (s : State) (k : Nat)
    (hlen : ∀ str ∈ rows, str.length = 23) (hj : 1 ≤ j)
    (hk : ∀ i, j ≤ i → i < j + rows.length → ¬ (80 * i - 23 ≤ k ∧ k < 80 * i)) :
    (drawRows rows j s).crt k = s.crt k := by
  induction rows generalizing j s with
  | nil => rfl
  | cons str rest ih =>
    rw [drawRows, ih (j + 1) _ (fun x hx => hlen x (List.mem_cons_of_mem _ hx)) (by omega)]
    · exact drawTableRow_crt s str (80 * j) k (hlen str (List.mem_cons_self _ _)) (by omega)
        (hk j (le_refl _) (by simp))
    · intro i h1 h2
      exact hk i (by omega) (by simp only [List.length_cons]; omega)

/-- What `drawTable` leaves alone: every cell outside rows `0..9`, columns `57..79`. -/
theorem drawTable_crt (s : State) (k : Nat) (hk : ¬ inTable k) :
    (drawTable s).crt k = s.crt k := by
  apply drawRows_crt tableRows 1 s k tableRows_length (le_refl _)
  intro i h1 h2
  have h3 : i < 11 := by simpa [tableRows] using h2
  unfold inTable at hk
  omega

theorem inTable_inSaved (k : Nat) (h : inTable k) : inSaved k := by
  unfold inTable at h
  unfold inSaved
  omega

theorem Colorize_crt (s : State) (k : Nat) :
    (Colorize s).crt k = if k < 2000 then (s.crt k % 256) ||| attr s else s.crt k := by
  simp only [Colorize, forCells_apply, and_255]
  split_ifs <;> first | rfl | omega

/-- C10: with both colour indices in `0..7` and both bright flags in `{0,1}`
the composed value `bg*256 + fg*4096 + brightFg*2048 + brightBg*32768` is
below 65536 with a zero low byte, and after `Colorize` each of the 2000 cells
has its low byte unchanged and its high byte equal to the high byte of the
composed value. -/
theorem Colorize_recolours (s : State)
    (hbg : 0 ≤ s.selectedBgClr ∧ s.selectedBgClr ≤ 7)
    (hfg : 0 ≤ s.selectedFgClr ∧ s.selectedFgClr ≤ 7)
    (hlf : s.isLightFg = 0 ∨ s.isLightFg = 1) (hlb : s.isLightBg = 0 ∨ s.isLightBg = 1) :
    colorExpr s = s.selectedBgClr * 256 + s.selectedFgClr * 4096 + s.isLightFg * 2048
        + s.isLightBg * 32768 ∧
      0 ≤ colorExpr s ∧ colorExpr s < 65536 ∧ colorExpr s % 256 = 0 ∧
      ∀ k, k < 80 * 25 →
        (Colorize s).crt k % 256 = s.crt k % 256 ∧
        (Colorize s).crt k / 256 = (colorExpr s).toNat / 256 := by
  have hc : colorExpr s = s.selectedBgClr * 256 + s.selectedFgClr * 4096 + s.isLightFg * 2048
      + s.isLightBg * 32768 := by
    unfold colorExpr bgColorConst fgColorConst isLightConstFg isLightConstBg
    ring
  have h0 : 0 ≤ colorExpr s := by rw [hc]; omega
  have h1 : colorExpr s < 65536 := by rw [hc]; omega
  have ha : attr s = (colorExpr s).toNat := by
    unfold attr
    rw [Int.emod_eq_of_lt h0 h1]
  refine ⟨hc, h0, h1, colorExpr_mod s, ?_⟩
  intro k hk
  have hk2 : k < 2000 := by omega
  rw [Colorize_crt, if_pos hk2, ← ha]
  exact ⟨or_low _ _ (Nat.mod_lt _ (by decide)) (attr_low s),
    or_high _ _ (Nat.mod_lt _ (by decide)) (attr_low s)⟩

theorem Colorize_recolours_witness :
    colorExpr (State.init (fun _ => 0x0241) 0) = 7 * 256 + 0 * 4096 + 0 * 2048 + 0 * 32768 ∧
      0 ≤ colorExpr (State.init (fun _ => 0x0241) 0) ∧
      colorExpr (State.init (fun _ => 0x0241) 0) < 65536 ∧
      colorExpr (State.init (fun _ => 0x0241) 0) % 256 = 0 ∧
      ∀ k, k < 80 * 25 →
        (Colorize (State.init (fun _ => 0x0241) 0)).crt k % 256
          = (State.init (fun _ => 0x0241) 0).crt k % 256 ∧
        (Colorize (State.init (fun _ => 0x0241) 0)).crt k / 256
          = (colorExpr (State.init (fun _ => 0x0241) 0)).toNat / 256 :=
  Colorize_recolours (State.init (fun _ => 0x0241) 0) (by decide) (by decide) (by decide)
    (by decide)

/-! ## What each operation leaves alone -/

theorem cgaputc_none (s : State) (c : Nat) (h : ¬ cgaMove s c ≤ 2000) : cgaputc s c = none := by
  unfold cgaputc
  have hpos : cgaMove s c > 25 * 80 := by omega
  simp only [hpos, if_true]

theorem cgaputc_frame (s s1 : State) (c : Nat) (h : cgaputc s c = some s1) :
    ∃ m cur, s1 = { s with crt := m, cursor := cur } := by
  by_cases hm : cgaMove s c ≤ 2000
  · rw [cgaputc_eq s c hm] at h
    injection h with h
    exact ⟨_, _, h.symm⟩
  · rw [cgaputc_none s c hm] at h
    exact absurd h (by simp)

theorem consputc_frame (s s1 : State) (c : Nat) (h : consputc s c = some s1) :
    s.panicked = 0 ∧
      ∃ m cur, s1 = { s with crt := m, cursor := cur, emitted := s.emitted ++ [c] } := by
  unfold consputc at h
  by_cases hp : s.panicked ≠ 0
  · rw [if_pos hp] at h
    exact absurd h (by simp)
  · rw [if_neg hp] at h
    obtain ⟨m, cur, h2⟩ := cgaputc_frame _ _ _ h
    exact ⟨by simpa using hp, m, cur, h2⟩

theorem consputc_ok (s : State) (c : Nat) (h : DisplayOK s) :
    ∃ s1, consputc s c = some s1 ∧ DisplayOK s1 := by
  obtain ⟨hp, hc⟩ := h
  unfold consputc
  have hp2 : ¬ s.panicked ≠ 0 := by simp [hp]
  rw [if_neg hp2]
  have hm : cgaMove { s with emitted := s.emitted ++ [c] } c ≤ 2000 := cgaMove_le _ c hc
  refine ⟨_, cgaputc_eq _ c hm, hp, ?_⟩
  simp only []
  split_ifs <;> omega

theorem copyShowingArrayLoop_frame (n i j r : Nat) (s : State) :
    ∃ m t, copyShowingArrayLoop n i j r s = { s with crt := m, tempDeletedTable := t } := by
  induction n generalizing i j r s with
  | zero => exact ⟨s.crt, s.tempDeletedTable, rfl⟩
  | succ n ih =>
    rw [copyShowingArrayLoop]
    split_ifs <;> exact ih _ _ _ _

theorem copyShowingArray_frame (s : State) :
    ∃ m t, copyShowingArray s = { s with crt := m, tempDeletedTable := t } :=
  copyShowingArrayLoop_frame 240 0 (80 - 23) 0 s

/-- A menu key leaves everything but the selection, the colours and the cells. -/
theorem menuKey_frame (s : State) (c : Nat) :
    ∃ m, menuKey s c = { menuKey s c with
      panicked := s.panicked, tableActive := s.tableActive, crt := m, cursor := s.cursor,
      tempDeletedTable := s.tempDeletedTable, input := s.input, emitted := s.emitted } := by
  unfold menuKey changeColor changeLight
  split_ifs
  all_goals first
    | exact ⟨s.crt, rfl⟩
    | (obtain ⟨m, h⟩ := drawTable_frame _
       rw [h]
       exact ⟨m, rfl⟩)

/-- While the overlay is active, any byte that is none of `^P ^U ^H DEL ^B`
only acts as a menu key. -/
theorem consoleintrStep_active (s : State) (c : Nat) (ha : s.tableActive ≠ 0)
    (hc : c ≠ 16 ∧ c ≠ 21 ∧ c ≠ 8 ∧ c ≠ 127 ∧ c ≠ 2) :
    consoleintrStep s c = some (menuKey s c) := by
  obtain ⟨m, hm⟩ := menuKey_frame s c
  have hta : (menuKey s c).tableActive = s.tableActive := by rw [hm]
  unfold consoleintrStep
  simp only [ha, ne_eq, not_false_eq_true, if_true, hc.1, hc.2.1, hc.2.2.1, hc.2.2.2.1,
    hc.2.2.2.2, or_self, if_false, hta, lnot]
  simp

/-! ## One byte through the interrupt handler -/

theorem sameConfig_refl (s : State) : SameConfig s s := ⟨rfl, rfl, rfl, rfl, rfl, rfl, rfl⟩

theorem sameConfig_trans {s t u : State} (h1 : SameConfig s t) (h2 : SameConfig t u) :
    SameConfig s u := by
  unfold SameConfig at *
  obtain ⟨a1, a2, a3, a4, a5, a6, a7⟩ := h1
  obtain ⟨b1, b2, b3, b4, b5, b6, b7⟩ := h2
  exact ⟨b1.trans a1, b2.trans a2, b3.trans a3, b4.trans a4, b5.trans a5, b6.trans a6,
    b7.trans a7⟩

theorem sameConfig_attr {s t : State} (h : SameConfig s t) : attr t = attr s := by
  obtain ⟨_, _, _, a4, a5, a6, a7⟩ := h
  unfold Console.attr colorExpr
  rw [a4, a5, a6, a7]

theorem consputc_fields (s s1 : State) (c : Nat) (h : consputc s c = some s1) :
    s.panicked = 0 ∧ SameConfig s s1 ∧ s1.tableActive = s.tableActive ∧
      s1.tempDeletedTable = s.tempDeletedTable ∧ s1.input = s.input ∧
      s1.emitted = s.emitted ++ [c] := by
  obtain ⟨hp, m, cur, h2⟩ := consputc_frame s s1 c h
  subst h2
  exact ⟨hp, ⟨rfl, rfl, rfl, rfl, rfl, rfl, rfl⟩, rfl, rfl, rfl, rfl⟩

theorem killLine_fields (n : Nat) (s s1 : State) (h : killLine n s = some s1) :
    SameConfig s s1 ∧ s1.tableActive = s.tableActive ∧
      s1.tempDeletedTable = s.tempDeletedTable ∧ s1.input = killInput n s.input := by
  induction n generalizing s with
  | zero =>
    simp only [killLine, Option.some.injEq] at h
    subst h
    exact ⟨sameConfig_refl _, rfl, rfl, rfl⟩
  | succ n ih =>
    rw [killLine] at h
    rw [killInput]
    by_cases hc : s.input.e ≠ s.input.w ∧ s.input.buf (usub s.input.e 1 % INPUT_BUF) ≠ 10
    · rw [if_pos hc] at h
      rw [if_pos hc]
      cases h2 : consputc { s with input := { s.input with e := usub s.input.e 1 } } BACKSPACE with
      | none => rw [h2] at h; exact absurd h (by simp)
      | some s2 =>
        rw [h2] at h
        simp only [Option.some_bind] at h
        obtain ⟨a1, a2, a3, a4⟩ := ih s2 h
        obtain ⟨_, b1, b2, b3, b4, _⟩ := consputc_fields _ _ _ h2
        have b1s : SameConfig s s2 := by
          obtain ⟨c1, c2, c3, c4, c5, c6, c7⟩ := b1
          exact ⟨c1, c2, c3, c4, c5, c6, c7⟩
        refine ⟨sameConfig_trans b1s a1, a2.trans b2, a3.trans b3, ?_⟩
        rw [a4, b4]
    · rw [if_neg hc] at h
      rw [if_neg hc]
      simp only [Option.some.injEq] at h
      subst h
      exact ⟨sameConfig_refl _, rfl, rfl, rfl⟩

theorem menuKey_fields (s : State) (c : Nat) :
    (menuKey s c).panicked = s.panicked ∧ (menuKey s c).tableActive = s.tableActive ∧
      (menuKey s c).cursor = s.cursor ∧ (menuKey s c).tempDeletedTable = s.tempDeletedTable ∧
      (menuKey s c).input = s.input ∧ (menuKey s c).emitted = s.emitted := by
  obtain ⟨m, h⟩ := menuKey_frame s c
  rw [h]
  exact ⟨rfl, rfl, rfl, rfl, rfl, rfl⟩

theorem copyShowingArray_fields (s : State) :
    SameConfig s (copyShowingArray s) ∧ (copyShowingArray s).tableActive = s.tableActive ∧
      (copyShowingArray s).input = s.input ∧ (copyShowingArray s).emitted = s.emitted ∧
      (copyShowingArray s).cursor = s.cursor := by
  obtain ⟨m, t, h⟩ := copyShowingArray_frame s
  rw [h]
  exact ⟨⟨rfl, rfl, rfl, rfl, rfl, rfl, rfl⟩, rfl, rfl, rfl, rfl⟩

theorem drawTable_fields (s : State) :
    SameConfig s (drawTable s) ∧ (drawTable s).tableActive = s.tableActive ∧
      (drawTable s).input = s.input ∧ (drawTable s).emitted = s.emitted ∧
      (drawTable s).cursor = s.cursor ∧
      (drawTable s).tempDeletedTable = s.tempDeletedTable := by
  obtain ⟨m, h⟩ := drawTable_frame s
  rw [h]
  exact ⟨⟨rfl, rfl, rfl, rfl, rfl, rfl, rfl⟩, rfl, rfl, rfl, rfl, rfl⟩

/-- The state the second `switch` of `consoleintrStep` starts from. -/
theorem afterMenu_fields (s : State) (c : Nat) :
    (if s.tableActive ≠ 0 then menuKey s c else s).panicked = s.panicked ∧
      (if s.tableActive ≠ 0 then menuKey s c else s).tableActive = s.tableActive ∧
      (if s.tableActive ≠ 0 then menuKey s c else s).cursor = s.cursor ∧
      (if s.tableActive ≠ 0 then menuKey s c else s).tempDeletedTable = s.tempDeletedTable ∧
      (if s.tableActive ≠ 0 then menuKey s c else s).input = s.input ∧
      (if s.tableActive ≠ 0 then menuKey s c else s).emitted = s.emitted := by
  split_ifs
  · exact menuKey_fields s c
  · exact ⟨rfl, rfl, rfl, rfl, rfl, rfl⟩

/-- One byte through `consoleintr`: the configuration is the one the menu key
left, the `input` structure moves as `stepInput` says, and only `^B` flips
`tableActive`. -/
theorem consoleintrStep_fields (s s1 : State) (c : Nat) (h : consoleintrStep s c = some s1) :
    SameConfig (if s.tableActive ≠ 0 then menuKey s c else s) s1 ∧
      s1.input = stepInput s.tableActive s.input c ∧
      s1.tableActive = (if c = 2 then lnot s.tableActive else s.tableActive) := by
  obtain ⟨_, g2, _, _, g5, _⟩ := afterMenu_fields s c
  unfold consoleintrStep at h
  unfold stepInput
  generalize (if s.tableActive ≠ 0 then menuKey s c else s) = s0 at h g2 g5 ⊢
  rw [← g2, ← g5]
  clear g2 g5
  by_cases h1 : c = 16
  · have h2 : ¬ c = 2 := by omega
    simp only [h1, if_true] at h
    simp only [h1, h2, if_true, if_false]
    injection h with h
    subst h
    exact ⟨sameConfig_refl _, rfl, rfl⟩
  by_cases h2 : c = 21
  · have h3 : ¬ c = 2 := by omega
    simp only [h1, h2, if_true, if_false] at h
    simp only [h1, h2, h3, if_true, if_false]
    obtain ⟨a1, a2, _, a4⟩ := killLine_fields _ _ _ h
    exact ⟨a1, a4, a2⟩
  by_cases h3 : c = 8 ∨ c = 127
  · have h4 : ¬ c = 2 := by omega
    simp only [h1, h2, h3, if_true, if_false] at h
    simp only [h1, h2, h3, h4, if_true, if_false]
    by_cases h5 : s0.input.e ≠ s0.input.w
    · rw [if_pos h5] at h
      rw [if_pos h5]
      obtain ⟨_, b1, b2, _, b4, _⟩ := consputc_fields _ _ _ h
      obtain ⟨c1, c2, c3, c4, c5, c6, c7⟩ := b1
      exact ⟨⟨c1, c2, c3, c4, c5, c6, c7⟩, b4, b2⟩
    · rw [if_neg h5] at h
      rw [if_neg h5]
      injection h with h
      subst h
      exact ⟨sameConfig_refl _, rfl, rfl⟩
  by_cases h4 : c = 2
  · simp only [h1, h2, h3, h4, if_true, if_false] at h
    simp only [h1, h2, h3, h4, if_true, if_false]
    injection h with h
    subst h
    obtain ⟨a1, a2, a3, _, _⟩ := copyShowingArray_fields s0
    obtain ⟨b1, b2, b3, _, _⟩ := copyShowingArray_fields (copyShowingArray s0)
    obtain ⟨d1, d2, d3, _, _, _⟩ := drawTable_fields (copyShowingArray s0)
    by_cases h5 : (copyShowingArray s0).tableActive ≠ 0
    · simp only [h5, if_true, ne_eq, not_false_eq_true]
      refine ⟨?_, ?_, ?_⟩
      · obtain ⟨c1, c2, c3, c4, c5, c6, c7⟩ := sameConfig_trans a1 b1
        unfold SameConfig
        dsimp only
        exact ⟨c1, c2, c3, c4, c5, c6, c7⟩
      · exact b3.trans a3
      · simp only [b2, a2]
    · simp only [h5, if_false, ne_eq]
      refine ⟨?_, ?_, ?_⟩
      · obtain ⟨c1, c2, c3, c4, c5, c6, c7⟩ := sameConfig_trans a1 d1
        unfold SameConfig
        dsimp only
        exact ⟨c1, c2, c3, c4, c5, c6, c7⟩
      · exact d3.trans a3
      · simp only [d2, a2]
  simp only [h1, h2, h3, h4, if_false] at h
  simp only [h1, h2, h3, h4, if_false]
  by_cases h5 : c ≠ 0 ∧ usub s0.input.e s0.input.r < INPUT_BUF ∧ lnot s0.tableActive ≠ 0
  · rw [if_pos h5] at h
    rw [if_pos h5]
    cases h6 : consputc { s0 with input := { s0.input with
            buf := store s0.input.buf (s0.input.e % INPUT_BUF) ((if c = 13 then 10 else c) % 256),
            e := (s0.input.e + 1) % UINT } } (if c = 13 then 10 else c) with
    | none => rw [h6] at h; exact absurd h (by simp)
    | some s2 =>
      rw [h6] at h
      simp only [Option.some_bind] at h
      obtain ⟨_, b1, b2, _, b4, _⟩ := consputc_fields _ _ _ h6
      obtain ⟨c1, c2, c3, c4, c5, c6, c7⟩ := b1
      have e2 : s2.input.e = (s0.input.e + 1) % UINT := by rw [b4]
      have r2 : s2.input.r = s0.input.r := by rw [b4]
      rw [e2, r2] at h
      by_cases h7 : (if c = 13 then 10 else c) = 10 ∨ (if c = 13 then 10 else c) = 4
          ∨ (s0.input.e + 1) % UINT = (s0.input.r + INPUT_BUF) % UINT
      · rw [if_pos h7] at h
        rw [if_pos h7]
        injection h with h
        subst h
        refine ⟨⟨c1, c2, c3, c4, c5, c6, c7⟩, ?_, b2⟩
        simp only [b4]
      · rw [if_neg h7] at h
        rw [if_neg h7]
        injection h with h
        subst h
        exact ⟨⟨c1, c2, c3, c4, c5, c6, c7⟩, b4, b2⟩
  · rw [if_neg h5] at h
    rw [if_neg h5]
    injection h with h
    subst h
    exact ⟨sameConfig_refl _, rfl, rfl⟩

/-! ## The overlay: selection and colours -/

theorem selOK_of_sameConfig {s t : State} (h : SameConfig s t) (hs : SelOK s) : SelOK t := by
  obtain ⟨_, a2, a3, a4, a5, a6, a7⟩ := h
  unfold SelOK at hs ⊢
  rw [a2, a3, a4, a5, a6, a7]
  exact hs

theorem Colorize_sameConfig (s : State) : SameConfig s (Colorize s) := by
  unfold SameConfig Colorize
  dsimp only
  exact ⟨rfl, rfl, rfl, rfl, rfl, rfl, rfl⟩

theorem lnot_cases (x : Int) : lnot x = 0 ∨ lnot x = 1 := by
  unfold lnot
  split_ifs
  · exact Or.inr rfl
  · exact Or.inl rfl

theorem menuKey_selOK (s : State) (c : Nat) (h : SelOK s) : SelOK (menuKey s c) := by
  have hl := lnot_cases s.selectedCol
  unfold menuKey changeColor changeLight
  split_ifs
  all_goals first
    | exact h
    | (refine selOK_of_sameConfig (drawTable_fields _).1 ?_
       first
         | (refine selOK_of_sameConfig (Colorize_sameConfig _) ?_
            unfold SelOK at h ⊢
            dsimp only
            omega)
         | (unfold SelOK at h ⊢
            dsimp only
            omega))

/-- C19: in every state reached from the initial state by bytes handed to
`consoleintr`, the selected row is in `2..9`, the selected column is 0 or 1,
both colour indices are in `0..7` and both bright flags are 0 or 1. -/
theorem selection_invariant (s : State) (h : KeyReachable s) :
    (2 ≤ s.selectedRow ∧ s.selectedRow ≤ 9) ∧ (s.selectedCol = 0 ∨ s.selectedCol = 1) ∧
    (0 ≤ s.selectedBgClr ∧ s.selectedBgClr ≤ 7) ∧ (0 ≤ s.selectedFgClr ∧ s.selectedFgClr ≤ 7) ∧
    (s.isLightFg = 0 ∨ s.isLightFg = 1) ∧ (s.isLightBg = 0 ∨ s.isLightBg = 1) := by
  have key : SelOK s := by
    induction h with
    | init crt0 cursor0 =>
      unfold SelOK State.init
      dsimp only
      omega
    | key s s1 c _ hstep ih =>
      refine selOK_of_sameConfig (consoleintrStep_fields s s1 c hstep).1 ?_
      split_ifs
      · exact menuKey_selOK s c ih
      · exact ih
  exact key

/-- The states `consoleintr` ends in are reached by its bytes one at a time. -/
theorem keyReachable_consoleintr (cs : List Nat) : ∀ (s s1 : State), KeyReachable s →
    consoleintr s cs = some s1 → KeyReachable s1 := by
  induction cs with
  | nil =>
    intro s s1 hs h
    rw [consoleintr] at h
    injection h with h
    subst h
    exact hs
  | cons c cs ih =>
    intro s s1 hs h
    rw [consoleintr] at h
    cases h2 : consoleintrStep s c with
    | none => rw [h2] at h; cases h
    | some s2 =>
      rw [h2, Option.some_bind] at h
      exact ih s2 s1 (KeyReachable.key s s2 c hs h2) h

set_option maxRecDepth 100000 in
theorem selection_invariant_witness :
    ∃ s, consoleintr (State.init (fun _ => 0) 0) [2, 119, 100, 114, 115, 115, 97, 101] = some s ∧
      [s.tableActive, s.selectedRow, s.selectedCol, s.selectedBgClr, s.selectedFgClr,
        s.isLightFg, s.isLightBg] = [1, 3, 0, 7, 1, 1, 0] ∧
      ((2 ≤ s.selectedRow ∧ s.selectedRow ≤ 9) ∧ (s.selectedCol = 0 ∨ s.selectedCol = 1) ∧
        (0 ≤ s.selectedBgClr ∧ s.selectedBgClr ≤ 7) ∧
        (0 ≤ s.selectedFgClr ∧ s.selectedFgClr ≤ 7) ∧
        (s.isLightFg = 0 ∨ s.isLightFg = 1) ∧ (s.isLightBg = 0 ∨ s.isLightBg = 1)) := by
  have hrun : (consoleintr (State.init (fun _ => 0) 0)
      [2, 119, 100, 114, 115, 115, 97, 101]).map
      (fun s => [s.tableActive, s.selectedRow, s.selectedCol, s.selectedBgClr,
        s.selectedFgClr, s.isLightFg, s.isLightBg]) = some [1, 3, 0, 7, 1, 1, 0] := by
    decide
  cases h : consoleintr (State.init (fun _ => 0) 0) [2, 119, 100, 114, 115, 115, 97, 101] with
  | none =>
    rw [h] at hrun
    cases hrun
  | some s =>
    rw [h] at hrun
    injection hrun with hrun
    exact ⟨s, rfl, hrun, selection_invariant s
      (keyReachable_consoleintr _ _ s (KeyReachable.init _ _) h)⟩

set_option maxRecDepth 100000 in
/-- C9, as stated, fails: after `^B`, `'r'` (column 0: `isLightBg = 1`), `'d'`
(column 1), three `'s'` (row 5) the confirm key `'e'` on column 1 leaves the
index multiplied by 4096 (`selectedFgClr`) at 0 and `isLightBg` at 1; it sets
the index multiplied by 256 (`selectedBgClr`) to 3 and clears `isLightFg`. -/
theorem confirm_axis_counterexample :
    (consoleintr (State.init (fun _ => 0) 0) [2, 114, 100, 115, 115, 115]).map
        (fun s => [s.tableActive, s.selectedRow, s.selectedCol, s.selectedBgClr,
          s.selectedFgClr, s.isLightFg, s.isLightBg]) = some [1, 5, 1, 7, 0, 0, 1] ∧
      (consoleintr (State.init (fun _ => 0) 0) [2, 114, 100, 115, 115, 115, 101]).map
        (fun s => [s.tableActive, s.selectedRow, s.selectedCol, s.selectedBgClr,
          s.selectedFgClr, s.isLightFg, s.isLightBg]) = some [1, 5, 1, 3, 0, 0, 1] := by
  decide

/-- C9, amended: with the overlay active and the selected row `k` in `2..9`,
the confirm key `'e'` on column 0 sets the colour index that the attribute
multiplies by 4096 (`selectedFgClr`) to `k-2` and clears the bright flag of
the 32768 unit (`isLightBg`); on any other column it sets the index multiplied
by 256 (`selectedBgClr`) to `k-2` and clears the bright flag of the 2048 unit
(`isLightFg`); the other index and the other flag are unchanged. -/
theorem confirm_axis (s : State) (k : Int) (ha : s.tableActive ≠ 0) (_hk : 2 ≤ k ∧ k ≤ 9)
    (hr : s.selectedRow = k) :
    ∃ s1, consoleintrStep s 101 = some s1 ∧
      (s.selectedCol = 0 →
        s1.selectedFgClr = k - 2 ∧ s1.isLightBg = 0 ∧
        s1.selectedBgClr = s.selectedBgClr ∧ s1.isLightFg = s.isLightFg ∧
        colorExpr s1 = 256 * s.selectedBgClr + 4096 * (k - 2) + 2048 * s.isLightFg) ∧
      (s.selectedCol ≠ 0 →
        s1.selectedBgClr = k - 2 ∧ s1.isLightFg = 0 ∧
        s1.selectedFgClr = s.selectedFgClr ∧ s1.isLightBg = s.isLightBg ∧
        colorExpr s1 = 256 * (k - 2) + 4096 * s.selectedFgClr + 32768 * s.isLightBg) := by
  subst hr
  have hm : menuKey s 101 = changeColor s := by
    unfold menuKey
    simp
  refine ⟨_, consoleintrStep_active s 101 ha (by decide), ?_, ?_⟩
  · intro hc
    have hcc : changeColor s
        = drawTable (Colorize { s with selectedFgClr := s.selectedRow - 2, isLightBg := 0 }) := by
      simp only [changeColor, hc, if_true]
    obtain ⟨_, _, _, a4, a5, a6, a7⟩ :=
      sameConfig_trans (Colorize_sameConfig _) (drawTable_fields (Colorize
        { s with selectedFgClr := s.selectedRow - 2, isLightBg := 0 })).1
    rw [hm, hcc]
    unfold colorExpr bgColorConst fgColorConst isLightConstFg isLightConstBg
    rw [a4, a5, a6, a7]
    dsimp only
    refine ⟨rfl, rfl, rfl, rfl, ?_⟩
    ring
  · intro hc
    have hcc : changeColor s
        = drawTable (Colorize { s with selectedBgClr := s.selectedRow - 2, isLightFg := 0 }) := by
      simp only [changeColor, hc, if_false]
    obtain ⟨_, _, _, a4, a5, a6, a7⟩ :=
      sameConfig_trans (Colorize_sameConfig _) (drawTable_fields (Colorize
        { s with selectedBgClr := s.selectedRow - 2, isLightFg := 0 })).1
    rw [hm, hcc]
    unfold colorExpr bgColorConst fgColorConst isLightConstFg isLightConstBg
    rw [a4, a5, a6, a7]
    dsimp only
    refine ⟨rfl, rfl, rfl, rfl, ?_⟩
    ring

theorem confirm_axis_witness :
    ∃ s1, consoleintrStep { (State.init (fun _ => 0) 0) with
        tableActive := 1, selectedRow := 5, selectedCol := 1 } 101 = some s1 ∧
      s1.selectedBgClr = 5 - 2 ∧ s1.isLightFg = 0 := by
  obtain ⟨s1, h1, _, h3⟩ := confirm_axis { (State.init (fun _ => 0) 0) with
    tableActive := 1, selectedRow := 5, selectedCol := 1 } 5 (by decide) (by decide) rfl
  exact ⟨s1, h1, (h3 (by decide)).1, (h3 (by decide)).2.1⟩

/-- One navigation key while the overlay is active: the state is the menu
key's, so only the selected row and the cells can differ. -/
theorem nav_step (s : State) (c : Nat) (ha : s.tableActive ≠ 0) (hc : c = 119 ∨ c = 115) :
    ∃ s1, consoleintrStep s c = some s1 ∧ s1.tableActive = s.tableActive ∧
      s1.selectedRow = (if c = 119 then (if s.selectedRow = 2 then 9 else s.selectedRow - 1)
                        else (if s.selectedRow = 9 then 2 else s.selectedRow + 1)) ∧
      s1.selectedCol = s.selectedCol ∧ s1.selectedBgClr = s.selectedBgClr ∧
      s1.selectedFgClr = s.selectedFgClr ∧ s1.isLightFg = s.isLightFg ∧
      s1.isLightBg = s.isLightBg := by
  refine ⟨_, consoleintrStep_active s c ha (by omega), (menuKey_fields s c).2.1, ?_⟩
  rcases hc with hc | hc
  · subst hc
    have hm : menuKey s 119
        = drawTable { s with selectedRow := if s.selectedRow = 2 then 9 else s.selectedRow - 1 } := by
      simp only [menuKey, if_true]
    obtain ⟨_, a2, a3, a4, a5, a6, a7⟩ := (drawTable_fields
      { s with selectedRow := if s.selectedRow = 2 then 9 else s.selectedRow - 1 }).1
    rw [hm, a2, a3, a4, a5, a6, a7]
    dsimp only
    simp
  · subst hc
    have hm : menuKey s 115
        = drawTable { s with selectedRow := if s.selectedRow = 9 then 2 else s.selectedRow + 1 } := by
      simp [menuKey]
    obtain ⟨_, a2, a3, a4, a5, a6, a7⟩ := (drawTable_fields
      { s with selectedRow := if s.selectedRow = 9 then 2 else s.selectedRow + 1 }).1
    rw [hm, a2, a3, a4, a5, a6, a7]
    dsimp only
    simp

/-- A run of `n` equal navigation keys: the row moves `n` times, the rest of
the selection stays. -/
theorem nav_run (c : Nat) (hc : c = 119 ∨ c = 115) (n : Nat) (s : State)
    (ha : s.tableActive ≠ 0) :
    ∃ s1, consoleintr s (List.replicate n c) = some s1 ∧
      s1.selectedRow = (fun r : Int => if c = 119 then (if r = 2 then 9 else r - 1)
                        else (if r = 9 then 2 else r + 1))^[n] s.selectedRow ∧
      s1.selectedCol = s.selectedCol ∧ s1.selectedBgClr = s.selectedBgClr ∧
      s1.selectedFgClr = s.selectedFgClr ∧ s1.isLightFg = s.isLightFg ∧
      s1.isLightBg = s.isLightBg := by
  induction n generalizing s with
  | zero => exact ⟨s, rfl, rfl, rfl, rfl, rfl, rfl, rfl⟩
  | succ n ih =>
    obtain ⟨s1, h1, h2, h3, h4, h5, h6, h7, h8⟩ := nav_step s c ha hc
    obtain ⟨s2, g1, g3, g4, g5, g6, g7, g8⟩ := ih s1 (by rw [h2]; exact ha)
    refine ⟨s2, ?_, ?_, g4.trans h4, g5.trans h5, g6.trans h6, g7.trans h7, g8.trans h8⟩
    · rw [List.replicate_succ, consoleintr, h1]
      exact g1
    · rw [g3, h3, Function.iterate_succ_apply]

/-- C11: while the overlay is active, `'w'` maps row 2 to 9 and any other row
`k` to `k-1`, `'s'` maps row 9 to 2 and any other row `k` to `k+1`; on rows
`2..9` each undoes the other and eight repetitions of either return to the
starting row; neither changes the column, the colour indices or the flags. -/
theorem navigation_wraparound (s : State) (ha : s.tableActive ≠ 0)
    (hk : 2 ≤ s.selectedRow ∧ s.selectedRow ≤ 9) :
    (∃ s1, consoleintrStep s 119 = some s1 ∧
      s1.selectedRow = (if s.selectedRow = 2 then 9 else s.selectedRow - 1) ∧
      s1.selectedCol = s.selectedCol ∧ s1.selectedBgClr = s.selectedBgClr ∧
      s1.selectedFgClr = s.selectedFgClr ∧ s1.isLightFg = s.isLightFg ∧
      s1.isLightBg = s.isLightBg) ∧
    (∃ s1, consoleintrStep s 115 = some s1 ∧
      s1.selectedRow = (if s.selectedRow = 9 then 2 else s.selectedRow + 1) ∧
      s1.selectedCol = s.selectedCol ∧ s1.selectedBgClr = s.selectedBgClr ∧
      s1.selectedFgClr = s.selectedFgClr ∧ s1.isLightFg = s.isLightFg ∧
      s1.isLightBg = s.isLightBg) ∧
    (∃ s2, consoleintr s [119, 115] = some s2 ∧ s2.selectedRow = s.selectedRow) ∧
    (∃ s2, consoleintr s [115, 119] = some s2 ∧ s2.selectedRow = s.selectedRow) ∧
    (∃ s8, consoleintr s (List.replicate 8 119) = some s8 ∧ s8.selectedRow = s.selectedRow) ∧
    (∃ s8, consoleintr s (List.replicate 8 115) = some s8 ∧ s8.selectedRow = s.selectedRow) := by
  obtain ⟨u, u1, u2, u3, u4, u5, u6, u7, u8⟩ := nav_step s 119 ha (Or.inl rfl)
  obtain ⟨d, d1, d2, d3, d4, d5, d6, d7, d8⟩ := nav_step s 115 ha (Or.inr rfl)
  obtain ⟨ud, ud1, _, ud3, _⟩ := nav_step u 115 (by rw [u2]; exact ha) (Or.inr rfl)
  obtain ⟨du, du1, _, du3, _⟩ := nav_step d 119 (by rw [d2]; exact ha) (Or.inl rfl)
  obtain ⟨u8s, v1, v2, _⟩ := nav_run 119 (Or.inl rfl) 8 s ha
  obtain ⟨d8s, w1, w2, _⟩ := nav_run 115 (Or.inr rfl) 8 s ha
  simp only [if_true] at u3 du3 v2
  simp only [show ¬ (115 : Nat) = 119 by decide, if_false] at d3 ud3 w2
  refine ⟨⟨u, u1, u3, u4, u5, u6, u7, u8⟩, ⟨d, d1, d3, d4, d5, d6, d7, d8⟩, ⟨ud, ?_, ?_⟩,
    ⟨du, ?_, ?_⟩, ⟨u8s, v1, ?_⟩, ⟨d8s, w1, ?_⟩⟩
  · simp only [consoleintr, u1, ud1, Option.some_bind]
  · rw [ud3, u3]
    split_ifs <;> omega
  · simp only [consoleintr, d1, du1, Option.some_bind]
  · rw [du3, d3]
    split_ifs <;> omega
  · rw [v2]
    obtain ⟨h1, h2⟩ := hk
    generalize s.selectedRow = r at h1 h2
    interval_cases r <;> simp [Function.iterate_succ_apply]
  · rw [w2]
    obtain ⟨h1, h2⟩ := hk
    generalize s.selectedRow = r at h1 h2
    interval_cases r <;> simp [Function.iterate_succ_apply]

theorem navigation_wraparound_witness :
    ∃ s8, consoleintr { (State.init (fun _ => 0) 0) with tableActive := 1 }
        (List.replicate 8 119) = some s8 ∧
      s8.selectedRow = ({ (State.init (fun _ => 0) 0) with tableActive := 1 } : State).selectedRow :=
  (navigation_wraparound { (State.init (fun _ => 0) 0) with tableActive := 1 } (by decide)
    (by decide)).2.2.2.2.1

/-! ## The overlay: saving and restoring the region -/

theorem savedCell_next (i : Nat) :
    (i % 24 = 23 → savedCell i + 80 - 23 = savedCell (i + 1) ∧ 0 = (i + 1) % 24) ∧
    (¬ i % 24 = 23 → savedCell i + 1 = savedCell (i + 1) ∧ i % 24 + 1 = (i + 1) % 24) := by
  unfold savedCell
  omega

theorem copyShowingArrayLoop_succ (n i : Nat) (s : State) :
    copyShowingArrayLoop (n + 1) i (savedCell i) (i % 24) s =
      copyShowingArrayLoop n (i + 1) (savedCell (i + 1)) ((i + 1) % 24)
        (if s.tableActive ≠ 0 then
          { s with crt := store s.crt (savedCell i) ((s.tempDeletedTable i % 65536) ||| attr s) }
         else
          { s with tempDeletedTable := store s.tempDeletedTable i (s.crt (savedCell i) &&& 0x00FF) })
    := by
  rw [copyShowingArrayLoop]
  obtain ⟨h1, h2⟩ := savedCell_next i
  by_cases h : i % 24 = 23
  · obtain ⟨e1, e2⟩ := h1 h
    rw [if_pos h, e1, e2]
  · obtain ⟨e1, e2⟩ := h2 h
    rw [if_neg h, e1, e2]

/-- The saving pass: the cells are untouched and slot `x` of
`tempDeletedTable` receives the low byte of the cell it stands for. -/
theorem copyShowingArrayLoop_save (n i : Nat) (s : State) (h : s.tableActive = 0) :
    (copyShowingArrayLoop n i (savedCell i) (i % 24) s).crt = s.crt ∧
    ∀ x, (copyShowingArrayLoop n i (savedCell i) (i % 24) s).tempDeletedTable x
      = if i ≤ x ∧ x < i + n then s.crt (savedCell x) % 256 else s.tempDeletedTable x := by
  induction n generalizing i s with
  | zero =>
    refine ⟨rfl, fun x => ?_⟩
    have h3 : ¬ (i ≤ x ∧ x < i + 0) := by omega
    rw [if_neg h3]
    rfl
  | succ n ih =>
    have hta : ¬ s.tableActive ≠ 0 := by simp [h]
    rw [copyShowingArrayLoop_succ, if_neg hta]
    obtain ⟨a1, a2⟩ := ih (i + 1)
      { s with tempDeletedTable := store s.tempDeletedTable i (s.crt (savedCell i) &&& 0x00FF) } h
    refine ⟨a1, fun x => ?_⟩
    rw [a2 x]
    dsimp only
    rw [store_apply, and_255]
    by_cases hx : x = i
    · subst hx
      have h3 : ¬ (x + 1 ≤ x ∧ x < x + 1 + n) := by omega
      have h4 : x ≤ x ∧ x < x + (n + 1) := by omega
      rw [if_neg h3, if_pos h4, if_pos rfl]
    · rw [if_neg hx]
      by_cases h5 : i + 1 ≤ x ∧ x < i + 1 + n
      · have h6 : i ≤ x ∧ x < i + (n + 1) := by omega
        rw [if_pos h5, if_pos h6]
      · have h6 : ¬ (i ≤ x ∧ x < i + (n + 1)) := by omega
        rw [if_neg h5, if_neg h6]

theorem savedCell_iff (k i : Nat) :
    k = savedCell i ↔ (57 ≤ k ∧ (k - 57) % 80 < 24 ∧ savedSlot k = i) := by
  unfold savedCell savedSlot
  omega

/-- The restoring pass: `tempDeletedTable` is untouched and each visited cell
receives its saved byte or-ed with the current colour. -/
theorem copyShowingArrayLoop_restore (n i : Nat) (s : State) (h : s.tableActive ≠ 0) :
    (copyShowingArrayLoop n i (savedCell i) (i % 24) s).tempDeletedTable = s.tempDeletedTable ∧
    ∀ k, (copyShowingArrayLoop n i (savedCell i) (i % 24) s).crt k
      = if 57 ≤ k ∧ (k - 57) % 80 < 24 ∧ i ≤ savedSlot k ∧ savedSlot k < i + n
        then (s.tempDeletedTable (savedSlot k) % 65536) ||| attr s else s.crt k := by
  induction n generalizing i s with
  | zero =>
    refine ⟨rfl, fun k => ?_⟩
    have h3 : ¬ (57 ≤ k ∧ (k - 57) % 80 < 24 ∧ i ≤ savedSlot k ∧ savedSlot k < i + 0) := by
      omega
    rw [if_neg h3]
    rfl
  | succ n ih =>
    rw [copyShowingArrayLoop_succ, if_pos h]
    obtain ⟨a1, a2⟩ := ih (i + 1)
      { s with crt := store s.crt (savedCell i) ((s.tempDeletedTable i % 65536) ||| attr s) } h
    refine ⟨a1, fun k => ?_⟩
    rw [a2 k]
    have hattr : ∀ m, attr { s with crt := m } = attr s := fun _ => rfl
    dsimp only
    rw [store_apply]
    simp only [hattr]
    have hk := savedCell_iff k i
    by_cases hx : k = savedCell i
    · obtain ⟨b1, b2, b3⟩ := hk.mp hx
      have h3 : ¬ (57 ≤ k ∧ (k - 57) % 80 < 24 ∧ i + 1 ≤ savedSlot k ∧ savedSlot k < i + 1 + n) := by
        omega
      have h4 : 57 ≤ k ∧ (k - 57) % 80 < 24 ∧ i ≤ savedSlot k ∧ savedSlot k < i + (n + 1) := by
        omega
      rw [if_neg h3, if_pos h4, if_pos hx, b3]
    · rw [if_neg hx]
      have hne : ¬ (57 ≤ k ∧ (k - 57) % 80 < 24 ∧ savedSlot k = i) := fun hh => hx (hk.mpr hh)
      by_cases h5 : 57 ≤ k ∧ (k - 57) % 80 < 24 ∧ i + 1 ≤ savedSlot k ∧ savedSlot k < i + 1 + n
      · have h6 : 57 ≤ k ∧ (k - 57) % 80 < 24 ∧ i ≤ savedSlot k ∧ savedSlot k < i + (n + 1) := by
          omega
        rw [if_pos h5, if_pos h6]
      · have h6 : ¬ (57 ≤ k ∧ (k - 57) % 80 < 24 ∧ i ≤ savedSlot k ∧ savedSlot k < i + (n + 1)) := by
          omega
        rw [if_neg h5, if_neg h6]

theorem menuKey_other (s : State) (c : Nat)
    (hc : c ≠ 119 ∧ c ≠ 115 ∧ c ≠ 97 ∧ c ≠ 100 ∧ c ≠ 101 ∧ c ≠ 114) : menuKey s c = s := by
  unfold menuKey
  simp only [hc.1, hc.2.1, hc.2.2.1, hc.2.2.2.1, hc.2.2.2.2.1, hc.2.2.2.2.2, if_false]

/-- The toggle byte `^B`: a restore (done twice) when the overlay is active,
otherwise a save followed by `drawTable`; then the flag flips. -/
theorem toggle_eq (s : State) :
    consoleintrStep s 2 = some
      (if s.tableActive ≠ 0 then
        { copyShowingArray (copyShowingArray s) with tableActive := 0 }
       else { drawTable (copyShowingArray s) with tableActive := 1 }) := by
  have hm : (if s.tableActive ≠ 0 then menuKey s 2 else s) = s := by
    split_ifs
    · exact menuKey_other s 2 (by decide)
    · rfl
  unfold consoleintrStep
  rw [hm]
  have e1 := (copyShowingArray_fields s).2.1
  have e2 := (copyShowingArray_fields (copyShowingArray s)).2.1
  have e3 := (drawTable_fields (copyShowingArray s)).2.1
  simp only [show ¬ (2 : Nat) = 16 by decide, show ¬ (2 : Nat) = 21 by decide,
    show ¬ ((2 : Nat) = 8 ∨ (2 : Nat) = 127) by decide, if_false, if_true, e1]
  by_cases h : s.tableActive ≠ 0
  · have hl : lnot s.tableActive = 0 := by
      unfold lnot
      rw [if_neg h]
    simp only [if_pos h, e2, e1, hl]
  · have h0 : s.tableActive = 0 := by simpa using h
    have hl : lnot s.tableActive = 1 := by
      unfold lnot
      rw [if_pos h0]
    simp only [if_neg h, e3, e1, hl]

theorem copyShowingArray_eq (s : State) :
    copyShowingArray s = copyShowingArrayLoop 240 0 (savedCell 0) (0 % 24) s := by
  have h1 : savedCell 0 = 80 - 23 := by decide
  have h2 : 0 % 24 = 0 := rfl
  rw [h1, h2]
  rfl

theorem toggle_on (s : State) (h : s.tableActive = 0) :
    ∃ s1, consoleintrStep s 2 = some s1 ∧ s1.tableActive = 1 ∧ SameConfig s s1 ∧
      s1.input = s.input ∧ s1.emitted = s.emitted ∧ s1.cursor = s.cursor ∧
      (∀ x, s1.tempDeletedTable x
        = if x < 240 then s.crt (savedCell x) % 256 else s.tempDeletedTable x) ∧
      (∀ k, ¬ inTable k → s1.crt k = s.crt k) := by
  have hta : ¬ s.tableActive ≠ 0 := by simp [h]
  refine ⟨_, toggle_eq s, ?_⟩
  rw [if_neg hta]
  obtain ⟨a1, a2, a3, a4, a5⟩ := copyShowingArray_fields s
  obtain ⟨d1, d2, d3, d4, d5, d6⟩ := drawTable_fields (copyShowingArray s)
  obtain ⟨c1, c2⟩ := copyShowingArrayLoop_save 240 0 s h
  rw [← copyShowingArray_eq] at c1 c2
  refine ⟨?_, ?_, ?_, ?_, ?_, ?_, ?_⟩
  · dsimp only
  · unfold SameConfig
    dsimp only
    exact sameConfig_trans a1 d1
  · dsimp only
    exact d3.trans a3
  · dsimp only
    exact d4.trans a4
  · dsimp only
    exact d5.trans a5
  · intro x
    dsimp only
    rw [d6]
    have := c2 x
    simp only [Nat.zero_le, true_and, Nat.zero_add] at this
    exact this
  · intro k hk
    dsimp only
    rw [drawTable_crt _ k hk]
    exact congrFun c1 k

theorem toggle_off (s : State) (h : s.tableActive ≠ 0) :
    ∃ s1, consoleintrStep s 2 = some s1 ∧ s1.tableActive = 0 ∧ SameConfig s s1 ∧
      s1.input = s.input ∧ s1.emitted = s.emitted ∧ s1.cursor = s.cursor ∧
      (∀ k, s1.crt k
        = if inSaved k then (s.tempDeletedTable (savedSlot k) % 65536) ||| attr s
          else s.crt k) := by
  refine ⟨_, toggle_eq s, ?_⟩
  rw [if_pos h]
  obtain ⟨a1, a2, a3, a4, a5⟩ := copyShowingArray_fields s
  obtain ⟨b1, b2, b3, b4, b5⟩ := copyShowingArray_fields (copyShowingArray s)
  obtain ⟨c1, c2⟩ := copyShowingArrayLoop_restore 240 0 s h
  obtain ⟨e1, e2⟩ := copyShowingArrayLoop_restore 240 0 (copyShowingArray s)
    (by rw [a2]; exact h)
  rw [← copyShowingArray_eq] at c1 c2 e1 e2
  refine ⟨?_, ?_, ?_, ?_, ?_, ?_⟩
  · dsimp only
  · unfold SameConfig
    dsimp only
    exact sameConfig_trans a1 b1
  · dsimp only
    exact b3.trans a3
  · dsimp only
    exact b4.trans a4
  · dsimp only
    exact b5.trans a5
  intro k
  dsimp only
  have hc := c2 k
  have he := e2 k
  have hcond : (57 ≤ k ∧ (k - 57) % 80 < 24 ∧ 0 ≤ savedSlot k ∧ savedSlot k < 0 + 240)
      ↔ inSaved k := by
    unfold inSaved savedSlot
    omega
  simp only [hcond] at hc he
  rw [he, c1, sameConfig_attr a1, hc]
  split_ifs <;> rfl

/-- The cell a `^B ^B` pair leaves in the saved region. -/
theorem toggle_twice_cell (s : State) (h : s.tableActive = 0) (k : Nat) (hk : inSaved k) :
    ∃ s1 s2, consoleintrStep s 2 = some s1 ∧ consoleintrStep s1 2 = some s2 ∧
      s1.tableActive = 1 ∧ s2.tableActive = 0 ∧ s2.crt k = (s.crt k % 256) ||| attr s := by
  obtain ⟨s1, h1, a1, a2, _, _, _, a6, a7⟩ := toggle_on s h
  obtain ⟨s2, h2, b1, _, _, _, _, b6⟩ := toggle_off s1 (by rw [a1]; decide)
  refine ⟨s1, s2, h1, h2, a1, b1, ?_⟩
  rw [b6 k, if_pos hk, sameConfig_attr a2, a6]
  have hslot : savedSlot k < 240 := by
    unfold inSaved at hk
    unfold savedSlot
    omega
  have hcell : savedCell (savedSlot k) = k := by
    have := (savedCell_iff k (savedSlot k)).mpr ⟨hk.1, hk.2.1, rfl⟩
    exact this.symm
  rw [if_pos hslot, hcell]
  have : s.crt k % 256 % 65536 = s.crt k % 256 := by omega
  rw [this]

/-- C8, as stated, fails: on a screen of zero cells (as `cgaputc` leaves them
when it clears a row) with the initial colours, `^B ^B` leaves cell 57 of the
overlay region with the attribute byte 0x07 instead of 0. -/
theorem overlay_round_trip_counterexample :
    ∃ s1 s2, consoleintrStep (State.init (fun _ => 0) 0) 2 = some s1 ∧
      consoleintrStep s1 2 = some s2 ∧ inSaved 57 ∧ inTable 57 ∧
      (State.init (fun _ => 0) 0).crt 57 = 0 ∧ s2.crt 57 = 0x0700 := by
  obtain ⟨s1, s2, h1, h2, _, _, h5⟩ :=
    toggle_twice_cell (State.init (fun _ => 0) 0) rfl 57 (by decide)
  refine ⟨s1, s2, h1, h2, by decide, by decide, rfl, ?_⟩
  rw [h5]
  decide

/-- C8, amended: with the overlay inactive, two toggle bytes in succession
leave every cell of the saved region with its glyph (low) byte as before and
its attribute set to the current colour (the cell is `glyph | colour`), so a
cell is exactly as before if and only if its attribute already was the
current colour; every cell outside the region is unchanged. -/
theorem overlay_round_trip (s : State) (h : s.tableActive = 0) :
    ∃ s1 s2, consoleintrStep s 2 = some s1 ∧ consoleintrStep s1 2 = some s2 ∧
      s1.tableActive = 1 ∧ s2.tableActive = 0 ∧
      (∀ k, inSaved k →
        s2.crt k = (s.crt k % 256) ||| attr s ∧ s2.crt k % 256 = s.crt k % 256 ∧
        s2.crt k / 256 = attr s / 256 ∧ (s2.crt k = s.crt k ↔ s.crt k / 256 = attr s / 256)) ∧
      (∀ k, ¬ inSaved k → s2.crt k = s.crt k) := by
  obtain ⟨s1, h1, a1, a2, _, _, _, a6, a7⟩ := toggle_on s h
  obtain ⟨s2, h2, b1, _, _, _, _, b6⟩ := toggle_off s1 (by rw [a1]; decide)
  refine ⟨s1, s2, h1, h2, a1, b1, ?_, ?_⟩
  · intro k hk
    have e1 : s2.crt k = (s.crt k % 256) ||| attr s := by
      obtain ⟨t1, t2, g1, g2, _, _, g5⟩ := toggle_twice_cell s h k hk
      rw [h1] at g1
      injection g1 with g1
      subst g1
      rw [h2] at g2
      injection g2 with g2
      subst g2
      exact g5
    have hlt : s.crt k % 256 < 256 := Nat.mod_lt _ (by decide)
    have e2 := or_eq_add (s.crt k % 256) (attr s) hlt (attr_low s)
    have e3 := attr_low s
    refine ⟨e1, ?_, ?_, ?_⟩
    · rw [e1, e2]; omega
    · rw [e1, e2]; omega
    · rw [e1, e2]; omega
  · intro k hk
    have hk2 : ¬ inTable k := fun ht => hk (inTable_inSaved k ht)
    rw [b6 k, if_neg hk, a7 k hk2]

theorem overlay_round_trip_witness :
    ∃ s1 s2, consoleintrStep (State.init (fun _ => 0x0241) 0) 2 = some s1 ∧
      consoleintrStep s1 2 = some s2 ∧ s2.tableActive = 0 ∧
      (∀ k, inSaved k → s2.crt k % 256 = (State.init (fun _ => 0x0241) 0).crt k % 256) := by
  obtain ⟨s1, s2, h1, h2, _, h4, h5, _⟩ := overlay_round_trip (State.init (fun _ => 0x0241) 0) rfl
  exact ⟨s1, s2, h1, h2, h4, fun k hk => (h5 k hk).2.1⟩

/-- Outside the table a menu key keeps every glyph byte, and keeps the whole
cell unless it is the confirm or the brighten key. -/
theorem menuKey_crt (t : State) (c k : Nat) (hk : ¬ inTable k) :
    (menuKey t c).crt k % 256 = t.crt k % 256 ∧
      (c ≠ 101 → c ≠ 114 → (menuKey t c).crt k = t.crt k) := by
  have hcol : ∀ x : State, x.crt = t.crt →
      (drawTable (Colorize x)).crt k % 256 = t.crt k % 256 := by
    intro x hx
    rw [drawTable_crt _ k hk, Colorize_crt, hx]
    split_ifs
    · exact or_low _ _ (Nat.mod_lt _ (by decide)) (attr_low _)
    · rfl
  have hnav : ∀ x : State, x.crt = t.crt → (drawTable x).crt k = t.crt k := by
    intro x hx
    rw [drawTable_crt _ k hk, hx]
  by_cases h1 : c = 119
  · subst h1
    have hm : menuKey t 119
        = drawTable { t with selectedRow := if t.selectedRow = 2 then 9 else t.selectedRow - 1 } := by
      simp [menuKey]
    have := hnav { t with selectedRow := if t.selectedRow = 2 then 9 else t.selectedRow - 1 } rfl
    rw [hm]
    exact ⟨by rw [this], fun _ _ => this⟩
  by_cases h2 : c = 115
  · subst h2
    have hm : menuKey t 115
        = drawTable { t with selectedRow := if t.selectedRow = 9 then 2 else t.selectedRow + 1 } := by
      simp [menuKey]
    have := hnav { t with selectedRow := if t.selectedRow = 9 then 2 else t.selectedRow + 1 } rfl
    rw [hm]
    exact ⟨by rw [this], fun _ _ => this⟩
  by_cases h3 : c = 97
  · subst h3
    have hm : menuKey t 97 = drawTable { t with selectedCol := lnot t.selectedCol } := by
      simp [menuKey]
    have := hnav { t with selectedCol := lnot t.selectedCol } rfl
    rw [hm]
    exact ⟨by rw [this], fun _ _ => this⟩
  by_cases h4 : c = 100
  · subst h4
    have hm : menuKey t 100 = drawTable { t with selectedCol := lnot t.selectedCol } := by
      simp [menuKey]
    have := hnav { t with selectedCol := lnot t.selectedCol } rfl
    rw [hm]
    exact ⟨by rw [this], fun _ _ => this⟩
  by_cases h5 : c = 101
  · subst h5
    have hm : menuKey t 101 = changeColor t := by
      simp [menuKey]
    rw [hm]
    refine ⟨?_, fun g _ => absurd rfl g⟩
    unfold changeColor
    dsimp only
    split_ifs
    · exact hcol _ rfl
    · exact hcol _ rfl
  by_cases h6 : c = 114
  · subst h6
    have hm : menuKey t 114 = changeLight t := by
      simp [menuKey]
    rw [hm]
    refine ⟨?_, fun _ g => absurd rfl g⟩
    unfold changeLight
    dsimp only
    split_ifs
    · exact hcol _ rfl
    · exact hcol _ rfl
  · rw [menuKey_other t c ⟨h1, h2, h3, h4, h5, h6⟩]
    exact ⟨rfl, fun _ _ => rfl⟩

theorem menuKeys_run (keys : List Nat)
    (hkeys : ∀ c ∈ keys, c = 119 ∨ c = 115 ∨ c = 97 ∨ c = 100 ∨ c = 101 ∨ c = 114)
    (t : State) (ha : t.tableActive ≠ 0) :
    ∃ t2, consoleintr t keys = some t2 ∧ t2.tableActive = t.tableActive ∧
      t2.tempDeletedTable = t.tempDeletedTable ∧ t2.input = t.input ∧
      t2.emitted = t.emitted ∧
      (∀ k, ¬ inTable k → t2.crt k % 256 = t.crt k % 256) ∧
      ((∀ c ∈ keys, c ≠ 101 ∧ c ≠ 114) → ∀ k, ¬ inTable k → t2.crt k = t.crt k) := by
  induction keys generalizing t with
  | nil => exact ⟨t, rfl, rfl, rfl, rfl, rfl, fun _ _ => rfl, fun _ _ _ => rfl⟩
  | cons c cs ih =>
    have hc := hkeys c (List.mem_cons_self _ _)
    have hstep := consoleintrStep_active t c ha (by omega)
    obtain ⟨_, m2, _, m4, m5, m6⟩ := menuKey_fields t c
    obtain ⟨t2, g1, g2, g3, g4, g5, g6, g7⟩ :=
      ih (fun x hx => hkeys x (List.mem_cons_of_mem _ hx)) (menuKey t c) (by rw [m2]; exact ha)
    refine ⟨t2, ?_, g2.trans m2, g3.trans m4, g4.trans m5, g5.trans m6, ?_, ?_⟩
    · rw [consoleintr, hstep]
      exact g1
    · intro k hk
      rw [g6 k hk, (menuKey_crt t c k hk).1]
    · intro hno k hk
      obtain ⟨n1, n2⟩ := hno c (List.mem_cons_self _ _)
      rw [g7 (fun x hx => hno x (List.mem_cons_of_mem _ hx)) k hk,
        (menuKey_crt t c k hk).2 n1 n2]

/-- C20: with the overlay inactive, the toggle byte, any run of the six menu
keys and the toggle byte again leave the glyph (low) byte of every cell as it
was; `drawTable` changes no cell outside rows `0..9`, columns `57..79`, all of
which lie in the region `copyShowingArray` saves and restores; and when
neither the confirm nor the brighten key was pressed, every cell outside that
region is unchanged. -/
theorem overlay_cycle_glyphs (s : State) (keys : List Nat) (h0 : s.tableActive = 0)
    (hkeys : ∀ c ∈ keys, c = 119 ∨ c = 115 ∨ c = 97 ∨ c = 100 ∨ c = 101 ∨ c = 114) :
    ∃ s1 s2 s3, consoleintrStep s 2 = some s1 ∧ consoleintr s1 keys = some s2 ∧
      consoleintrStep s2 2 = some s3 ∧ s3.tableActive = 0 ∧
      (∀ k, s3.crt k % 256 = s.crt k % 256) ∧
      (∀ (t : State) (k : Nat), ¬ inTable k → (drawTable t).crt k = t.crt k) ∧
      (∀ k, inTable k → inSaved k) ∧
      ((∀ c ∈ keys, c ≠ 101 ∧ c ≠ 114) → ∀ k, ¬ inSaved k → s3.crt k = s.crt k) := by
  obtain ⟨s1, h1, a1, a2, _, _, _, a6, a7⟩ := toggle_on s h0
  have ha1 : s1.tableActive ≠ 0 := by rw [a1]; decide
  obtain ⟨s2, h2, b1, b2, _, _, b5, b6⟩ := menuKeys_run keys hkeys s1 ha1
  obtain ⟨s3, h3, c1, _, _, _, _, c6⟩ := toggle_off s2 (by rw [b1]; exact ha1)
  refine ⟨s1, s2, s3, h1, h2, h3, c1, ?_, fun t k hk => drawTable_crt t k hk,
    inTable_inSaved, ?_⟩
  · intro k
    rw [c6 k]
    by_cases hk : inSaved k
    · rw [if_pos hk, b2, a6]
      have hslot : savedSlot k < 240 := by
        unfold inSaved at hk
        unfold savedSlot
        omega
      have hcell : savedCell (savedSlot k) = k :=
        ((savedCell_iff k (savedSlot k)).mpr ⟨hk.1, hk.2.1, rfl⟩).symm
      rw [if_pos hslot, hcell]
      have hlt : s.crt k % 256 % 65536 < 256 := by omega
      rw [or_low _ _ hlt (attr_low s2)]
      omega
    · have hk2 : ¬ inTable k := fun ht => hk (inTable_inSaved k ht)
      rw [if_neg hk, b5 k hk2, a7 k hk2]
  · intro hno k hk
    have hk2 : ¬ inTable k := fun ht => hk (inTable_inSaved k ht)
    rw [c6 k, if_neg hk, b6 hno k hk2, a7 k hk2]

theorem overlay_cycle_glyphs_witness :
    ∃ s1 s2 s3, consoleintrStep (State.init (fun _ => 0x0241) 0) 2 = some s1 ∧
      consoleintr s1 [115, 100, 101, 114] = some s2 ∧
      consoleintrStep s2 2 = some s3 ∧ s3.tableActive = 0 ∧
      (∀ k, s3.crt k % 256 = (State.init (fun _ => 0x0241) 0).crt k % 256) := by
  obtain ⟨s1, s2, s3, h1, h2, h3, h4, h5, _⟩ :=
    overlay_cycle_glyphs (State.init (fun _ => 0x0241) 0) [115, 100, 101, 114] rfl (by decide)
  exact ⟨s1, s2, s3, h1, h2, h3, h4, h5⟩

/-! ## Formatted integers -/

theorem digits_getD : ∀ d, d < 16 → digits.getD d 0 = if d < 10 then 48 + d else 87 + d := by
  decide

theorem printintLoop_digits (b : Nat) (hb : 2 ≤ b) (fuel x : Nat) (buf : List Nat)
    (hx : 0 < x) (hf : x < b ^ fuel) :
    printintLoop b fuel x buf = buf ++ (Nat.digits b x).map fun d => digits.getD d 0 := by
  induction fuel generalizing x buf with
  | zero =>
    simp only [pow_zero] at hf
    omega
  | succ fuel ih =>
    rw [printintLoop, Nat.digits_def' (by omega) hx]
    by_cases h : x / b ≠ 0
    · have hpos : 0 < x / b := Nat.pos_of_ne_zero h
      have hlt : x / b < b ^ fuel := by
        rw [Nat.div_lt_iff_lt_mul (by omega)]
        rw [pow_succ] at hf
        exact hf
      rw [if_pos h, ih (x / b) _ hpos hlt]
      simp
    · have h0 : x / b = 0 := by simpa using h
      rw [if_neg h, h0]
      simp

theorem printintLoop_zero (b fuel : Nat) (buf : List Nat) (_hb : 2 ≤ b) :
    printintLoop b (fuel + 1) 0 buf = buf ++ [digits.getD 0 0] := by
  rw [printintLoop]
  simp

/-- The digit loop on a 32-bit value: one cell `'0'` for zero, otherwise the
digits of `x` in base `b`, least significant first. -/
theorem printintLoop_spec (b : Nat) (hb : 2 ≤ b) (x : Nat) (hx : x < 4294967296) :
    printintLoop b 32 x [] =
      if x = 0 then [digits.getD 0 0] else (Nat.digits b x).map fun d => digits.getD d 0 := by
  by_cases h : x = 0
  · subst h
    rw [if_pos rfl, printintLoop_zero b 31 [] hb]
    rfl
  · rw [if_neg h, printintLoop_digits b hb 32 x [] (Nat.pos_of_ne_zero h)]
    · rfl
    · calc x < 2 ^ 32 := by simpa using hx
        _ ≤ b ^ 32 := Nat.pow_le_pow_left hb 32

theorem map_digit_dec (x : Nat) :
    ((Nat.digits 10 x).map fun d => digits.getD d 0) = (Nat.digits 10 x).map fun d => 48 + d := by
  apply List.map_congr_left
  intro d hd
  have hlt : d < 10 := Nat.digits_lt_base (by decide) hd
  rw [digits_getD d (by omega), if_pos hlt]

theorem map_digit_hex (x : Nat) :
    ((Nat.digits 16 x).map fun d => digits.getD d 0)
      = (Nat.digits 16 x).map fun d => if d < 10 then 48 + d else 87 + d := by
  apply List.map_congr_left
  intro d hd
  have hlt : d < 16 := Nat.digits_lt_base (by decide) hd
  exact digits_getD d hlt

theorem consputs_emitted (cs : List Nat) (s s1 : State) (h : consputs s cs = some s1) :
    s1.emitted = s.emitted ++ cs := by
  induction cs generalizing s with
  | nil =>
    simp only [consputs, Option.some.injEq] at h
    subst h
    simp
  | cons c cs ih =>
    rw [consputs] at h
    cases h2 : consputc s c with
    | none => rw [h2] at h; exact absurd h (by simp)
    | some s2 =>
      rw [h2] at h
      simp only [Option.some_bind] at h
      rw [ih s2 h, (consputc_fields s s2 c h2).2.2.2.2.2]
      simp

theorem consputs_ok (cs : List Nat) (s : State) (h : DisplayOK s) :
    ∃ s1, consputs s cs = some s1 ∧ DisplayOK s1 := by
  induction cs generalizing s with
  | nil => exact ⟨s, rfl, h⟩
  | cons c cs ih =>
    obtain ⟨s2, h2, h3⟩ := consputc_ok s c h
    obtain ⟨s3, h4, h5⟩ := ih s2 h3
    exact ⟨s3, by rw [consputs, h2]; exact h4, h5⟩

theorem digits_length_dec (x : Nat) (hx : x < 4294967296) : (Nat.digits 10 x).length ≤ 10 := by
  by_cases h0 : x = 0
  · subst h0
    simp
  · have h1 := Nat.base_pow_length_digits_le 10 x (by decide) h0
    by_contra hlen
    have h2 : 10 ^ 11 ≤ 10 ^ (Nat.digits 10 x).length :=
      Nat.pow_le_pow_right (by decide) (by omega)
    have h3 : (10 : Nat) ^ 11 = 100000000000 := by norm_num
    omega

theorem digits_length_hex (x : Nat) (hx : x < 4294967296) : (Nat.digits 16 x).length ≤ 8 := by
  by_cases h0 : x = 0
  · subst h0
    simp
  · have h1 := Nat.base_pow_length_digits_le 16 x (by decide) h0
    by_contra hlen
    have h2 : 16 ^ 9 ≤ 16 ^ (Nat.digits 16 x).length :=
      Nat.pow_le_pow_right (by decide) (by omega)
    have h3 : (16 : Nat) ^ 9 = 68719476736 := by norm_num
    omega

theorem printintBuf_dec (xx : Int) (hx : -2147483648 ≤ xx ∧ xx < 2147483648) :
    (printintBuf xx 10 1).reverse = (if xx < 0 then [45] else []) ++ decimalRepr xx.natAbs ∧
      (printintBuf xx 10 1).length ≤ 11 := by
  have hx2 : xx.natAbs < 4294967296 := by omega
  have hl := digits_length_dec xx.natAbs hx2
  unfold printintBuf decimalRepr
  by_cases hneg : xx < 0
  · have e1 : ((-xx) % (UINT : Int)).toNat = xx.natAbs := by
      unfold UINT
      omega
    have hne : xx.natAbs ≠ 0 := by omega
    simp only [ne_eq, one_ne_zero, not_false_eq_true, decide_True, hneg, Bool.and_self, if_true,
      e1, printintLoop_spec 10 (by decide) _ hx2, hne, if_false, map_digit_dec]
    constructor
    · simp [List.map_reverse]
    · simp only [List.length_append, List.length_map, List.length_singleton]
      omega
  · have e1 : (xx % (UINT : Int)).toNat = xx.natAbs := by
      unfold UINT
      omega
    simp only [ne_eq, one_ne_zero, not_false_eq_true, decide_True, hneg, decide_False,
      Bool.and_false, Bool.false_eq_true, if_false, e1, printintLoop_spec 10 (by decide) _ hx2,
      List.nil_append]
    by_cases h0 : xx.natAbs = 0
    · simp only [h0, if_true]
      decide
    · simp only [h0, if_false, map_digit_dec, List.map_reverse, List.length_map, true_and]
      omega

theorem printintBuf_hex (xx : Int) :
    (printintBuf xx 16 0).reverse = hexRepr (xx % 4294967296).toNat ∧
      (printintBuf xx 16 0).length ≤ 8 := by
  have hx2 : (xx % 4294967296).toNat < 4294967296 := by omega
  have hl := digits_length_hex _ hx2
  unfold printintBuf hexRepr
  simp only [ne_eq, not_true_eq_false, decide_False, Bool.false_and, Bool.false_eq_true,
    if_false, UINT, Nat.cast_ofNat, printintLoop_spec 16 (by decide) _ hx2]
  by_cases h0 : (xx % 4294967296).toNat = 0
  · simp only [h0, if_true]
    decide
  · simp only [h0, if_false, map_digit_hex, List.map_reverse, List.length_map, true_and]
    omega

/-- C16: for every 32-bit signed `xx`, `printint(xx, 10, 1)` emits through
`consputc` the decimal representation of `xx` (a `'-'` first iff `xx < 0`,
then the digits of `|xx|`, most significant first, no leading zero), and
`printint(xx, 16, 0)` emits the lowercase hexadecimal representation of `xx`
read as unsigned; the local buffer holds at most 11 resp. 8 cells, so its
index stays below 16. The calls complete whenever the display is not halted. -/
theorem printint_correct (s : State) (xx : Int)
    (hx : -2147483648 ≤ xx ∧ xx < 2147483648) :
    (∀ s1, printint s xx 10 1 = some s1 →
      s1.emitted = s.emitted ++ ((if xx < 0 then [45] else []) ++ decimalRepr xx.natAbs)) ∧
    (∀ s1, printint s xx 16 0 = some s1 →
      s1.emitted = s.emitted ++ hexRepr (xx % 4294967296).toNat) ∧
    (DisplayOK s → (∃ s1, printint s xx 10 1 = some s1) ∧ (∃ s1, printint s xx 16 0 = some s1)) ∧
    (printintBuf xx 10 1).length ≤ 16 ∧ (printintBuf xx 16 0).length ≤ 16 := by
  obtain ⟨d1, d2⟩ := printintBuf_dec xx hx
  obtain ⟨x1, x2⟩ := printintBuf_hex xx
  refine ⟨?_, ?_, ?_, by omega, by omega⟩
  · intro s1 h
    unfold printint at h
    rw [consputs_emitted _ s s1 h, d1]
  · intro s1 h
    unfold printint at h
    rw [consputs_emitted _ s s1 h, x1]
  · intro hok
    unfold printint
    obtain ⟨s1, h1, _⟩ := consputs_ok (printintBuf xx 10 1).reverse s hok
    obtain ⟨s2, h2, _⟩ := consputs_ok (printintBuf xx 16 0).reverse s hok
    exact ⟨⟨s1, h1⟩, ⟨s2, h2⟩⟩

theorem printint_correct_witness :
    ∃ s1, printint (State.init (fun _ => 0) 0) (-2147483648) 10 1 = some s1 ∧
      s1.emitted = (State.init (fun _ => 0) 0).emitted
        ++ ((if (-2147483648 : Int) < 0 then [45] else [])
          ++ decimalRepr (-2147483648 : Int).natAbs) := by
  have h := printint_correct (State.init (fun _ => 0) 0) (-2147483648) (by decide)
  obtain ⟨s1, h1⟩ := (h.2.2.1 ⟨rfl, by decide⟩).1
  exact ⟨s1, h1, h.1 s1 h1⟩

/-! ## The input ring: arithmetic of the cursors -/

theorem usub_self (a : Nat) : usub a a = 0 := by
  unfold usub UINT at *
  omega

theorem usub_eq_zero (a b : Nat) (ha : a < UINT) (hb : b < UINT) : usub a b = 0 ↔ a = b := by
  unfold usub UINT at *
  omega

theorem usub_lt (a b : Nat) : usub a b < UINT := by
  unfold usub UINT
  omega

theorem plain_iff_ring (i : Input) (h : i.WF) : i.PlainInv ↔ (i.RingInv ∧ i.r ≤ i.e) := by
  obtain ⟨h1, h2, h3⟩ := h
  unfold Input.PlainInv Input.RingInv usub UINT INPUT_BUF at *
  omega

theorem killInput_spec (n : Nat) (i : Input) (hwf : i.WF) (hn : n ≤ usub i.e i.w) :
    (killInput n i).buf = i.buf ∧ (killInput n i).r = i.r ∧ (killInput n i).w = i.w ∧
      (killInput n i).e < UINT ∧ usub (killInput n i).e i.w ≤ usub i.e i.w ∧
      usub i.e (killInput n i).e ≤ n ∧
      usub i.e (killInput n i).e + usub (killInput n i).e i.w = usub i.e i.w := by
  induction n generalizing i with
  | zero =>
    obtain ⟨_, _, he⟩ := hwf
    refine ⟨rfl, rfl, rfl, he, le_refl _, ?_, ?_⟩
    · show usub i.e i.e ≤ 0
      rw [usub_self _]
    · show usub i.e i.e + usub i.e i.w = usub i.e i.w
      rw [usub_self _]
      omega
  | succ n ih =>
    obtain ⟨hr, hw, he⟩ := hwf
    rw [killInput]
    by_cases hc : i.e ≠ i.w ∧ i.buf (usub i.e 1 % INPUT_BUF) ≠ 10
    · rw [if_pos hc]
      have hwf2 : ({ i with e := usub i.e 1 } : Input).WF := ⟨hr, hw, usub_lt _ _⟩
      have hne := hc.1
      have hn2 : n ≤ usub (usub i.e 1) i.w := by
        unfold usub UINT at *
        omega
      obtain ⟨a1, a2, a3, a4, a5, a6, a7⟩ := ih { i with e := usub i.e 1 } hwf2
        (by dsimp only; exact hn2)
      generalize killInput n { i with e := usub i.e 1 } = j at a1 a2 a3 a4 a5 a6 a7
      dsimp only at a1 a2 a3 a4 a5 a6 a7
      refine ⟨a1, a2, a3, a4, ?_, ?_, ?_⟩
      · unfold usub UINT at *
        omega
      · unfold usub UINT at *
        omega
      · unfold usub UINT at *
        omega
    · rw [if_neg hc]
      refine ⟨rfl, rfl, rfl, he, le_refl _, ?_, ?_⟩
      · rw [usub_self _]
        omega
      · rw [usub_self _]
        omega

/-- Any byte keeps the cursors in the type `uint` and the ring invariant; it
never moves the read cursor, and it keeps `r ≤ e` on the cursor values as
long as the edit cursor does not wrap. -/
theorem stepInput_inv (ta : Int) (i : Input) (c : Nat) (hwf : i.WF) (hinv : i.RingInv) :
    (stepInput ta i c).WF ∧ (stepInput ta i c).RingInv ∧ (stepInput ta i c).r = i.r ∧
      (i.w ≤ i.e → i.r ≤ i.w → i.e + 1 < UINT → (stepInput ta i c).r ≤ (stepInput ta i c).e) := by
  unfold stepInput
  generalize (if c = 13 then 10 else c) = c1
  split_ifs with h1 h2 h3 h4 h5 h6 h7
  · exact ⟨hwf, hinv, rfl, fun _ _ _ => by omega⟩
  · have hd : usub i.e i.w ≤ usub i.e i.w := le_refl _
    obtain ⟨a1, a2, a3, a4, a5, a6, a7⟩ := killInput_spec _ i hwf hd
    generalize killInput (usub i.e i.w) i = j at a1 a2 a3 a4 a5 a6 a7
    unfold Input.WF Input.RingInv at *
    rw [a2, a3]
    refine ⟨⟨hwf.1, hwf.2.1, a4⟩, ?_, rfl, ?_⟩
    · unfold usub UINT INPUT_BUF at *
      omega
    · unfold usub UINT INPUT_BUF at *
      omega
  · unfold Input.WF Input.RingInv at *
    dsimp only
    refine ⟨⟨hwf.1, hwf.2.1, usub_lt _ _⟩, ?_, rfl, ?_⟩
    · unfold usub UINT INPUT_BUF at *
      omega
    · unfold usub UINT INPUT_BUF at *
      omega
  · exact ⟨hwf, hinv, rfl, fun _ _ _ => by omega⟩
  · exact ⟨hwf, hinv, rfl, fun _ _ _ => by omega⟩
  · unfold Input.WF Input.RingInv at *
    dsimp only
    have h51 := h6.2.1
    unfold usub UINT INPUT_BUF at *
    omega
  · unfold Input.WF Input.RingInv at *
    dsimp only
    have h51 := h6.2.1
    unfold usub UINT INPUT_BUF at *
    omega
  · exact ⟨hwf, hinv, rfl, fun _ _ _ => by omega⟩

/-! ## The reader -/

theorem consoleintr_inv (P : State → Prop)
    (hstep : ∀ s c s1, P s → consoleintrStep s c = some s1 → P s1)
    (cs : List Nat) (s s1 : State) (hs : P s) (h : consoleintr s cs = some s1) : P s1 := by
  induction cs generalizing s with
  | nil =>
    simp only [consoleintr, Option.some.injEq] at h
    subst h
    exact hs
  | cons c cs ih =>
    rw [consoleintr] at h
    cases h2 : consoleintrStep s c with
    | none => rw [h2] at h; exact absurd h (by simp)
    | some s2 =>
      rw [h2] at h
      simp only [Option.some_bind] at h
      exact ih s2 (hstep s c s2 hs h2) h

theorem waitInput_ready (s : State) (env : List Wakeup) (h : s.input.r ≠ s.input.w) :
    waitInput s env = .ready s env := by
  cases env with
  | nil => rw [waitInput, if_pos h]
  | cons ev rest => rw [waitInput, if_pos h]

/-- What the wait loop hands back satisfies any property the interrupt
handler keeps, and when it reports data the buffer is not empty. -/
theorem waitInput_inv (P : State → Prop)
    (hkeys : ∀ s cs s1, P s → consoleintr s cs = some s1 → P s1)
    (env : List Wakeup) (s : State) (hs : P s) :
    (∀ s1 env1, waitInput s env = .ready s1 env1 → P s1 ∧ s1.input.r ≠ s1.input.w) ∧
    (∀ s1, waitInput s env = .killed s1 → P s1 ∧ s1.input.r = s1.input.w) := by
  induction env generalizing s with
  | nil =>
    rw [waitInput]
    by_cases h : s.input.r ≠ s.input.w
    · rw [if_pos h]
      refine ⟨fun s1 env1 h1 => ?_, fun s1 h1 => (by cases h1)⟩
      injection h1 with h1 _
      subst h1
      exact ⟨hs, h⟩
    · rw [if_neg h]
      exact ⟨fun s1 env1 h1 => (by cases h1), fun s1 h1 => (by cases h1)⟩
  | cons ev rest ih =>
    rw [waitInput]
    by_cases h : s.input.r ≠ s.input.w
    · rw [if_pos h]
      refine ⟨fun s1 env1 h1 => ?_, fun s1 h1 => (by cases h1)⟩
      injection h1 with h1 _
      subst h1
      exact ⟨hs, h⟩
    · rw [if_neg h]
      by_cases hk : ev.killed = true
      · rw [if_pos hk]
        refine ⟨fun s1 env1 h1 => (by cases h1), fun s1 h1 => ?_⟩
        injection h1 with h1
        subst h1
        exact ⟨hs, by simpa using h⟩
      · rw [if_neg hk]
        cases h2 : consoleintr s ev.keys with
        | none => exact ⟨fun s1 env1 h1 => (by cases h1), fun s1 h1 => (by cases h1)⟩
        | some s2 => exact ih s2 (hkeys s ev.keys s2 hs h2)

/-- A completed read leaves a state satisfying any property that the
interrupt handler keeps, that advancing the read cursor over a buffered byte
keeps, and that survives taking that advance back. -/
theorem consolereadLoop_inv (P : State → Prop)
    (hkeys : ∀ s cs s1, P s → consoleintr s cs = some s1 → P s1)
    (hadv : ∀ s, P s → s.input.r ≠ s.input.w → P (setR s ((s.input.r + 1) % UINT)))
    (target n : Nat) (s : State) (dst : List Nat) (env : List Wakeup)
    (s1 : State) (dst1 : List Nat) (ret : Int) (hs : P s)
    (h : consolereadLoop target n s dst env = .returned s1 dst1 ret) :
    P s1 ∨ ∃ s0, P s0 ∧ s0.input.r ≠ s0.input.w ∧
      s1 = setR (setR s0 ((s0.input.r + 1) % UINT)) (usub ((s0.input.r + 1) % UINT) 1) := by
  induction n generalizing s dst env with
  | zero =>
    rw [consolereadLoop] at h
    injection h with h1 _ _
    subst h1
    exact Or.inl hs
  | succ n ih =>
    rw [consolereadLoop] at h
    obtain ⟨w1, w2⟩ := waitInput_inv P hkeys env s hs
    cases hw : waitInput s env with
    | killed s2 =>
      rw [hw] at h
      injection h with h1 _ _
      subst h1
      exact Or.inl (w2 _ hw).1
    | asleep s2 =>
      rw [hw] at h
      cases h
    | halted =>
      rw [hw] at h
      cases h
    | ready s2 env2 =>
      rw [hw] at h
      obtain ⟨p2, ne2⟩ := w1 s2 env2 hw
      dsimp only at h
      by_cases hc : s2.input.buf (s2.input.r % INPUT_BUF) = 4
      · rw [if_pos hc] at h
        by_cases hn : n + 1 < target
        · rw [if_pos hn] at h
          injection h with h1 _ _
          exact Or.inr ⟨s2, p2, ne2, h1.symm⟩
        · rw [if_neg hn] at h
          injection h with h1 _ _
          subst h1
          exact Or.inl (hadv s2 p2 ne2)
      · rw [if_neg hc] at h
        by_cases hc2 : s2.input.buf (s2.input.r % INPUT_BUF) = 10
        · rw [if_pos hc2] at h
          injection h with h1 _ _
          subst h1
          exact Or.inl (hadv s2 p2 ne2)
        · rw [if_neg hc2] at h
          exact ih _ _ _ (hadv s2 p2 ne2) h

/-! ## The ring invariant -/

theorem displayOK_of_fields {s t : State} (hp : t.panicked = s.panicked)
    (hc : t.cursor = s.cursor) (h : DisplayOK s) : DisplayOK t := by
  unfold DisplayOK at *
  rw [hp, hc]
  exact h

theorem killLine_ok (n : Nat) (s : State) (h : DisplayOK s) :
    ∃ s1, killLine n s = some s1 ∧ DisplayOK s1 := by
  induction n generalizing s with
  | zero => exact ⟨s, rfl, h⟩
  | succ n ih =>
    rw [killLine]
    by_cases hc : s.input.e ≠ s.input.w ∧ s.input.buf (usub s.input.e 1 % INPUT_BUF) ≠ 10
    · rw [if_pos hc]
      obtain ⟨s2, h2, h3⟩ := consputc_ok { s with input := { s.input with e := usub s.input.e 1 } }
        BACKSPACE (by unfold DisplayOK at h ⊢; dsimp only; exact h)
      obtain ⟨s3, h4, h5⟩ := ih s2 h3
      exact ⟨s3, by rw [h2]; exact h4, h5⟩
    · rw [if_neg hc]
      exact ⟨s, rfl, h⟩

/-- With the display not halted and the cursor at most `24*80`, one byte
through `consoleintr` completes and leaves the display so. -/
theorem consoleintrStep_ok (s : State) (c : Nat) (h : DisplayOK s) :
    ∃ s1, consoleintrStep s c = some s1 ∧ DisplayOK s1 := by
  obtain ⟨g1, _, g3, _, _, _⟩ := afterMenu_fields s c
  have h0 : DisplayOK (if s.tableActive ≠ 0 then menuKey s c else s) :=
    displayOK_of_fields g1 g3 h
  unfold consoleintrStep
  generalize (if s.tableActive ≠ 0 then menuKey s c else s) = s0 at h0 ⊢
  clear g1 g3
  dsimp only
  by_cases h1 : c = 16
  · rw [if_pos h1]
    exact ⟨s0, rfl, h0⟩
  rw [if_neg h1]
  by_cases h2 : c = 21
  · rw [if_pos h2]
    exact killLine_ok _ s0 h0
  rw [if_neg h2]
  by_cases h3 : c = 8 ∨ c = 127
  · rw [if_pos h3]
    by_cases h5 : s0.input.e ≠ s0.input.w
    · rw [if_pos h5]
      exact consputc_ok _ BACKSPACE (by unfold DisplayOK at h0 ⊢; dsimp only; exact h0)
    · rw [if_neg h5]
      exact ⟨s0, rfl, h0⟩
  rw [if_neg h3]
  by_cases h4 : c = 2
  · rw [if_pos h4]
    refine ⟨_, rfl, ?_⟩
    obtain ⟨a1, _, _, _, a5⟩ := copyShowingArray_fields s0
    obtain ⟨b1, _, _, _, b5⟩ := copyShowingArray_fields (copyShowingArray s0)
    obtain ⟨d1, _, _, _, d5, _⟩ := drawTable_fields (copyShowingArray s0)
    unfold DisplayOK at h0 ⊢
    dsimp only
    split_ifs
    · rw [b1.1, a1.1, b5, a5]
      exact h0
    · rw [d1.1, a1.1, d5, a5]
      exact h0
  rw [if_neg h4]
  by_cases h5 : c ≠ 0 ∧ usub s0.input.e s0.input.r < INPUT_BUF ∧ lnot s0.tableActive ≠ 0
  · rw [if_pos h5]
    generalize (if c = 13 then 10 else c) = c1
    obtain ⟨s2, h6, h7⟩ := consputc_ok { s0 with input := { s0.input with
        buf := store s0.input.buf (s0.input.e % INPUT_BUF) (c1 % 256),
        e := (s0.input.e + 1) % UINT } } c1
      (by unfold DisplayOK at h0 ⊢; dsimp only; exact h0)
    rw [h6]
    simp only [Option.some_bind]
    split_ifs
    · exact ⟨_, rfl, by unfold DisplayOK at h7 ⊢; dsimp only; exact h7⟩
    · exact ⟨_, rfl, h7⟩
  · rw [if_neg h5]
    exact ⟨s0, rfl, h0⟩

theorem ringInv_step (s s1 : State) (c : Nat) (h : s.input.WF ∧ s.input.RingInv)
    (hstep : consoleintrStep s c = some s1) : s1.input.WF ∧ s1.input.RingInv := by
  rw [(consoleintrStep_fields s s1 c hstep).2.1]
  obtain ⟨a1, a2, _, _⟩ := stepInput_inv s.tableActive s.input c h.1 h.2
  exact ⟨a1, a2⟩

theorem ringInv_adv (s : State) (h : s.input.WF ∧ s.input.RingInv)
    (hne : s.input.r ≠ s.input.w) :
    (setR s ((s.input.r + 1) % UINT)).input.WF ∧
      (setR s ((s.input.r + 1) % UINT)).input.RingInv := by
  obtain ⟨⟨h1, h2, h3⟩, h4, h5⟩ := h
  unfold setR Input.WF Input.RingInv
  dsimp only
  unfold usub UINT INPUT_BUF at *
  omega

theorem setR_back (s0 : State) (h : s0.input.r < UINT) :
    setR (setR s0 ((s0.input.r + 1) % UINT)) (usub ((s0.input.r + 1) % UINT) 1)
      = setR s0 s0.input.r := by
  have e : usub ((s0.input.r + 1) % UINT) 1 = s0.input.r := by
    unfold usub UINT at *
    omega
  rw [e]
  rfl

/-- A completed `consoleread` keeps the cursors in the type `uint` and the
ring invariant. -/
theorem ringInv_read (s s1 : State) (n : Int) (env : List Wakeup) (dst : List Nat) (ret : Int)
    (h : s.input.WF ∧ s.input.RingInv) (hread : consoleread s n env = .returned s1 dst ret) :
    s1.input.WF ∧ s1.input.RingInv := by
  unfold consoleread at hread
  rcases consolereadLoop_inv (fun t => t.input.WF ∧ t.input.RingInv)
    (fun t cs t1 ht hk => consoleintr_inv (fun u => u.input.WF ∧ u.input.RingInv)
      (fun a c b ha hb => ringInv_step a b c ha hb) cs t t1 ht hk)
    ringInv_adv _ _ s [] env s1 dst ret h hread with h1 | ⟨s0, h1, _, h3⟩
  · exact h1
  · rw [h3, setR_back s0 h1.1.1]
    exact h1

/-! ## Full buffer and active overlay -/

/-- C7: with `e - r = 128` (in the type `uint`) and the overlay inactive, a
byte of the default branch leaves the whole state as it is: `buf`, `r`, `w`,
`e` unchanged, nothing emitted through `consputc`, no `panic`; and whenever a
byte is appended and `e - r` becomes 128, the write cursor is set to the edit
cursor in the same step. -/
theorem full_buffer_drops (s : State) (c : Nat) (hta : s.tableActive = 0)
    (hc : c ≠ 16 ∧ c ≠ 21 ∧ c ≠ 8 ∧ c ≠ 127 ∧ c ≠ 2) :
    (usub s.input.e s.input.r = INPUT_BUF → consoleintrStep s c = some s) ∧
    (∀ s1, c ≠ 0 → usub s.input.e s.input.r < INPUT_BUF → consoleintrStep s c = some s1 →
      s1.input.e = (s.input.e + 1) % UINT ∧ s1.input.r = s.input.r ∧
      s1.emitted = s.emitted ++ [if c = 13 then 10 else c] ∧
      (usub s1.input.e s1.input.r = INPUT_BUF → s1.input.w = s1.input.e)) := by
  have hna : ¬ s.tableActive ≠ 0 := by simp [hta]
  constructor
  · intro hfull
    unfold consoleintrStep
    have hcond : ¬ (c ≠ 0 ∧ usub s.input.e s.input.r < INPUT_BUF ∧ lnot s.tableActive ≠ 0) := by
      rw [hfull]
      simp
    simp only [if_neg hna, hc.1, hc.2.1, hc.2.2.1, hc.2.2.2.1, hc.2.2.2.2, or_self, if_false,
      hcond]
  · intro s1 hc0 hlt hstep
    obtain ⟨_, a2, _⟩ := consoleintrStep_fields s s1 c hstep
    have hl : lnot s.tableActive ≠ 0 := by
      rw [hta]
      decide
    have hcond : c ≠ 0 ∧ usub s.input.e s.input.r < INPUT_BUF ∧ lnot s.tableActive ≠ 0 :=
      ⟨hc0, hlt, hl⟩
    have hem : s1.emitted = s.emitted ++ [if c = 13 then 10 else c] := by
      unfold consoleintrStep at hstep
      simp only [if_neg hna, hc.1, hc.2.1, hc.2.2.1, hc.2.2.2.1, hc.2.2.2.2, or_self, if_false,
        if_pos hcond] at hstep
      generalize (if c = 13 then 10 else c) = c1 at hstep ⊢
      cases h6 : consputc { s with input := { s.input with
          buf := store s.input.buf (s.input.e % INPUT_BUF) (c1 % 256),
          e := (s.input.e + 1) % UINT } } c1 with
      | none => rw [h6] at hstep; exact absurd hstep (by simp)
      | some s2 =>
        rw [h6] at hstep
        simp only [Option.some_bind] at hstep
        have b6 := (consputc_fields _ _ _ h6).2.2.2.2.2
        dsimp only at b6
        split_ifs at hstep <;> injection hstep with hstep <;> subst hstep <;> exact b6
    rw [a2]
    unfold stepInput
    simp only [hc.1, hc.2.1, hc.2.2.1, hc.2.2.2.1, hc.2.2.2.2, or_self, if_false, if_pos hcond]
    generalize (if c = 13 then 10 else c) = c1 at hem ⊢
    split_ifs with h7
    · dsimp only
      exact ⟨rfl, rfl, hem, fun _ => rfl⟩
    · dsimp only
      refine ⟨rfl, rfl, hem, fun h8 => ?_⟩
      exfalso
      apply h7
      right
      right
      unfold usub UINT INPUT_BUF at *
      omega

theorem full_buffer_drops_witness :
    consoleintrStep { (State.init (fun _ => 0) 0) with
        input := { buf := fun _ => 97, r := 0, w := 128, e := 128 } } 98
      = some { (State.init (fun _ => 0) 0) with
        input := { buf := fun _ => 97, r := 0, w := 128, e := 128 } } :=
  (full_buffer_drops { (State.init (fun _ => 0) 0) with
    input := { buf := fun _ => 97, r := 0, w := 128, e := 128 } } 98 rfl (by decide)).1
    (by decide)

/-- C17, as stated, fails: with the overlay active, `r = w = 2^32 - 1` and
`e = 0` (one byte buffered across the wrap of the `uint` cursors), backspace
decrements the edit cursor from 0 to `2^32 - 1`, a larger value. -/
theorem overlay_keys_counterexample :
    ({ buf := fun _ => 97, r := 4294967295, w := 4294967295, e := 0 } : Input).WF ∧
    ({ buf := fun _ => 97, r := 4294967295, w := 4294967295, e := 0 } : Input).RingInv ∧
      (consoleintrStep { (State.init (fun _ => 0) 0) with
          tableActive := 1,
          input := { buf := fun _ => 97, r := 4294967295, w := 4294967295, e := 0 } }
        8).map (fun s1 => (s1.input.r, s1.input.w, s1.input.e))
        = some (4294967295, 4294967295, 4294967295) ∧
      (0 : Nat) < 4294967295 := by
  refine ⟨?_, ?_, by decide, by decide⟩
  · unfold Input.WF UINT
    decide
  · unfold Input.RingInv usub UINT INPUT_BUF
    decide

/-- C17, amended: while the overlay is active no byte changes the buffer
contents, the read cursor or the write cursor, and none moves the edit cursor
forward: the buffered count `e - w` (in the type `uint`) does not grow, and
the value of `e` does not grow as long as `w ≤ e` holds on the values; for the
six menu keys the whole `input` structure is unchanged, nothing is emitted
through `consputc`, and the step completes. -/
theorem overlay_keys_frame (s : State) (c : Nat) (ha : s.tableActive ≠ 0)
    (hwf : s.input.WF) :
    (∀ s1, consoleintrStep s c = some s1 →
      s1.input.buf = s.input.buf ∧ s1.input.r = s.input.r ∧ s1.input.w = s.input.w ∧
      usub s1.input.e s.input.w ≤ usub s.input.e s.input.w ∧
      (s.input.w ≤ s.input.e → s1.input.e ≤ s.input.e)) ∧
    (c = 119 ∨ c = 115 ∨ c = 97 ∨ c = 100 ∨ c = 101 ∨ c = 114 →
      ∃ s1, consoleintrStep s c = some s1 ∧ s1.input = s.input ∧ s1.emitted = s.emitted) := by
  constructor
  · intro s1 hstep
    rw [(consoleintrStep_fields s s1 c hstep).2.1]
    have hl : ¬ lnot s.tableActive ≠ 0 := by
      unfold lnot
      rw [if_neg ha]
      simp
    unfold stepInput
    generalize (if c = 13 then 10 else c) = c1
    have hcond : ¬ (c ≠ 0 ∧ usub s.input.e s.input.r < INPUT_BUF ∧ lnot s.tableActive ≠ 0) :=
      fun h => hl h.2.2
    rw [if_neg hcond]
    obtain ⟨h1, h2, h3⟩ := hwf
    split_ifs with g1 g2 g3 g4 g5
    · exact ⟨rfl, rfl, rfl, le_refl _, fun _ => le_refl _⟩
    · obtain ⟨a1, a2, a3, a4, a5, a6, a7⟩ :=
        killInput_spec (usub s.input.e s.input.w) s.input ⟨h1, h2, h3⟩ (le_refl _)
      generalize killInput (usub s.input.e s.input.w) s.input = j at a1 a2 a3 a4 a5 a6 a7
      refine ⟨a1, a2, a3, a5, fun hle => ?_⟩
      unfold usub UINT at *
      omega
    · dsimp only
      refine ⟨rfl, rfl, rfl, ?_, fun hle => ?_⟩
      · unfold usub UINT at *
        omega
      · unfold usub UINT at *
        omega
    · exact ⟨rfl, rfl, rfl, le_refl _, fun _ => le_refl _⟩
    · exact ⟨rfl, rfl, rfl, le_refl _, fun _ => le_refl _⟩
    · exact ⟨rfl, rfl, rfl, le_refl _, fun _ => le_refl _⟩
  · intro hc
    obtain ⟨_, _, _, _, m5, m6⟩ := menuKey_fields s c
    exact ⟨_, consoleintrStep_active s c ha (by omega), m5, m6⟩

theorem overlay_keys_frame_witness :
    ∃ s1, consoleintrStep { (State.init (fun _ => 0) 0) with tableActive := 1 } 119 = some s1 ∧
      s1.input = ({ (State.init (fun _ => 0) 0) with tableActive := 1 } : State).input ∧
      s1.emitted = ({ (State.init (fun _ => 0) 0) with tableActive := 1 } : State).emitted :=
  (overlay_keys_frame { (State.init (fun _ => 0) 0) with tableActive := 1 } 119 (by decide)
    (by unfold Input.WF UINT; decide)).2 (Or.inl rfl)

/-! ## Cancelled reads and end of file -/

theorem killInput_r (n : Nat) (i : Input) : (killInput n i).r = i.r := by
  induction n generalizing i with
  | zero => rfl
  | succ n ih =>
    rw [killInput]
    split_ifs
    · rw [ih]
    · rfl

theorem stepInput_r (ta : Int) (i : Input) (c : Nat) : (stepInput ta i c).r = i.r := by
  unfold stepInput
  split_ifs <;> first | rfl | exact killInput_r _ _

theorem consoleintr_r (cs : List Nat) (s s1 : State) (h : consoleintr s cs = some s1) :
    s1.input.r = s.input.r :=
  consoleintr_inv (fun t => t.input.r = s.input.r)
    (fun a c b ha hb => by
      show b.input.r = s.input.r
      rw [(consoleintrStep_fields a b c hb).2.1, stepInput_r]
      exact ha) cs s s1 rfl h

/-- Whatever a read that returns the failure value has written to `dst`, it
has consumed: the read cursor advanced by the number of bytes delivered. -/
theorem consolereadLoop_killed (target n : Nat) (s : State) (dst : List Nat)
    (env : List Wakeup) (s1 : State) (dst1 : List Nat) (hr0 : s.input.r < UINT)
    (h : consolereadLoop target n s dst env = .returned s1 dst1 (-1)) :
    ∃ k, dst1.length = dst.length + k ∧ s1.input.r = (s.input.r + k) % UINT := by
  induction n generalizing s dst env with
  | zero =>
    rw [consolereadLoop] at h
    injection h with _ _ h3
    exact absurd h3 (by simp)
  | succ n ih =>
    rw [consolereadLoop] at h
    obtain ⟨w1, w2⟩ := waitInput_inv (fun t => t.input.r = s.input.r)
      (fun a cs b ha hb => (consoleintr_r cs a b hb).trans ha) env s rfl
    cases hw : waitInput s env with
    | killed s2 =>
      rw [hw] at h
      injection h with h1 h2 _
      subst h1
      subst h2
      have hr : s2.input.r = s.input.r := (w2 _ hw).1
      refine ⟨0, rfl, ?_⟩
      rw [hr]
      unfold UINT at *
      omega
    | asleep s2 =>
      rw [hw] at h
      cases h
    | halted =>
      rw [hw] at h
      cases h
    | ready s2 env2 =>
      rw [hw] at h
      have hr : s2.input.r = s.input.r := (w1 s2 env2 hw).1
      dsimp only at h
      by_cases hc : s2.input.buf (s2.input.r % INPUT_BUF) = 4
      · rw [if_pos hc] at h
        split_ifs at h <;> injection h with _ _ h3 <;> exact absurd h3 (by simp)
      · rw [if_neg hc] at h
        by_cases hc2 : s2.input.buf (s2.input.r % INPUT_BUF) = 10
        · rw [if_pos hc2] at h
          injection h with _ _ h3
          exact absurd h3 (by simp)
        · rw [if_neg hc2] at h
          obtain ⟨k, k1, k2⟩ := ih _ _ _ (Nat.mod_lt _ (by decide)) h
          refine ⟨k + 1, ?_, ?_⟩
          · rw [k1, List.length_append, List.length_singleton]
            omega
          · rw [k2]
            dsimp only
            rw [hr]
            unfold UINT
            omega

/-- A reader that finds the buffer empty and is killed at that wait returns
the failure value at once. -/
theorem consoleread_killed_empty (s : State) (n : Int) (keys : List Nat) (rest : List Wakeup)
    (hn : 0 < n) (hrw : s.input.r = s.input.w) :
    consoleread s n (⟨true, keys⟩ :: rest) = .returned s [] (-1) := by
  unfold consoleread
  obtain ⟨m, hm⟩ : ∃ m, n.toNat = m + 1 := ⟨n.toNat - 1, by omega⟩
  rw [hm, consolereadLoop, waitInput]
  have h1 : ¬ s.input.r ≠ s.input.w := by simp [hrw]
  rw [if_neg h1, if_pos rfl]

/-- A reader that finds the buffer empty and is never woken stays asleep. -/
theorem consoleread_asleep_empty (s : State) (n : Int) (hn : 0 < n)
    (hrw : s.input.r = s.input.w) : consoleread s n [] = .asleep s [] := by
  unfold consoleread
  obtain ⟨m, hm⟩ : ∃ m, n.toNat = m + 1 := ⟨n.toNat - 1, by omega⟩
  rw [hm, consolereadLoop, waitInput]
  have h1 : ¬ s.input.r ≠ s.input.w := by simp [hrw]
  rw [if_neg h1]

set_option maxRecDepth 1000000 in
/-- C6, as stated, fails: after 128 bytes `'a'` (the buffer is full, so they
are published without a newline) a `consoleread` with `n = 129` whose caller
is killed while it waits for the 129th byte returns -1 after writing 128
bytes to `dst` and moving the read cursor from 0 to 128. -/
theorem cancelled_read_counterexample :
    (consoleintr (State.init (fun _ => 0) 0) (List.replicate 128 97)).map
        (fun s => (s.input.r, s.input.w, s.input.e)) = some (0, 128, 128) ∧
    (consoleintr (State.init (fun _ => 0) 0) (List.replicate 128 97)).map
        (fun s => ((consoleread s 129 [⟨true, []⟩]).ret?,
          ((consoleread s 129 [⟨true, []⟩]).dst?).map List.length,
          ((consoleread s 129 [⟨true, []⟩]).state?).map (fun s1 => s1.input.r)))
      = some (some (-1), some 128, some 128) := by
  decide

/-- C6, amended: a reader that finds no published data when it is called and
is killed at that wait returns the failure value with the whole state
unchanged and nothing written to `dst`; in general a read that returns the
failure value has consumed exactly the bytes it delivered: the read cursor
has advanced (in the type `uint`) by the number of bytes written to `dst`. -/
theorem cancelled_read (s : State) (n : Int) :
    (∀ keys rest, 0 < n → s.input.r = s.input.w →
      consoleread s n (⟨true, keys⟩ :: rest) = .returned s [] (-1)) ∧
    (∀ env s1 dst, s.input.r < UINT → consoleread s n env = .returned s1 dst (-1) →
      s1.input.r = (s.input.r + dst.length) % UINT) := by
  constructor
  · intro keys rest hn hrw
    exact consoleread_killed_empty s n keys rest hn hrw
  · intro env s1 dst hr h
    unfold consoleread at h
    obtain ⟨k, k1, k2⟩ := consolereadLoop_killed _ _ s [] env s1 dst hr h
    rw [k2, k1]
    simp only [List.length_nil, Nat.zero_add]

theorem cancelled_read_witness :
    consoleread (State.init (fun _ => 0) 0) 5 (⟨true, []⟩ :: [])
      = .returned (State.init (fun _ => 0) 0) [] (-1) :=
  (cancelled_read (State.init (fun _ => 0) 0) 5).1 [] [] (by decide) rfl

set_option maxRecDepth 100000 in
/-- C3, as stated, fails: after the single byte `^D` the first read with
`n = 5` returns 0 with nothing delivered, but it has consumed the `^D`, so a
second read made right after finds the buffer empty: with no further input it
stays asleep, if its caller is killed it returns -1, and once `"x\n"` arrives
it returns 2; it does not return 0. -/
theorem eof_framing_counterexample :
    (consoleintr (State.init (fun _ => 0) 0) [4]).map
        (fun s1 => ((consoleread s1 5 []).ret?, (consoleread s1 5 []).dst?))
      = some (some 0, some []) ∧
    (consoleintr (State.init (fun _ => 0) 0) [4]).map
        (fun s1 => ((consoleread s1 5 []).state?).map
          (fun s2 => ((consoleread s2 5 []).ret?, (consoleread s2 5 [⟨true, []⟩]).ret?,
            (consoleread s2 5 [⟨false, [120, 10]⟩]).ret?)))
      = some (some (none, some (-1), some 2)) := by
  decide

/-- The `input` structure after the byte `^D` on an empty buffer with the
overlay inactive: stored and published at once. -/
theorem stepInput_eot (i : Input) (_hwf : i.WF) (he : i.r = i.e) :
    stepInput 0 i 4 = { i with buf := store i.buf (i.e % INPUT_BUF) 4,
                               e := (i.e + 1) % UINT, w := (i.e + 1) % UINT } := by
  unfold stepInput
  have hcond : (4 : Nat) ≠ 0 ∧ usub i.e i.r < INPUT_BUF ∧ lnot 0 ≠ 0 := by
    rw [he, usub_self]
    decide
  simp only [show ¬ (4 : Nat) = 16 by decide, show ¬ (4 : Nat) = 21 by decide,
    show ¬ ((4 : Nat) = 8 ∨ (4 : Nat) = 127) by decide, show ¬ (4 : Nat) = 2 by decide,
    show ¬ (4 : Nat) = 13 by decide, if_false, if_pos hcond, true_or, or_true, if_true]

/-- C3, amended: on an empty buffer with the overlay inactive, after the
single byte `^D` a `consoleread` with `n = 5` returns 0 and delivers nothing,
and it consumes the `^D` (afterwards `r = w = e`); a second read made right
after therefore does not return 0 by itself: with no further input it stays
asleep, and if its caller is killed it returns -1; in neither call is the
`^D` delivered as data. -/
theorem eof_framing (s : State) (hwf : s.input.WF)
    (hempty : s.input.r = s.input.w ∧ s.input.w = s.input.e) (hta : s.tableActive = 0) :
    (DisplayOK s → ∃ s1, consoleintrStep s 4 = some s1) ∧
    (∀ s1, consoleintrStep s 4 = some s1 → ∀ env,
      consoleread s1 5 env = .returned (advR s1 1) [] 0 ∧
      (advR s1 1).input.r = (advR s1 1).input.w ∧
      (advR s1 1).input.w = (advR s1 1).input.e ∧
      consoleread (advR s1 1) 5 [] = .asleep (advR s1 1) [] ∧
      ∀ keys rest, consoleread (advR s1 1) 5 (⟨true, keys⟩ :: rest)
        = .returned (advR s1 1) [] (-1)) := by
  constructor
  · intro hok
    obtain ⟨s1, h1, _⟩ := consoleintrStep_ok s 4 hok
    exact ⟨s1, h1⟩
  · intro s1 hstep env
    have hI := (consoleintrStep_fields s s1 4 hstep).2.1
    rw [hta, stepInput_eot s.input hwf (hempty.1.trans hempty.2)] at hI
    have hr : s1.input.r = s.input.r := by rw [hI]
    have hw : s1.input.w = (s.input.e + 1) % UINT := by rw [hI]
    have he : s1.input.e = (s.input.e + 1) % UINT := by rw [hI]
    have hb : s1.input.buf (s.input.e % INPUT_BUF) = 4 := by
      rw [hI]
      exact store_same _ _ _
    obtain ⟨g1, g2, g3⟩ := hwf
    have hre : s.input.r = s.input.e := hempty.1.trans hempty.2
    have hne : s1.input.r ≠ s1.input.w := by
      rw [hr, hw, hre]
      unfold UINT at *
      omega
    have h2r : (advR s1 1).input.r = (s.input.e + 1) % UINT := by
      unfold advR setR
      dsimp only
      rw [hr, hre]
    have h2w : (advR s1 1).input.w = (s.input.e + 1) % UINT := by
      unfold advR setR
      dsimp only
      exact hw
    have h2e : (advR s1 1).input.e = (s.input.e + 1) % UINT := by
      unfold advR setR
      dsimp only
      exact he
    refine ⟨?_, h2r.trans h2w.symm, h2w.trans h2e.symm, ?_, ?_⟩
    · unfold consoleread
      have h5 : (5 : Int).toNat = 4 + 1 := rfl
      rw [h5, consolereadLoop, waitInput_ready s1 env hne]
      dsimp only
      have hc : s1.input.buf (s1.input.r % INPUT_BUF) = 4 := by
        rw [hr, hre]
        exact hb
      rw [if_pos hc, if_neg (by omega)]
      rfl
    · exact consoleread_asleep_empty _ 5 (by decide) (h2r.trans h2w.symm)
    · intro keys rest
      exact consoleread_killed_empty _ 5 keys rest (by decide) (h2r.trans h2w.symm)

theorem eof_framing_witness :
    ∃ s1, consoleintrStep (State.init (fun _ => 0) 0) 4 = some s1 ∧
      consoleread s1 5 [] = .returned (advR s1 1) [] 0 ∧
      consoleread (advR s1 1) 5 [] = .asleep (advR s1 1) [] := by
  have h := eof_framing (State.init (fun _ => 0) 0) (by unfold Input.WF UINT; decide)
    ⟨rfl, rfl⟩ rfl
  obtain ⟨s1, h1⟩ := h.1 ⟨rfl, by decide⟩
  obtain ⟨a1, _, _, a4, _⟩ := h.2 s1 h1 []
  exact ⟨s1, h1, a1, a4⟩

/-! ## Reading published bytes -/

theorem setR_setR (s : State) (a b : Nat) : setR (setR s a) b = setR s b := rfl

theorem setR_self (s : State) : setR s s.input.r = s := rfl

theorem setR_input (s : State) (a : Nat) :
    (setR s a).input.r = a ∧ (setR s a).input.w = s.input.w ∧
      (setR s a).input.e = s.input.e ∧ (setR s a).input.buf = s.input.buf :=
  ⟨rfl, rfl, rfl, rfl⟩

theorem advR_advR (s : State) (a b : Nat) : advR (advR s a) b = advR s (a + b) := by
  unfold advR
  rw [setR_setR, (setR_input s _).1]
  congr 1
  unfold UINT
  omega

theorem advR_zero (s : State) (h : s.input.r < UINT) : advR s 0 = s := by
  unfold advR
  have e : (s.input.r + 0) % UINT = s.input.r := by
    unfold UINT at *
    omega
  rw [e, setR_self]

/-- One pass of the loop of `consoleread` when published data is there. -/
theorem consolereadLoop_step (target n : Nat) (s : State) (dst : List Nat) (env : List Wakeup)
    (hne : s.input.r ≠ s.input.w) :
    consolereadLoop target (n + 1) s dst env =
      if s.input.buf (s.input.r % INPUT_BUF) = 4 then
        if n + 1 < target then
          .returned (setR (setR s ((s.input.r + 1) % UINT)) (usub ((s.input.r + 1) % UINT) 1))
            dst (Int.ofNat (target - (n + 1)))
        else .returned (setR s ((s.input.r + 1) % UINT)) dst (Int.ofNat (target - (n + 1)))
      else if s.input.buf (s.input.r % INPUT_BUF) = 10 then
        .returned (setR s ((s.input.r + 1) % UINT))
          (dst ++ [s.input.buf (s.input.r % INPUT_BUF)]) (Int.ofNat (target - n))
      else consolereadLoop target n (setR s ((s.input.r + 1) % UINT))
          (dst ++ [s.input.buf (s.input.r % INPUT_BUF)]) env := by
  rw [consolereadLoop, waitInput_ready s env hne]
  rfl

/-- Reading a run of published bytes that are neither `'\n'` nor `^D`: the
loop delivers them all and goes on behind them. -/
theorem consolereadLoop_plain (target : Nat) (l : List Nat) (n : Nat) (s : State)
    (dst : List Nat) (env : List Wakeup) (hr : s.input.r < UINT)
    (hl : ∀ c ∈ l, c ≠ 10 ∧ c ≠ 4) (hn : l.length ≤ n)
    (hpub : ∀ j, j < l.length → (s.input.r + j) % UINT ≠ s.input.w)
    (hbuf : ∀ j, j < l.length → s.input.buf ((s.input.r + j) % INPUT_BUF) = l.getD j 0) :
    consolereadLoop target n s dst env
      = consolereadLoop target (n - l.length) (advR s l.length) (dst ++ l) env := by
  induction l generalizing n s dst with
  | nil =>
    simp only [List.length_nil, Nat.sub_zero, List.append_nil]
    rw [advR_zero s hr]
  | cons c l ih =>
    obtain ⟨m, rfl⟩ : ∃ m, n = m + 1 := ⟨n - 1, by simp only [List.length_cons] at hn; omega⟩
    have hne : s.input.r ≠ s.input.w := by
      have := hpub 0 (by simp)
      unfold UINT at *
      omega
    have hc : s.input.buf (s.input.r % INPUT_BUF) = c := by
      have := hbuf 0 (by simp)
      simpa using this
    obtain ⟨c10, c4⟩ := hl c (List.mem_cons_self _ _)
    rw [consolereadLoop_step target m s dst env hne, hc, if_neg c4, if_neg c10]
    have hs : setR s ((s.input.r + 1) % UINT) = advR s 1 := rfl
    rw [hs]
    have hr1 : (advR s 1).input.r = (s.input.r + 1) % UINT := rfl
    have hw1 : (advR s 1).input.w = s.input.w := rfl
    have hb1 : (advR s 1).input.buf = s.input.buf := rfl
    rw [ih m (advR s 1) (dst ++ [c]) (by rw [hr1]; exact Nat.mod_lt _ (by decide))
      (fun x hx => hl x (List.mem_cons_of_mem _ hx))
      (by simp only [List.length_cons] at hn; omega)
      (by
        intro j hj
        have := hpub (j + 1) (by simp only [List.length_cons]; omega)
        rw [hr1, hw1]
        unfold UINT at *
        omega)
      (by
        intro j hj
        have := hbuf (j + 1) (by simp only [List.length_cons]; omega)
        rw [hr1, hb1]
        simp only [List.getD_cons_succ] at this
        rw [← this]
        congr 1
        unfold UINT INPUT_BUF at *
        omega)]
    rw [advR_advR]
    have e1 : m + 1 - (c :: l).length = m - l.length := by
      simp only [List.length_cons]
      omega
    have e2 : (c :: l).length = 1 + l.length := by
      simp only [List.length_cons]
      omega
    have e3 : dst ++ [c] ++ l = dst ++ c :: l := by simp
    rw [e1, e2, e3]

/-- C4: for a non-empty run `l` of at most 127 bytes without newline or `^D`
that is published together with a trailing `^D`, and `n ≥ len l`, the first
`consoleread` returns `len l` and delivers exactly `l`, leaving the `^D`
unread; the next call (any `n ≥ 1`) returns 0 and delivers nothing, and after
it the `^D` is consumed and the buffer is empty (`r = w`). -/
theorem eot_after_data (s : State) (l : List Nat) (n n2 : Int) (env env2 : List Wakeup)
    (hr : s.input.r < UINT) (hl0 : l ≠ []) (hlen : l.length ≤ 127)
    (hl : ∀ c ∈ l, c ≠ 10 ∧ c ≠ 4)
    (hbuf : ∀ j, j < l.length → s.input.buf ((s.input.r + j) % INPUT_BUF) = l.getD j 0)
    (heot : s.input.buf ((s.input.r + l.length) % INPUT_BUF) = 4)
    (hw : s.input.w = (s.input.r + l.length + 1) % UINT)
    (hn : (l.length : Int) ≤ n) (hn2 : 1 ≤ n2) :
    consoleread s n env = .returned (advR s l.length) l l.length ∧
      (advR s l.length).input.r ≠ (advR s l.length).input.w ∧
      consoleread (advR s l.length) n2 env2 = .returned (advR s (l.length + 1)) [] 0 ∧
      (advR s (l.length + 1)).input.r = (advR s (l.length + 1)).input.w := by
  have hpos : 0 < l.length := List.length_pos.mpr hl0
  have hpub : ∀ j, j < l.length → (s.input.r + j) % UINT ≠ s.input.w := by
    intro j hj
    rw [hw]
    unfold UINT at *
    omega
  have hra : (advR s l.length).input.r = (s.input.r + l.length) % UINT := rfl
  have hwa : (advR s l.length).input.w = s.input.w := rfl
  have hba : (advR s l.length).input.buf = s.input.buf := rfl
  have hne : (advR s l.length).input.r ≠ (advR s l.length).input.w := by
    rw [hra, hwa, hw]
    unfold UINT at *
    omega
  have hc : (advR s l.length).input.buf ((advR s l.length).input.r % INPUT_BUF) = 4 := by
    rw [hra, hba, ← heot]
    congr 1
    unfold UINT INPUT_BUF at *
    omega
  have hback : setR (setR (advR s l.length) (((advR s l.length).input.r + 1) % UINT))
      (usub (((advR s l.length).input.r + 1) % UINT) 1) = advR s l.length := by
    rw [setR_setR]
    have e : usub (((advR s l.length).input.r + 1) % UINT) 1 = (advR s l.length).input.r := by
      rw [hra]
      unfold usub UINT at *
      omega
    rw [e, setR_self]
  have hfwd : setR (advR s l.length) (((advR s l.length).input.r + 1) % UINT)
      = advR s (l.length + 1) := by
    have : setR (advR s l.length) (((advR s l.length).input.r + 1) % UINT)
        = advR (advR s l.length) 1 := rfl
    rw [this, advR_advR]
  refine ⟨?_, hne, ?_, ?_⟩
  · unfold consoleread
    obtain ⟨N, hN⟩ : ∃ N, n.toNat = N := ⟨_, rfl⟩
    have hNl : l.length ≤ N := by omega
    rw [hN, consolereadLoop_plain N l N s [] env hr hl hNl hpub hbuf, List.nil_append]
    by_cases h0 : N - l.length = 0
    · rw [h0, consolereadLoop]
      have : N - 0 = l.length := by omega
      rw [this]
      rfl
    · obtain ⟨m, hm⟩ : ∃ m, N - l.length = m + 1 := ⟨N - l.length - 1, by omega⟩
      rw [hm, consolereadLoop_step N m _ l env hne, if_pos hc, if_pos (by omega), hback]
      have : N - (m + 1) = l.length := by omega
      rw [this]
      rfl
  · unfold consoleread
    obtain ⟨m, hm⟩ : ∃ m, n2.toNat = m + 1 := ⟨n2.toNat - 1, by omega⟩
    rw [hm, consolereadLoop_step (m + 1) m _ [] env2 hne, if_pos hc, if_neg (by omega), hfwd]
    have : m + 1 - (m + 1) = 0 := by omega
    rw [this]
    rfl
  · have h1 : (advR s (l.length + 1)).input.r = (s.input.r + (l.length + 1)) % UINT := rfl
    have h2 : (advR s (l.length + 1)).input.w = s.input.w := rfl
    rw [h1, h2, hw]
    congr 1

theorem eot_after_data_witness :
    consoleread { (State.init (fun _ => 0) 0) with
        input := { buf := fun k => if k = 0 then 97 else if k = 1 then 98 else 4,
                   r := 0, w := 3, e := 3 } } 5 []
      = .returned (advR { (State.init (fun _ => 0) 0) with
        input := { buf := fun k => if k = 0 then 97 else if k = 1 then 98 else 4,
                   r := 0, w := 3, e := 3 } } [97, 98].length) [97, 98] [97, 98].length :=
  (eot_after_data { (State.init (fun _ => 0) 0) with
      input := { buf := fun k => if k = 0 then 97 else if k = 1 then 98 else 4,
                 r := 0, w := 3, e := 3 } } [97, 98] 5 5 [] []
    (by decide) (by decide) (by decide) (by decide) (by decide) (by decide) (by decide)
    (by decide) (by decide)).1

/-! ## Feeding and reading a line -/

/-- A byte without special treatment, on a buffer with room for more than one
byte, is stored and not published. -/
theorem stepInput_plain (i : Input) (c : Nat) (hc : plainByte c) (hwf : i.WF)
    (h : usub i.e i.r < 127) : stepInput 0 i c = plainStep i c := by
  obtain ⟨c256, c0, c10, c13, c4, c16, c21, c8, c127, c2⟩ := hc
  obtain ⟨hr, hw, he⟩ := hwf
  have h1 : usub i.e i.r < INPUT_BUF := by
    unfold INPUT_BUF
    omega
  have h2 : lnot (0 : Int) ≠ 0 := by decide
  have h3 : ¬ ((i.e + 1) % UINT = (i.r + INPUT_BUF) % UINT) := by
    unfold usub UINT INPUT_BUF at *
    omega
  have h4 : c % 256 = c := Nat.mod_eq_of_lt c256
  unfold stepInput plainStep
  rw [if_neg c16, if_neg c21, if_neg (by omega), if_neg c2, if_pos ⟨c0, h1, h2⟩]
  simp only [if_neg c13]
  rw [if_neg (by
    intro hh
    rcases hh with hh | hh | hh
    · exact c10 hh
    · exact c4 hh
    · exact h3 hh), h4]

/-- A newline on a buffer that is not full is stored and published. -/
theorem stepInput_newline (i : Input) (h : usub i.e i.r < INPUT_BUF) :
    stepInput 0 i 10 = { i with buf := store i.buf (i.e % INPUT_BUF) 10,
                                e := (i.e + 1) % UINT, w := (i.e + 1) % UINT } := by
  have h2 : lnot (0 : Int) ≠ 0 := by decide
  unfold stepInput
  rw [if_neg (by decide), if_neg (by decide), if_neg (by decide), if_neg (by decide),
    if_pos ⟨by decide, h, h2⟩]
  simp

/-- The `input` structure after `consoleintr` processed bytes none of which
is the overlay toggle. -/
theorem consoleintr_input (cs : List Nat) : ∀ (s s1 : State), (∀ c ∈ cs, c ≠ 2) →
    consoleintr s cs = some s1 →
    s1.input = cs.foldl (stepInput s.tableActive) s.input ∧ s1.tableActive = s.tableActive := by
  induction cs with
  | nil =>
    intro s s1 _ h
    rw [consoleintr] at h
    cases h
    exact ⟨rfl, rfl⟩
  | cons c cs ih =>
    intro s s1 hc h
    rw [consoleintr] at h
    cases hst : consoleintrStep s c with
    | none =>
      rw [hst] at h
      cases h
    | some t =>
      rw [hst, Option.some_bind] at h
      obtain ⟨_, hi, hta⟩ := consoleintrStep_fields s t c hst
      rw [if_neg (hc c (List.mem_cons_self _ _))] at hta
      obtain ⟨h1, h2⟩ := ih t s1 (fun x hx => hc x (List.mem_cons_of_mem _ hx)) h
      rw [hta, hi] at h1
      exact ⟨by rw [List.foldl_cons]; exact h1, h2.trans hta⟩

/-- With a display that can take output `consoleintr` completes. -/
theorem consoleintr_ok (cs : List Nat) : ∀ (s : State), DisplayOK s →
    ∃ s1, consoleintr s cs = some s1 ∧ DisplayOK s1 := by
  induction cs with
  | nil =>
    intro s h
    exact ⟨s, by rw [consoleintr], h⟩
  | cons c cs ih =>
    intro s h
    obtain ⟨t, ht, hd⟩ := consoleintrStep_ok s c h
    obtain ⟨s1, hs1, hd1⟩ := ih t hd
    exact ⟨s1, by rw [consoleintr, ht, Option.some_bind]; exact hs1, hd1⟩

/-- The `input` structure after up to 127 bytes without special treatment were
fed to an empty buffer: they sit behind the read cursor, unpublished. -/
theorem foldl_plain (l : List Nat) (i : Input) (hwf : i.WF) (he : i.e = i.r)
    (hl : ∀ c ∈ l, plainByte c) (hlen : l.length ≤ 127) :
    (l.foldl (stepInput 0) i).r = i.r ∧ (l.foldl (stepInput 0) i).w = i.w ∧
      (l.foldl (stepInput 0) i).e = (i.r + l.length) % UINT ∧
      ∀ j, j < l.length → (l.foldl (stepInput 0) i).buf ((i.r + j) % INPUT_BUF) = l.getD j 0 := by
  induction l using List.reverseRecOn with
  | nil =>
    obtain ⟨hr, _, _⟩ := hwf
    refine ⟨rfl, rfl, ?_, ?_⟩
    · simp only [List.foldl_nil, List.length_nil, Nat.add_zero]
      rw [he, Nat.mod_eq_of_lt hr]
    · intro j hj
      simp at hj
  | append_singleton l c ih =>
    rw [List.length_append, List.length_singleton] at hlen
    obtain ⟨i1, i2, i3, i4⟩ := ih (fun x hx => hl x (List.mem_append_left _ hx)) (by omega)
    obtain ⟨hr, hw, _⟩ := hwf
    have hwf1 : (l.foldl (stepInput 0) i).WF :=
      ⟨by rw [i1]; exact hr, by rw [i2]; exact hw, by rw [i3]; exact Nat.mod_lt _ (by decide)⟩
    have hu : usub (l.foldl (stepInput 0) i).e (l.foldl (stepInput 0) i).r < 127 := by
      rw [i1, i3]
      unfold usub UINT at *
      omega
    rw [List.foldl_append, List.foldl_cons, List.foldl_nil,
      stepInput_plain _ c (hl c (by simp)) hwf1 hu]
    refine ⟨i1, i2, ?_, ?_⟩
    · show ((l.foldl (stepInput 0) i).e + 1) % UINT = _
      rw [i3, List.length_append, List.length_singleton]
      unfold UINT at *
      omega
    · intro j hj
      rw [List.length_append, List.length_singleton] at hj
      show store (l.foldl (stepInput 0) i).buf ((l.foldl (stepInput 0) i).e % INPUT_BUF) c
        ((i.r + j) % INPUT_BUF) = _
      by_cases hjl : j < l.length
      · rw [store_other, i4 j hjl, List.getD_append _ _ _ _ hjl]
        rw [i3]
        unfold UINT INPUT_BUF at *
        omega
      · have hj2 : j = l.length := by omega
        subst hj2
        have e1 : (l.foldl (stepInput 0) i).e % INPUT_BUF = (i.r + l.length) % INPUT_BUF := by
          rw [i3]
          unfold UINT INPUT_BUF at *
          omega
        rw [e1, store_same]
        simp

/-- Reading a published line: a run of bytes that are neither `'\n'` nor `^D`
followed by `'\n'` is delivered whole when `n` is large enough. -/
theorem consoleread_line (s : State) (l : List Nat) (n : Int) (env : List Wakeup)
    (hr : s.input.r < UINT) (hlen : l.length ≤ 127) (hl : ∀ c ∈ l, c ≠ 10 ∧ c ≠ 4)
    (hbuf : ∀ j, j < l.length → s.input.buf ((s.input.r + j) % INPUT_BUF) = l.getD j 0)
    (hnl : s.input.buf ((s.input.r + l.length) % INPUT_BUF) = 10)
    (hw : s.input.w = (s.input.r + l.length + 1) % UINT)
    (hn : (l.length : Int) + 1 ≤ n) :
    consoleread s n env = .returned (advR s (l.length + 1)) (l ++ [10]) (l.length + 1) := by
  have hpub : ∀ j, j < l.length → (s.input.r + j) % UINT ≠ s.input.w := by
    intro j hj
    rw [hw]
    unfold UINT at *
    omega
  have hra : (advR s l.length).input.r = (s.input.r + l.length) % UINT := rfl
  have hwa : (advR s l.length).input.w = s.input.w := rfl
  have hba : (advR s l.length).input.buf = s.input.buf := rfl
  have hne : (advR s l.length).input.r ≠ (advR s l.length).input.w := by
    rw [hra, hwa, hw]
    unfold UINT at *
    omega
  have hc : (advR s l.length).input.buf ((advR s l.length).input.r % INPUT_BUF) = 10 := by
    rw [hra, hba, ← hnl]
    congr 1
    unfold UINT INPUT_BUF at *
    omega
  have hfwd : setR (advR s l.length) (((advR s l.length).input.r + 1) % UINT)
      = advR s (l.length + 1) := by
    have : setR (advR s l.length) (((advR s l.length).input.r + 1) % UINT)
        = advR (advR s l.length) 1 := rfl
    rw [this, advR_advR]
  unfold consoleread
  obtain ⟨N, hN⟩ : ∃ N, n.toNat = N := ⟨_, rfl⟩
  have hNl : l.length + 1 ≤ N := by omega
  rw [hN, consolereadLoop_plain N l N s [] env hr hl (by omega) hpub hbuf, List.nil_append]
  obtain ⟨m, hm⟩ : ∃ m, N - l.length = m + 1 := ⟨N - l.length - 1, by omega⟩
  rw [hm, consolereadLoop_step N m _ l env hne, hc, if_neg (by decide), if_pos rfl, hfwd]
  have : N - m = l.length + 1 := by omega
  rw [this]
  rfl

/-- C2: from an empty buffer (`r = w = e`) with the overlay inactive, for a
sequence `l` of at most 127 bytes without special treatment and `n ≥ len l + 1`:
after `l` is fed to `consoleintr` nothing is available to the reader (`r = w`);
after `l` and then `'\n'` are fed, `consoleread` returns `len l + 1`, has
written exactly `l` followed by `'\n'`, and leaves the buffer empty
(`r = w = e`); and with a display that can take output the feeding completes. -/
theorem line_round_trip (s : State) (l : List Nat) (n : Int) (env : List Wakeup)
    (hwf : s.input.WF) (hempty : s.input.r = s.input.w ∧ s.input.w = s.input.e)
    (hta : s.tableActive = 0) (hl : ∀ c ∈ l, plainByte c) (hlen : l.length ≤ 127)
    (hn : (l.length : Int) + 1 ≤ n) :
    (∀ s1, consoleintr s l = some s1 → s1.input.r = s1.input.w) ∧
      (∀ s2, consoleintr s (l ++ [10]) = some s2 →
        ∃ s3, consoleread s2 n env = .returned s3 (l ++ [10]) (l.length + 1) ∧
          s3.input.r = s3.input.w ∧ s3.input.w = s3.input.e) ∧
      (DisplayOK s → ∃ s2, consoleintr s (l ++ [10]) = some s2) := by
  obtain ⟨hrw, hwe⟩ := hempty
  have he : s.input.e = s.input.r := by rw [hrw, hwe]
  have hno2 : ∀ c ∈ l, c ≠ 2 := fun c hc => (hl c hc).2.2.2.2.2.2.2.2.2
  obtain ⟨f1, f2, f3, f4⟩ := foldl_plain l s.input hwf he hl hlen
  obtain ⟨hr, hw, _⟩ := hwf
  refine ⟨?_, ?_, ?_⟩
  · intro s1 h1
    obtain ⟨hi, _⟩ := consoleintr_input l s s1 hno2 h1
    rw [hta] at hi
    rw [hi, f1, f2]
    exact hrw
  · intro s2 h2
    have hno2b : ∀ c ∈ l ++ [10], c ≠ 2 := by
      intro c hc
      rcases List.mem_append.mp hc with hc | hc
      · exact hno2 c hc
      · simp only [List.mem_singleton] at hc
        omega
    obtain ⟨hi, _⟩ := consoleintr_input (l ++ [10]) s s2 hno2b h2
    have hu : usub (l.foldl (stepInput 0) s.input).e (l.foldl (stepInput 0) s.input).r
        < INPUT_BUF := by
      rw [f1, f3]
      unfold usub UINT INPUT_BUF at *
      omega
    rw [hta, List.foldl_append, List.foldl_cons, List.foldl_nil, stepInput_newline _ hu] at hi
    have hr2 : s2.input.r = s.input.r := by rw [hi]; exact f1
    have hw2 : s2.input.w = (s.input.r + l.length + 1) % UINT := by
      rw [hi]
      show ((l.foldl (stepInput 0) s.input).e + 1) % UINT = _
      rw [f3]
      unfold UINT at *
      omega
    have he2 : s2.input.e = s2.input.w := by rw [hi]
    have hb2 : s2.input.buf = store (l.foldl (stepInput 0) s.input).buf
        ((l.foldl (stepInput 0) s.input).e % INPUT_BUF) 10 := by rw [hi]
    have hpos : (l.foldl (stepInput 0) s.input).e % INPUT_BUF
        = (s.input.r + l.length) % INPUT_BUF := by
      rw [f3]
      unfold UINT INPUT_BUF at *
      omega
    refine ⟨advR s2 (l.length + 1), ?_, ?_, ?_⟩
    · refine consoleread_line s2 l n env (by rw [hr2]; exact hr) hlen
        (fun c hc => ⟨(hl c hc).2.2.1, (hl c hc).2.2.2.2.1⟩) ?_ ?_ (by rw [hw2, hr2]) hn
      · intro j hj
        rw [hb2, hr2, hpos, store_other, f4 j hj]
        unfold INPUT_BUF
        omega
      · rw [hb2, hr2, hpos, store_same]
    · show (s2.input.r + (l.length + 1)) % UINT = s2.input.w
      rw [hw2, hr2]
      congr 1
    · show s2.input.w = s2.input.e
      exact he2.symm
  · intro hd
    obtain ⟨s2, h2, _⟩ := consoleintr_ok (l ++ [10]) s hd
    exact ⟨s2, h2⟩

theorem line_round_trip_witness :
    ∃ s2 s3, consoleintr (State.init (fun _ => 0) 0) ([104, 105] ++ [10]) = some s2 ∧
      consoleread s2 3 [] = .returned s3 ([104, 105] ++ [10]) ([104, 105].length + 1) ∧
      s3.input.r = s3.input.w ∧ s3.input.w = s3.input.e := by
  have h := line_round_trip (State.init (fun _ => 0) 0) [104, 105] 3 []
    ⟨by decide, by decide, by decide⟩ (by decide) (by decide) (by decide) (by decide)
    (by decide)
  obtain ⟨s2, h2⟩ := h.2.2 ⟨by decide, by decide⟩
  obtain ⟨s3, h3⟩ := h.2.1 s2 h2
  exact ⟨s2, s3, h2, h3⟩

/-! ## Kill-line -/

/-- After a completed `consputc` the cursor is at most `24*80`. -/
theorem consputc_cursor (s s1 : State) (c : Nat) (h : consputc s c = some s1) :
    s1.cursor ≤ 1920 := by
  unfold consputc at h
  by_cases hp : s.panicked ≠ 0
  · rw [if_pos hp] at h
    cases h
  · rw [if_neg hp] at h
    by_cases hm : cgaMove { s with emitted := s.emitted ++ [c] } c ≤ 2000
    · rw [cgaputc_eq _ c hm] at h
      injection h with h
      subst h
      dsimp only
      split_ifs <;> omega
    · rw [cgaputc_none _ c hm] at h
      cases h

/-- The kill-line loop either changes nothing or leaves the cursor at most `24*80`. -/
theorem killLine_cursor (n : Nat) (s s1 : State) (h : killLine n s = some s1) :
    (s1.input = s.input ∧ s1.cursor = s.cursor) ∨ s1.cursor ≤ 1920 := by
  induction n generalizing s with
  | zero =>
    rw [killLine] at h
    injection h with h
    subst h
    exact Or.inl ⟨rfl, rfl⟩
  | succ n ih =>
    rw [killLine] at h
    by_cases hc : s.input.e ≠ s.input.w ∧ s.input.buf (usub s.input.e 1 % INPUT_BUF) ≠ 10
    · rw [if_pos hc] at h
      cases h2 : consputc { s with input := { s.input with e := usub s.input.e 1 } } BACKSPACE with
      | none => rw [h2] at h; cases h
      | some s2 =>
        rw [h2, Option.some_bind] at h
        have hcur := consputc_cursor _ _ _ h2
        rcases ih s2 h with ⟨_, h4⟩ | h4
        · exact Or.inr (by rw [h4]; exact hcur)
        · exact Or.inr h4
    · rw [if_neg hc] at h
      injection h with h
      subst h
      exact Or.inl ⟨rfl, rfl⟩

/-- One byte through `consoleintr` either leaves the `input` structure and
the cursor as they were or leaves the cursor at most `24*80`. -/
theorem consoleintrStep_cursor (s s1 : State) (c : Nat) (h : consoleintrStep s c = some s1) :
    (s1.input = s.input ∧ s1.cursor = s.cursor) ∨ s1.cursor ≤ 1920 := by
  obtain ⟨_, _, g3, _, g5, _⟩ := afterMenu_fields s c
  unfold consoleintrStep at h
  generalize (if s.tableActive ≠ 0 then menuKey s c else s) = s0 at h g3 g5
  rw [← g3, ← g5]
  clear g3 g5
  by_cases h1 : c = 16
  · simp only [h1, if_true] at h
    injection h with h
    subst h
    exact Or.inl ⟨rfl, rfl⟩
  by_cases h2 : c = 21
  · simp only [h1, h2, if_true, if_false] at h
    exact killLine_cursor _ _ _ h
  by_cases h3 : c = 8 ∨ c = 127
  · simp only [h1, h2, h3, if_true, if_false] at h
    by_cases h5 : s0.input.e ≠ s0.input.w
    · rw [if_pos h5] at h
      exact Or.inr (consputc_cursor _ _ _ h)
    · rw [if_neg h5] at h
      injection h with h
      subst h
      exact Or.inl ⟨rfl, rfl⟩
  by_cases h4 : c = 2
  · simp only [h1, h2, h3, h4, if_true, if_false] at h
    injection h with h
    subst h
    obtain ⟨_, _, a3, _, a5⟩ := copyShowingArray_fields s0
    obtain ⟨_, _, b3, _, b5⟩ := copyShowingArray_fields (copyShowingArray s0)
    obtain ⟨_, _, d3, _, d5, _⟩ := drawTable_fields (copyShowingArray s0)
    by_cases h5 : (copyShowingArray s0).tableActive ≠ 0
    · simp only [h5, if_true, ne_eq, not_false_eq_true]
      exact Or.inl ⟨b3.trans a3, b5.trans a5⟩
    · simp only [h5, if_false, ne_eq]
      exact Or.inl ⟨d3.trans a3, d5.trans a5⟩
  simp only [h1, h2, h3, h4, if_false] at h
  by_cases h5 : c ≠ 0 ∧ usub s0.input.e s0.input.r < INPUT_BUF ∧ lnot s0.tableActive ≠ 0
  · rw [if_pos h5] at h
    cases h6 : consputc { s0 with input := { s0.input with
            buf := store s0.input.buf (s0.input.e % INPUT_BUF) ((if c = 13 then 10 else c) % 256),
            e := (s0.input.e + 1) % UINT } } (if c = 13 then 10 else c) with
    | none => rw [h6] at h; cases h
    | some s2 =>
      rw [h6] at h
      simp only [Option.some_bind] at h
      have hcur := consputc_cursor _ _ _ h6
      split_ifs at h <;>
      · injection h with h
        subst h
        exact Or.inr hcur
  · rw [if_neg h5] at h
    injection h with h
    subst h
    exact Or.inl ⟨rfl, rfl⟩

/-- Appending on a buffer that is not full lengthens the unpublished part by one. -/
theorem usub_append (e w r : Nat) (hr : r < UINT) (hw : w < UINT) (he : e < UINT)
    (h1 : usub w r ≤ usub e r) (h2 : usub e r < INPUT_BUF) :
    usub ((e + 1) % UINT) w = usub e w + 1 := by
  unfold usub UINT INPUT_BUF at *
  omega

/-- The slot an append writes is none of the slots of the unpublished part. -/
theorem slot_fresh (e w r j : Nat) (hw : w < UINT) (he : e < UINT)
    (h1 : usub w r ≤ usub e r) (h2 : usub e r < INPUT_BUF) (hj : j < usub e w) :
    ¬ (w + j) % INPUT_BUF = e % INPUT_BUF := by
  unfold usub UINT INPUT_BUF at *
  omega

/-- The slot an append writes is the one behind the unpublished part. -/
theorem slot_last (e w : Nat) (hw : w < UINT) (he : e < UINT) :
    (w + usub e w) % INPUT_BUF = e % INPUT_BUF := by
  unfold usub UINT INPUT_BUF at *
  omega

/-- An erase shortens the unpublished part by one. -/
theorem usub_erase (e w : Nat) (hw : w < UINT) (he : e < UINT) (hne : e ≠ w) :
    usub (usub e 1) w + 1 = usub e w := by
  unfold usub UINT at *
  omega

/-- A byte through the second `switch` keeps the unpublished part of the
buffer free of newlines. -/
theorem stepInput_noNL (ta : Int) (i : Input) (c : Nat) (hwf : i.WF) (hinv : i.RingInv)
    (hnl : i.NoNL) (hc : c < 256) : (stepInput ta i c).NoNL := by
  obtain ⟨hr, hw, he⟩ := hwf
  obtain ⟨hi1, hi2⟩ := hinv
  unfold stepInput
  by_cases h1 : c = 16
  · rw [if_pos h1]
    exact hnl
  rw [if_neg h1]
  by_cases h2 : c = 21
  · rw [if_pos h2]
    obtain ⟨k1, _, k3, _, k5, _, _⟩ := killInput_spec (usub i.e i.w) i ⟨hr, hw, he⟩ (le_refl _)
    intro j hj
    rw [k1, k3]
    rw [k3] at hj
    exact hnl j (by omega)
  rw [if_neg h2]
  by_cases h3 : c = 8 ∨ c = 127
  · rw [if_pos h3]
    by_cases h5 : i.e ≠ i.w
    · rw [if_pos h5]
      intro j hj
      dsimp only at hj ⊢
      have := usub_erase i.e i.w hw he h5
      exact hnl j (by omega)
    · rw [if_neg h5]
      exact hnl
  rw [if_neg h3]
  by_cases h4 : c = 2
  · rw [if_pos h4]
    exact hnl
  rw [if_neg h4]
  by_cases h5 : c ≠ 0 ∧ usub i.e i.r < INPUT_BUF ∧ lnot ta ≠ 0
  · rw [if_pos h5]
    obtain ⟨_, h6, _⟩ := h5
    generalize hc1 : (if c = 13 then 10 else c) = c1
    have hc1lt : c1 < 256 := by
      rw [← hc1]
      split_ifs <;> omega
    by_cases h7 : c1 = 10 ∨ c1 = 4 ∨ (i.e + 1) % UINT = (i.r + INPUT_BUF) % UINT
    · rw [if_pos h7]
      intro j hj
      dsimp only at hj
      rw [usub_self] at hj
      omega
    · rw [if_neg h7]
      intro j hj
      dsimp only at hj ⊢
      rw [usub_append i.e i.w i.r hr hw he hi1 h6] at hj
      rw [store_apply]
      by_cases hj2 : j < usub i.e i.w
      · rw [if_neg (slot_fresh i.e i.w i.r j hw he hi1 h6 hj2)]
        exact hnl j hj2
      · have hj3 : j = usub i.e i.w := by omega
        rw [hj3, if_pos (slot_last i.e i.w hw he), Nat.mod_eq_of_lt hc1lt]
        exact fun hh => h7 (Or.inl hh)
  · rw [if_neg h5]
    exact hnl

/-- A property that every byte of a given kind keeps is kept by `consoleintr`
on bytes of that kind. -/
theorem consoleintr_inv_on (K : Nat → Prop) (P : State → Prop)
    (hstep : ∀ s c s1, K c → P s → consoleintrStep s c = some s1 → P s1)
    (cs : List Nat) (hcs : ∀ c ∈ cs, K c) (s s1 : State) (hs : P s)
    (h : consoleintr s cs = some s1) : P s1 := by
  induction cs generalizing s with
  | nil =>
    rw [consoleintr] at h
    injection h with h
    subst h
    exact hs
  | cons c cs ih =>
    rw [consoleintr] at h
    cases h2 : consoleintrStep s c with
    | none => rw [h2] at h; cases h
    | some s2 =>
      rw [h2, Option.some_bind] at h
      exact ih (fun x hx => hcs x (List.mem_cons_of_mem _ hx)) s2
        (hstep s c s2 (hcs c (List.mem_cons_self _ _)) hs h2) h

/-- The wait loop against a schedule whose keys are all of a given kind. -/
theorem waitInput_inv_on (K : Nat → Prop) (P : State → Prop)
    (hstep : ∀ s c s1, K c → P s → consoleintrStep s c = some s1 → P s1)
    (env : List Wakeup) (henv : ∀ ev ∈ env, ∀ c ∈ ev.keys, K c) (s : State) (hs : P s) :
    (∀ s1 env1, waitInput s env = .ready s1 env1 →
      P s1 ∧ s1.input.r ≠ s1.input.w ∧ ∀ ev ∈ env1, ∀ c ∈ ev.keys, K c) ∧
    (∀ s1, waitInput s env = .killed s1 → P s1) := by
  induction env generalizing s with
  | nil =>
    rw [waitInput]
    by_cases h : s.input.r ≠ s.input.w
    · rw [if_pos h]
      refine ⟨fun s1 env1 h1 => ?_, fun s1 h1 => (by cases h1)⟩
      injection h1 with h1 h2
      subst h1 h2
      exact ⟨hs, h, henv⟩
    · rw [if_neg h]
      exact ⟨fun s1 env1 h1 => (by cases h1), fun s1 h1 => (by cases h1)⟩
  | cons ev rest ih =>
    rw [waitInput]
    by_cases h : s.input.r ≠ s.input.w
    · rw [if_pos h]
      refine ⟨fun s1 env1 h1 => ?_, fun s1 h1 => (by cases h1)⟩
      injection h1 with h1 h2
      subst h1 h2
      exact ⟨hs, h, henv⟩
    · rw [if_neg h]
      by_cases hk : ev.killed = true
      · rw [if_pos hk]
        refine ⟨fun s1 env1 h1 => (by cases h1), fun s1 h1 => ?_⟩
        injection h1 with h1
        subst h1
        exact hs
      · rw [if_neg hk]
        cases h2 : consoleintr s ev.keys with
        | none => exact ⟨fun s1 env1 h1 => (by cases h1), fun s1 h1 => (by cases h1)⟩
        | some s2 =>
          exact ih (fun x hx => henv x (List.mem_cons_of_mem _ hx)) s2
            (consoleintr_inv_on K P hstep ev.keys (henv ev (List.mem_cons_self _ _)) s s2 hs h2)

/-- A completed read against a schedule whose keys are all of a given kind
leaves a state satisfying any property that those keys keep, that advancing
the read cursor over a buffered byte keeps, and that survives taking that
advance back. -/
theorem consolereadLoop_inv_on (K : Nat → Prop) (P : State → Prop)
    (hstep : ∀ s c s1, K c → P s → consoleintrStep s c = some s1 → P s1)
    (hadv : ∀ s, P s → s.input.r ≠ s.input.w → P (setR s ((s.input.r + 1) % UINT)))
    (target n : Nat) (s : State) (dst : List Nat) (env : List Wakeup)
    (henv : ∀ ev ∈ env, ∀ c ∈ ev.keys, K c)
    (s1 : State) (dst1 : List Nat) (ret : Int) (hs : P s)
    (h : consolereadLoop target n s dst env = .returned s1 dst1 ret) :
    P s1 ∨ ∃ s0, P s0 ∧ s0.input.r ≠ s0.input.w ∧
      s1 = setR (setR s0 ((s0.input.r + 1) % UINT)) (usub ((s0.input.r + 1) % UINT) 1) := by
  induction n generalizing s dst env with
  | zero =>
    rw [consolereadLoop] at h
    injection h with h1 _ _
    subst h1
    exact Or.inl hs
  | succ n ih =>
    rw [consolereadLoop] at h
    obtain ⟨w1, w2⟩ := waitInput_inv_on K P hstep env henv s hs
    cases hw : waitInput s env with
    | killed s2 =>
      rw [hw] at h
      injection h with h1 _ _
      subst h1
      exact Or.inl (w2 _ hw)
    | asleep s2 =>
      rw [hw] at h
      cases h
    | halted =>
      rw [hw] at h
      cases h
    | ready s2 env2 =>
      rw [hw] at h
      obtain ⟨p2, ne2, henv2⟩ := w1 s2 env2 hw
      dsimp only at h
      by_cases hc : s2.input.buf (s2.input.r % INPUT_BUF) = 4
      · rw [if_pos hc] at h
        by_cases hn : n + 1 < target
        · rw [if_pos hn] at h
          injection h with h1 _ _
          exact Or.inr ⟨s2, p2, ne2, h1.symm⟩
        · rw [if_neg hn] at h
          injection h with h1 _ _
          subst h1
          exact Or.inl (hadv s2 p2 ne2)
      · rw [if_neg hc] at h
        by_cases hc2 : s2.input.buf (s2.input.r % INPUT_BUF) = 10
        · rw [if_pos hc2] at h
          injection h with h1 _ _
          subst h1
          exact Or.inl (hadv s2 p2 ne2)
        · rw [if_neg hc2] at h
          exact ih _ _ _ henv2 (hadv s2 p2 ne2) h

theorem lineInv_init (crt0 : Nat → Nat) (cursor0 : Nat) : LineInv (State.init crt0 cursor0) := by
  have h0 : usub 0 0 = 0 := by decide
  refine ⟨rfl, ⟨?_, ?_, ?_⟩, ⟨?_, ?_⟩, ?_, Or.inl rfl⟩
  · show 0 < UINT
    decide
  · show 0 < UINT
    decide
  · show 0 < UINT
    decide
  · show usub 0 0 ≤ usub 0 0
    exact le_refl _
  · show usub 0 0 ≤ INPUT_BUF
    decide
  · intro j hj
    change j < usub 0 0 at hj
    omega

/-- One byte keeps `LineInv`. -/
theorem lineInv_step (s : State) (c : Nat) (s1 : State) (hc : c < 256) (hs : LineInv s)
    (h : consoleintrStep s c = some s1) : LineInv s1 := by
  obtain ⟨hp, hwf, hri, hnl, hcur⟩ := hs
  obtain ⟨f1, f2, _⟩ := consoleintrStep_fields s s1 c h
  obtain ⟨g1, _, _, _, _, _⟩ := afterMenu_fields s c
  obtain ⟨w1, w2⟩ := ringInv_step s s1 c ⟨hwf, hri⟩ h
  refine ⟨?_, w1, w2, ?_, ?_⟩
  · rw [f1.1, g1]
    exact hp
  · rw [f2]
    exact stepInput_noNL _ _ _ hwf hri hnl hc
  · rcases consoleintrStep_cursor s s1 c h with ⟨h1, h2⟩ | h1
    · rw [h1, h2]
      exact hcur
    · exact Or.inr h1

/-- Advancing the read cursor over a published byte keeps `LineInv`. -/
theorem lineInv_adv (s : State) (hs : LineInv s) (hne : s.input.r ≠ s.input.w) :
    LineInv (setR s ((s.input.r + 1) % UINT)) := by
  obtain ⟨hp, hwf, hri, hnl, hcur⟩ := hs
  obtain ⟨w1, w2⟩ := ringInv_adv s ⟨hwf, hri⟩ hne
  exact ⟨hp, w1, w2, hnl, hcur⟩

/-- A completed `consoleread` whose sleeps saw bytes only keeps `LineInv`. -/
theorem lineInv_read (s s1 : State) (n : Int) (env : List Wakeup) (dst : List Nat) (ret : Int)
    (henv : bytesOnly env) (hs : LineInv s)
    (h : consoleread s n env = .returned s1 dst ret) : LineInv s1 := by
  unfold consoleread at h
  rcases consolereadLoop_inv_on (fun c => c < 256) LineInv
    (fun s c s1 hc hs h => lineInv_step s c s1 hc hs h) lineInv_adv
    n.toNat n.toNat s [] env henv s1 dst ret hs h with h1 | ⟨s0, p0, _, h1⟩
  · exact h1
  · rw [h1, setR_back s0 p0.2.1.1, setR_self]
    exact p0

/-- Every reachable state satisfies `LineInv`. -/
theorem lineInv_reachable (s : State) (h : Reachable s) : LineInv s := by
  induction h with
  | init crt0 cursor0 => exact lineInv_init crt0 cursor0
  | key s s1 c _ hc hstep ih => exact lineInv_step s c s1 hc ih hstep
  | read s s1 n env dst ret _ henv hread ih => exact lineInv_read s s1 n env dst ret henv ih hread

theorem usub_zero_right (e : Nat) (he : e < UINT) : usub e 0 = e := by
  unfold usub UINT at *
  omega

theorem usub_usub_one (e n : Nat) (he : e < UINT) (hn : n + 1 < UINT) :
    usub (usub e 1) n = usub e (n + 1) := by
  unfold usub UINT at *
  omega

/-- The kill-line loop run for `n` rounds over an unpublished part of at
least `n` bytes without a newline: it completes, takes the edit cursor back
by `n`, emits `n` erase codes and touches nothing else of `input`. -/
theorem killLine_run (n : Nat) : ∀ (s : State), s.panicked = 0 → s.input.WF →
    n ≤ usub s.input.e s.input.w → s.input.NoNL → (n = 0 ∨ s.cursor ≤ 1920) →
    ∃ s1, killLine n s = some s1 ∧ s1.input.buf = s.input.buf ∧ s1.input.r = s.input.r ∧
      s1.input.w = s.input.w ∧ s1.input.e = usub s.input.e n ∧
      s1.emitted = s.emitted ++ List.replicate n BACKSPACE := by
  induction n with
  | zero =>
    intro s _ hwf _ _ _
    refine ⟨s, rfl, rfl, rfl, rfl, ?_, by simp⟩
    rw [usub_zero_right _ hwf.2.2]
  | succ n ih =>
    intro s hp hwf hn hnl hcur
    obtain ⟨hr, hw, he⟩ := hwf
    have hne : s.input.e ≠ s.input.w := by
      intro hh
      rw [hh, usub_self] at hn
      omega
    have hera := usub_erase s.input.e s.input.w hw he hne
    have hbyte : s.input.buf (usub s.input.e 1 % INPUT_BUF) ≠ 10 := by
      have h1 := hnl (usub (usub s.input.e 1) s.input.w) (by omega)
      rw [slot_last (usub s.input.e 1) s.input.w hw (usub_lt _ _)] at h1
      exact h1
    have hcur2 : s.cursor ≤ 1920 := by omega
    have hd : DisplayOK { s with input := { s.input with e := usub s.input.e 1 } } := by
      unfold DisplayOK
      dsimp only
      exact ⟨hp, hcur2⟩
    obtain ⟨s2, h2, hd2⟩ := consputc_ok _ BACKSPACE hd
    obtain ⟨_, _, _, _, b4, b5⟩ := consputc_fields _ _ _ h2
    have b4i : s2.input = { s.input with e := usub s.input.e 1 } := b4
    have e2 : s2.input.e = usub s.input.e 1 := by rw [b4i]
    have r2 : s2.input.r = s.input.r := by rw [b4i]
    have w2 : s2.input.w = s.input.w := by rw [b4i]
    have bf2 : s2.input.buf = s.input.buf := by rw [b4i]
    have em2 : s2.emitted = s.emitted ++ [BACKSPACE] := b5
    clear b4 b4i b5
    have hnl2 : s2.input.NoNL := by
      intro j hj
      rw [bf2, w2]
      rw [e2, w2] at hj
      exact hnl j (by omega)
    obtain ⟨s1, k1, k2, k3, k4, k5, k6⟩ := ih s2 hd2.1
      ⟨by rw [r2]; exact hr, by rw [w2]; exact hw, by rw [e2]; exact usub_lt _ _⟩
      (by rw [e2, w2]; omega) hnl2 (Or.inr hd2.2)
    refine ⟨s1, ?_, k2.trans bf2, k3.trans r2, k4.trans w2, ?_, ?_⟩
    · rw [killLine, if_pos ⟨hne, hbyte⟩, h2, Option.some_bind]
      exact k1
    · rw [k5, e2]
      exact usub_usub_one _ _ he (lt_of_le_of_lt hn (usub_lt _ _))
    · rw [k6, em2, List.replicate_succ]
      simp

theorem usub_usub_self (e w : Nat) (he : e < UINT) (hw : w < UINT) :
    usub e (usub e w) = w := by
  unfold usub UINT at *
  omega

theorem usub_of_le (e w : Nat) (he : e < UINT) (hle : w ≤ e) : usub e w = e - w := by
  unfold usub UINT at *
  omega

/-- The kill-line byte runs the kill-line loop for `input.e - input.w` rounds. -/
theorem consoleintrStep_kill (s : State) :
    consoleintrStep s 21 = killLine (usub s.input.e s.input.w) s := by
  have hm : menuKey s 21 = s := menuKey_other s 21 (by decide)
  unfold consoleintrStep
  simp only [hm, ite_self]
  rw [if_neg (by decide), if_pos trivial]

/-- C5: in every state reachable from the initial state by bytes through
`consoleintr` and by completed `consoleread` calls, the kill-line byte `^U`
completes, sets the edit cursor to the write cursor, leaves the read cursor,
the write cursor and every buffer byte unchanged, and emits exactly
`input.e - input.w` erase codes (the `uint` difference, which is `e - w`
whenever `w ≤ e`); and after `"abc\n"`, `"def"`, `^U` a `consoleread` with
`n ≥ 4` returns 4 and delivers `"abc\n"`. -/
theorem kill_line_erases (s : State) (h : Reachable s) (crt0 : Nat → Nat) (cursor0 : Nat)
    (n : Int) (env : List Wakeup) (hn : 4 ≤ n) :
    (∃ s1, consoleintrStep s 21 = some s1 ∧ s1.input.e = s1.input.w ∧
        s1.input.r = s.input.r ∧ s1.input.w = s.input.w ∧ s1.input.buf = s.input.buf ∧
        s1.emitted = s.emitted ++ List.replicate (usub s.input.e s.input.w) BACKSPACE) ∧
      (s.input.w ≤ s.input.e → usub s.input.e s.input.w = s.input.e - s.input.w) ∧
      (∀ s2, consoleintr (State.init crt0 cursor0) [97, 98, 99, 10, 100, 101, 102, 21] = some s2 →
        ∃ s3, consoleread s2 n env = .returned s3 [97, 98, 99, 10] 4) ∧
      (cursor0 ≤ 1920 →
        ∃ s2, consoleintr (State.init crt0 cursor0) [97, 98, 99, 10, 100, 101, 102, 21]
          = some s2) := by
  obtain ⟨hp, hwf, _, hnl, hcur⟩ := lineInv_reachable s h
  refine ⟨?_, fun hle => usub_of_le _ _ hwf.2.2 hle, ?_, ?_⟩
  · have hcur2 : usub s.input.e s.input.w = 0 ∨ s.cursor ≤ 1920 := by
      rcases hcur with h1 | h1
      · exact Or.inl (by rw [h1, usub_self])
      · exact Or.inr h1
    obtain ⟨s1, k1, k2, k3, k4, k5, k6⟩ :=
      killLine_run (usub s.input.e s.input.w) s hp hwf (le_refl _) hnl hcur2
    refine ⟨s1, by rw [consoleintrStep_kill]; exact k1, ?_, k3, k4, k2, k6⟩
    rw [k5, k4]
    exact usub_usub_self _ _ hwf.2.2 hwf.2.1
  · intro s2 h2
    obtain ⟨hi, _⟩ := consoleintr_input [97, 98, 99, 10, 100, 101, 102, 21]
      (State.init crt0 cursor0) s2 (by decide) h2
    have hI : s2.input = List.foldl (stepInput 0) { buf := fun _ => 0, r := 0, w := 0, e := 0 }
        [97, 98, 99, 10, 100, 101, 102, 21] := hi
    have hr : s2.input.r = 0 := by
      rw [hI]
      decide
    have hw : s2.input.w = 4 := by
      rw [hI]
      decide
    have hb : ∀ j, j < 4 → s2.input.buf j = [97, 98, 99, 10].getD j 0 := by
      rw [hI]
      decide
    have hline := consoleread_line s2 [97, 98, 99] n env (by rw [hr]; decide) (by decide)
      (by decide)
      (by
        intro j hj
        have hj3 : j < 3 := hj
        have hj2 : (s2.input.r + j) % INPUT_BUF = j := by
          rw [hr]
          unfold INPUT_BUF
          omega
        rw [hj2, hb j (by omega)]
        have : j = 0 ∨ j = 1 ∨ j = 2 := by omega
        rcases this with rfl | rfl | rfl <;> rfl)
      (by
        have hj2 : (s2.input.r + [97, 98, 99].length) % INPUT_BUF = 3 := by
          rw [hr]
          decide
        rw [hj2, hb 3 (by omega)]
        rfl)
      (by
        rw [hw, hr]
        decide)
      (by
        have : ([97, 98, 99].length : Int) = 3 := rfl
        omega)
    exact ⟨_, hline⟩
  · intro hc
    obtain ⟨s2, h2, _⟩ := consoleintr_ok [97, 98, 99, 10, 100, 101, 102, 21]
      (State.init crt0 cursor0) ⟨rfl, hc⟩
    exact ⟨s2, h2⟩

theorem kill_line_erases_witness :
    ∃ s, Reachable s ∧ s.input.e ≠ s.input.w ∧
      ∃ s1, consoleintrStep s 21 = some s1 ∧ s1.input.e = s1.input.w ∧
        s1.input.r = s.input.r ∧ s1.input.w = s.input.w ∧ s1.input.buf = s.input.buf ∧
        s1.emitted = s.emitted ++ List.replicate (usub s.input.e s.input.w) BACKSPACE := by
  obtain ⟨s, hs, _⟩ := consoleintrStep_ok (State.init (fun _ => 0) 0) 97 ⟨rfl, by decide⟩
  have hreach : Reachable s := Reachable.key _ s 97 (Reachable.init _ _) (by decide) hs
  obtain ⟨_, hi, _⟩ := consoleintrStep_fields _ s 97 hs
  have hI : s.input = stepInput 0 { buf := fun _ => 0, r := 0, w := 0, e := 0 } 97 := hi
  have hne : s.input.e ≠ s.input.w := by
    rw [hI]
    decide
  exact ⟨s, hreach, hne, (kill_line_erases s hreach (fun _ => 0) 0 4 [] (by decide)).1⟩

/-! ## The cursor chain across a read -/

theorem le_of_usub_le (e e1 w : Nat) (he : e < UINT) (he1 : e1 < UINT) (hw : w ≤ e)
    (h : usub e1 w ≤ usub e w) : e1 ≤ e := by
  unfold usub UINT at *
  omega

theorem usub_one_le (e w : Nat) (he : e < UINT) (hw : w ≤ e) (hne : e ≠ w) : usub e 1 ≤ e := by
  unfold usub UINT at *
  omega

/-- A byte moves the edit cursor forward by at most one. -/
theorem stepInput_e_le (ta : Int) (i : Input) (c : Nat) (hwf : i.WF) (hp : i.PlainInv) :
    (stepInput ta i c).e ≤ i.e + 1 := by
  obtain ⟨hr, hw, he⟩ := hwf
  obtain ⟨_, hwe, _⟩ := hp
  unfold stepInput
  generalize (if c = 13 then 10 else c) = c1
  split_ifs
  · omega
  · obtain ⟨_, _, _, a4, a5, _, _⟩ := killInput_spec (usub i.e i.w) i ⟨hr, hw, he⟩ (le_refl _)
    have := le_of_usub_le i.e _ i.w he a4 hwe a5
    omega
  · have := usub_one_le i.e i.w he hwe (by assumption)
    show usub i.e 1 ≤ i.e + 1
    omega
  · omega
  · omega
  · show (i.e + 1) % UINT ≤ i.e + 1
    exact Nat.mod_le _ _
  · show (i.e + 1) % UINT ≤ i.e + 1
    exact Nat.mod_le _ _
  · omega

/-- A byte keeps the chain `r ≤ w ≤ e ≤ r + 128` on the cursor values as long
as the edit cursor does not wrap. -/
theorem plainInv_step (s s1 : State) (c : Nat) (hwf : s.input.WF) (hp : s.input.PlainInv)
    (he : s.input.e + 1 < UINT) (hstep : consoleintrStep s c = some s1) :
    s1.input.WF ∧ s1.input.PlainInv ∧ s1.input.e ≤ s.input.e + 1 := by
  have hr := (plain_iff_ring _ hwf).mp hp
  rw [(consoleintrStep_fields s s1 c hstep).2.1]
  obtain ⟨a1, a2, _, a4⟩ := stepInput_inv s.tableActive s.input c hwf hr.1
  exact ⟨a1, (plain_iff_ring _ a1).mpr ⟨a2, a4 hp.2.1 hp.1 he⟩,
    stepInput_e_le _ _ _ hwf hp⟩

/-- The bytes of one wake-up keep the chain when the edit cursor has room for
all of them below `2^32`. -/
theorem plainInv_keys (cs : List Nat) : ∀ (s s1 : State) (m : Nat), s.input.WF →
    s.input.PlainInv → s.input.e + (cs.length + m) < UINT → consoleintr s cs = some s1 →
    s1.input.WF ∧ s1.input.PlainInv ∧ s1.input.e + m < UINT := by
  induction cs with
  | nil =>
    intro s s1 m hwf hp he h
    rw [consoleintr] at h
    injection h with h
    subst h
    exact ⟨hwf, hp, by simp only [List.length_nil] at he; omega⟩
  | cons c cs ih =>
    intro s s1 m hwf hp he h
    rw [List.length_cons] at he
    rw [consoleintr] at h
    cases h2 : consoleintrStep s c with
    | none => rw [h2] at h; cases h
    | some s2 =>
      rw [h2, Option.some_bind] at h
      obtain ⟨b1, b2, b3⟩ := plainInv_step s s2 c hwf hp (by omega) h2
      exact ih s2 s1 m b1 b2 (by omega) h

theorem keyCount_cons (ev : Wakeup) (rest : List Wakeup) :
    keyCount (ev :: rest) = ev.keys.length + keyCount rest := by
  unfold keyCount
  rw [List.map_cons, List.sum_cons]

/-- The wait loop for a property of the state and the wake-ups still to come. -/
theorem waitInput_inv_env (P : State → List Wakeup → Prop)
    (hkeys : ∀ s ev rest s1, P s (ev :: rest) → consoleintr s ev.keys = some s1 → P s1 rest)
    (env : List Wakeup) : ∀ (s : State), P s env →
    (∀ s1 env1, waitInput s env = .ready s1 env1 → P s1 env1 ∧ s1.input.r ≠ s1.input.w) ∧
    (∀ s1, waitInput s env = .killed s1 → ∃ env1, P s1 env1) := by
  induction env with
  | nil =>
    intro s hs
    rw [waitInput]
    by_cases h : s.input.r ≠ s.input.w
    · rw [if_pos h]
      refine ⟨fun s1 env1 h1 => ?_, fun s1 h1 => (by cases h1)⟩
      injection h1 with h1 h2
      subst h1 h2
      exact ⟨hs, h⟩
    · rw [if_neg h]
      exact ⟨fun s1 env1 h1 => (by cases h1), fun s1 h1 => (by cases h1)⟩
  | cons ev rest ih =>
    intro s hs
    rw [waitInput]
    by_cases h : s.input.r ≠ s.input.w
    · rw [if_pos h]
      refine ⟨fun s1 env1 h1 => ?_, fun s1 h1 => (by cases h1)⟩
      injection h1 with h1 h2
      subst h1 h2
      exact ⟨hs, h⟩
    · rw [if_neg h]
      by_cases hk : ev.killed = true
      · rw [if_pos hk]
        refine ⟨fun s1 env1 h1 => (by cases h1), fun s1 h1 => ?_⟩
        injection h1 with h1
        subst h1
        exact ⟨_, hs⟩
      · rw [if_neg hk]
        cases h2 : consoleintr s ev.keys with
        | none => exact ⟨fun s1 env1 h1 => (by cases h1), fun s1 h1 => (by cases h1)⟩
        | some s2 => exact ih s2 (hkeys s ev rest s2 hs h2)

/-- A completed read for a property of the state and the wake-ups still to
come that the bytes of a wake-up keep and that advancing the read cursor over
a published byte keeps. -/
theorem consolereadLoop_inv_env (P : State → List Wakeup → Prop)
    (hkeys : ∀ s ev rest s1, P s (ev :: rest) → consoleintr s ev.keys = some s1 → P s1 rest)
    (hadv : ∀ s env, P s env → s.input.r ≠ s.input.w → P (setR s ((s.input.r + 1) % UINT)) env)
    (target n : Nat) : ∀ (s : State) (dst : List Nat) (env : List Wakeup)
    (s1 : State) (dst1 : List Nat) (ret : Int), P s env →
    consolereadLoop target n s dst env = .returned s1 dst1 ret →
    (∃ env1, P s1 env1) ∨ ∃ s0 env1, P s0 env1 ∧ s0.input.r ≠ s0.input.w ∧
      s1 = setR (setR s0 ((s0.input.r + 1) % UINT)) (usub ((s0.input.r + 1) % UINT) 1) := by
  induction n with
  | zero =>
    intro s dst env s1 dst1 ret hs h
    rw [consolereadLoop] at h
    injection h with h1 _ _
    subst h1
    exact Or.inl ⟨_, hs⟩
  | succ n ih =>
    intro s dst env s1 dst1 ret hs h
    rw [consolereadLoop] at h
    obtain ⟨w1, w2⟩ := waitInput_inv_env P hkeys env s hs
    cases hw : waitInput s env with
    | killed s2 =>
      rw [hw] at h
      injection h with h1 _ _
      subst h1
      exact Or.inl (w2 _ hw)
    | asleep s2 =>
      rw [hw] at h
      cases h
    | halted =>
      rw [hw] at h
      cases h
    | ready s2 env2 =>
      rw [hw] at h
      obtain ⟨p2, ne2⟩ := w1 s2 env2 hw
      dsimp only at h
      by_cases hc : s2.input.buf (s2.input.r % INPUT_BUF) = 4
      · rw [if_pos hc] at h
        by_cases hn : n + 1 < target
        · rw [if_pos hn] at h
          injection h with h1 _ _
          exact Or.inr ⟨s2, env2, p2, ne2, h1.symm⟩
        · rw [if_neg hn] at h
          injection h with h1 _ _
          subst h1
          exact Or.inl ⟨_, hadv s2 env2 p2 ne2⟩
      · rw [if_neg hc] at h
        by_cases hc2 : s2.input.buf (s2.input.r % INPUT_BUF) = 10
        · rw [if_pos hc2] at h
          injection h with h1 _ _
          subst h1
          exact Or.inl ⟨_, hadv s2 env2 p2 ne2⟩
        · rw [if_neg hc2] at h
          exact ih _ _ _ _ _ _ (hadv s2 env2 p2 ne2) h

/-- Advancing the read cursor over a published byte keeps the chain. -/
theorem plainInv_adv (s : State) (hwf : s.input.WF) (hp : s.input.PlainInv)
    (hne : s.input.r ≠ s.input.w) :
    (setR s ((s.input.r + 1) % UINT)).input.WF ∧
      (setR s ((s.input.r + 1) % UINT)).input.PlainInv := by
  obtain ⟨h1, h2, h3⟩ := hwf
  obtain ⟨h4, h5, h6⟩ := hp
  unfold setR Input.WF Input.PlainInv
  dsimp only
  unfold UINT INPUT_BUF at *
  omega

/-- A completed `consoleread` keeps the chain `r ≤ w ≤ e ≤ r + 128` on the
cursor values when the edit cursor has room below `2^32` for the bytes that
arrive while the reader sleeps. -/
theorem plainInv_read (s s1 : State) (n : Int) (env : List Wakeup) (dst : List Nat) (ret : Int)
    (hwf : s.input.WF) (hp : s.input.PlainInv) (he : s.input.e + keyCount env < UINT)
    (hread : consoleread s n env = .returned s1 dst ret) :
    s1.input.WF ∧ s1.input.PlainInv := by
  unfold consoleread at hread
  rcases consolereadLoop_inv_env
    (fun t ev => t.input.WF ∧ t.input.PlainInv ∧ t.input.e + keyCount ev < UINT)
    (fun t ev rest t1 ht hk => by
      obtain ⟨a1, a2, a3⟩ := ht
      rw [keyCount_cons] at a3
      exact plainInv_keys ev.keys t t1 (keyCount rest) a1 a2 a3 hk)
    (fun t ev ht hne => by
      obtain ⟨a1, a2, a3⟩ := ht
      obtain ⟨b1, b2⟩ := plainInv_adv t a1 a2 hne
      exact ⟨b1, b2, a3⟩)
    n.toNat n.toNat s [] env s1 dst ret ⟨hwf, hp, he⟩ hread with ⟨_, h1⟩ | ⟨s0, _, h1, _, h3⟩
  · exact ⟨h1.1, h1.2.1⟩
  · rw [h3, setR_back s0 h1.1.1, setR_self]
    exact ⟨h1.1, h1.2.1⟩

/-- C1, as stated, fails: with `r = w = e = 2^32 - 1` (an empty buffer after
`2^32 - 1` bytes) the invariant holds on the cursor values, and storing one
more byte wraps the `uint` edit cursor to 0, below the write cursor. -/
theorem ring_invariant_counterexample :
    ({ buf := fun _ => 0, r := 4294967295, w := 4294967295, e := 4294967295 } : Input).PlainInv ∧
      (consoleintrStep { (State.init (fun _ => 0) 0) with
          input := { buf := fun _ => 0, r := 4294967295, w := 4294967295, e := 4294967295 } }
        97).map (fun s1 => (s1.input.r, s1.input.w, s1.input.e))
        = some (4294967295, 4294967295, 0) ∧
      ¬ ({ buf := store (fun _ => 0) 127 97, r := 4294967295, w := 4294967295, e := 0 }
          : Input).PlainInv := by
  refine ⟨?_, by decide, ?_⟩
  · unfold Input.PlainInv INPUT_BUF
    decide
  · unfold Input.PlainInv INPUT_BUF
    decide

/-- C1, amended: the initial state satisfies `r ≤ w ≤ e ≤ r + 128`; for
cursors in the type `uint` that chain is the ring invariant
`w - r ≤ e - r ≤ 128` (differences modulo `2^32`) together with `r ≤ e`;
every byte through `consoleintr` and every completed `consoleread` keeps the
ring invariant; a byte keeps the chain on the cursor values as long as the
edit cursor does not wrap (`e + 1 < 2^32`), and a completed `consoleread`
keeps the chain as long as the edit cursor has room below `2^32` for the bytes
that arrive while the reader sleeps (always, when none arrives); with the
display not halted a byte always yields a state. -/
theorem ring_invariant :
    (∀ crt0 cursor0, (State.init crt0 cursor0).input.WF ∧
      (State.init crt0 cursor0).input.PlainInv) ∧
    (∀ i : Input, i.WF → (i.PlainInv ↔ (i.RingInv ∧ i.r ≤ i.e))) ∧
    (∀ s c s1, s.input.WF → s.input.RingInv → consoleintrStep s c = some s1 →
      s1.input.WF ∧ s1.input.RingInv) ∧
    (∀ s c s1, s.input.WF → s.input.PlainInv → s.input.e + 1 < UINT →
      consoleintrStep s c = some s1 → s1.input.WF ∧ s1.input.PlainInv) ∧
    (∀ s n env s1 dst ret, s.input.WF → s.input.RingInv →
      consoleread s n env = .returned s1 dst ret → s1.input.WF ∧ s1.input.RingInv) ∧
    (∀ s n env s1 dst ret, s.input.WF → s.input.PlainInv → s.input.e + keyCount env < UINT →
      consoleread s n env = .returned s1 dst ret → s1.input.WF ∧ s1.input.PlainInv) ∧
    (∀ s c, DisplayOK s → ∃ s1, consoleintrStep s c = some s1) := by
  refine ⟨?_, plain_iff_ring, ?_, ?_, ?_, ?_, ?_⟩
  · intro crt0 cursor0
    unfold Input.WF Input.PlainInv State.init UINT INPUT_BUF
    dsimp only
    omega
  · intro s c s1 h1 h2 h3
    exact ringInv_step s s1 c ⟨h1, h2⟩ h3
  · intro s c s1 h1 h2 h3 h4
    obtain ⟨a1, a2, _⟩ := plainInv_step s s1 c h1 h2 h3 h4
    exact ⟨a1, a2⟩
  · intro s n env s1 dst ret h1 h2 h3
    exact ringInv_read s s1 n env dst ret ⟨h1, h2⟩ h3
  · intro s n env s1 dst ret h1 h2 h3 h4
    exact plainInv_read s s1 n env dst ret h1 h2 h3 h4
  · intro s c h
    obtain ⟨s1, h1, _⟩ := consoleintrStep_ok s c h
    exact ⟨s1, h1⟩

theorem ring_invariant_witness :
    (∃ s1, consoleintrStep (State.init (fun _ => 0) 0) 97 = some s1 ∧
      s1.input.WF ∧ s1.input.RingInv ∧ s1.input.PlainInv) ∧
    (consoleread { (State.init (fun _ => 0) 0) with
        input := { buf := fun _ => 10, r := 7, w := 8, e := 9 } } 5 [⟨false, [97]⟩]
      = .returned (advR { (State.init (fun _ => 0) 0) with
        input := { buf := fun _ => 10, r := 7, w := 8, e := 9 } } 1) [10] 1 ∧
      (advR { (State.init (fun _ => 0) 0) with
        input := { buf := fun _ => 10, r := 7, w := 8, e := 9 } } 1).input.PlainInv) := by
  constructor
  · obtain ⟨s1, h1⟩ := ring_invariant.2.2.2.2.2.2 (State.init (fun _ => 0) 0) 97
      ⟨rfl, by decide⟩
    have h0 := ring_invariant.1 (fun _ => 0) 0
    have hring := ring_invariant.2.2.1 _ 97 s1 h0.1 ((ring_invariant.2.1 _ h0.1).mp h0.2).1 h1
    exact ⟨s1, h1, hring.1, hring.2,
      (ring_invariant.2.2.2.1 _ 97 s1 h0.1 h0.2 (by decide) h1).2⟩
  · have hread : consoleread { (State.init (fun _ => 0) 0) with
        input := { buf := fun _ => 10, r := 7, w := 8, e := 9 } } 5 [⟨false, [97]⟩]
      = .returned (advR { (State.init (fun _ => 0) 0) with
        input := { buf := fun _ => 10, r := 7, w := 8, e := 9 } } 1) [10] 1 :=
      consoleread_line _ [] 5 _ (by decide) (by decide) (by decide) (by decide) rfl rfl
        (by decide)
    exact ⟨hread, (ring_invariant.2.2.2.2.2.1 _ 5 [⟨false, [97]⟩] _ [10] 1
      ⟨by decide, by decide, by decide⟩ (by unfold Input.PlainInv INPUT_BUF; decide)
      (by decide) hread).2⟩

end Console
